import Mathlib

/-!
# dirutil: the glob matcher, the path functions and the walk of `dirutil.h`

A shallow embedding of `dir_glob_match` and of the functions it calls
(`dir_glob_match_range`, `dir_glob_match_groups`, `dir_strchr2`,
`dir_glob_match_impl`), of `dir_path_tidy` and `dir_path_extension`, and of
`dir_walkex` with `dir_walk_impl`, followed by theorems about them.

## Memory model

A C `char` array is a `List Char` and a pointer into it is a `Nat` index.
A C string is the part of an array before its first NUL cell, so the array
that holds the string `s` is `cstr s slack = s ++ NUL :: slack`, where `slack`
is whatever lies behind the terminator (`[]` when the array is exactly as long
as the string needs). Reading or writing a cell outside the array is undefined
behaviour in C; the embedding reports it as `Exec.oob` instead of inventing a
value. A function that writes to an array returns the new content of the array.

A cell holds the `Char` whose code is the byte. The code tests cells for
equality everywhere but in the range test of `dir_glob_match_range`, which
compares them as values of the C type `char`: the type is signed on the platform
of the code (x86), so that test compares `char_value`, under which the bytes
`0x80` to `0xff` are the values -128 to -1. Values of `unsigned int` are natural
numbers reduced modulo `2 ^ 32` where the code can overflow.

## Loops

Loops that walk over consecutive cells are recursions on the list of cells from
the pointer on. The `while ( glob_pattern != glob_end )` loop of
`dir_glob_match_impl`, whose pointer jumps, is a recursion on a fuel counter,
one unit for each iteration; so are the loops of `dir_glob_match_range`,
`dir_glob_match_groups` and the `for` loop of the `**` case. The fuel handed out
covers every cell of the array, and `dir_glob_match_ne_nofuel` proves that it is
never used up. The recursion of `dir_walk_impl` takes one unit of fuel for each
level of directories; `dir_walkex` hands out one unit for each cell of its path
buffer.

## The file system

The walk reads the file system through `opendir`/`readdir` and `stat`; the
embedding takes both as functions of the path string (`filesystem`). The
callback is recorded: a run of the walk returns the list of the calls it made.
-/

namespace Dirutil

/-! ## Results of running C code -/

/-- Outcome of running a C function of the embedding: it returned a value, it
read outside an array, or the fuel of the embedding ran out. -/
inductive Exec (α : Type) where
  | ret : α → Exec α
  | oob : Exec α
  | nofuel : Exec α
  deriving DecidableEq, Repr

/-- Sequencing: the continuation runs only when the first part returned. -/
def Exec.bind {α β : Type} (x : Exec α) (f : α → Exec β) : Exec β :=
  match x with
  | .ret a => f a
  | .oob => .oob
  | .nofuel => .nofuel

instance : Monad Exec where
  pure := Exec.ret
  bind := Exec.bind

/-- The enum `dir_glob_result` (dirutil.h:251). -/
inductive dir_glob_result where
  | DIR_GLOB_MATCH
  | DIR_GLOB_NO_MATCH
  | DIR_GLOB_INVALID_PATTERN
  deriving DecidableEq, Repr

open dir_glob_result

/-! ## Characters, arrays and libc -/

/-- The string terminator. -/
def NUL : Char := Char.ofNat 0

/-- The array that holds the C string `s`: its characters, the terminator, and
whatever cells lie behind the terminator. -/
def cstr (s : List Char) (slack : List Char) : List Char := s ++ NUL :: slack

/-- Read of cell `i` of the array `m` (`m[i]` or `*(m + i)` in C). -/
def rd (m : List Char) (i : Nat) : Exec Char :=
  match m.get? i with
  | some c => .ret c
  | none => .oob

/-- The macro `DIR_IS_SEP(c)` (dirutil.h:308). -/
def DIR_IS_SEP (c : Char) : Bool := c == '\\' || c == '/'

/-- Loop of `strlen` over the cells from the pointer on; `n` counts the
characters passed so far. -/
def strlen_go : List Char → Nat → Exec Nat
  | [], _ => .oob
  | x :: xs, n => if x = NUL then .ret n else strlen_go xs (n + 1)

/-- libc `strlen(m + s)`. -/
def strlen (m : List Char) (s : Nat) : Exec Nat := strlen_go (m.drop s) 0

/-- The macro `dir_strlen32(s)`, `(unsigned int)strlen(s)` (dirutil.h:272). -/
def dir_strlen32 (m : List Char) (s : Nat) : Exec Nat := do
  let n ← strlen m s
  pure (n % 2 ^ 32)

/-- Loop of `strchr` over the cells from index `i` on. -/
def strchr_go (c : Char) : List Char → Nat → Exec (Option Nat)
  | [], _ => .oob
  | x :: xs, i =>
    if x = c then .ret (some i)
    else if x = NUL then .ret none
    else strchr_go c xs (i + 1)

/-- libc `strchr(m + s, c)`: index of the first `c` in the string at `s`, or
the null pointer (`none`). -/
def strchr (m : List Char) (s : Nat) (c : Char) : Exec (Option Nat) :=
  strchr_go c (m.drop s) s

/-- libc `strncmp(a + i, b + j, n)`: `0` when the first `n` characters agree
(or both strings end together before that), else the difference of the first
two characters that differ. -/
def strncmp (a : List Char) (i : Nat) (b : List Char) (j : Nat) : Nat → Exec Int
  | 0 => .ret 0
  | n + 1 => do
    let x ← rd a i
    let y ← rd b j
    if x ≠ y then pure ((x.toNat : Int) - (y.toNat : Int))
    else if x = NUL then pure 0
    else strncmp a (i + 1) b (j + 1) n

/-- Conversion of an `unsigned int` value to `int` (two's complement). -/
def to_int (n : Nat) : Int :=
  if n % 2 ^ 32 < 2 ^ 31 then ((n % 2 ^ 32 : Nat) : Int) else ((n % 2 ^ 32 : Nat) : Int) - 2 ^ 32

/-! ## dir_glob_match_range (dirutil.h:687) -/

/-- The value of a cell as a C `char`. The type is signed here, so the bytes
`0x80` to `0xff` are the values -128 to -1; this is the order in which
`range_start[0] <= match_char && match_char <= range_start[2]` compares. -/
def char_value (c : Char) : Int :=
  if c.toNat < 128 then (c.toNat : Int) else (c.toNat : Int) - 256

/-- The `while ( range_start != range_end + 1 )` loop of
`dir_glob_match_range`; `match_return` is the C `int` flag as a `Bool`. -/
def dir_glob_match_range_loop (m : List Char) (range_end : Nat) (match_char : Char)
    (match_return : Bool) : Nat → Nat → Exec Bool
  | 0, _ => .nofuel
  | fuel + 1, range_start =>
    if range_start = range_end + 1 then .ret (!match_return)
    else do
      let c1 ← rd m (range_start + 1)
      if c1 = '-' then do
        let c0 ← rd m range_start
        if char_value c0 ≤ char_value match_char then do
          let c2 ← rd m (range_start + 2)
          if char_value match_char ≤ char_value c2 then pure match_return
          else dir_glob_match_range_loop m range_end match_char match_return fuel (range_start + 3)
        else dir_glob_match_range_loop m range_end match_char match_return fuel (range_start + 3)
      else do
        let c0 ← rd m range_start
        if c0 = match_char then pure match_return
        else dir_glob_match_range_loop m range_end match_char match_return fuel (range_start + 1)

/-- The function `dir_glob_match_range( range_start, range_end, match_char )`;
the result is the C `int` read as a truth value. -/
def dir_glob_match_range (m : List Char) (range_start range_end : Nat) (match_char : Char) :
    Exec Bool := do
  let c ← rd m range_start
  if c = '!' then
    dir_glob_match_range_loop m range_end match_char false (m.length + 1) (range_start + 1)
  else
    dir_glob_match_range_loop m range_end match_char true (m.length + 1) range_start

/-! ## dir_glob_match_groups (dirutil.h:715) -/

/-- The inner loop `while ( *item_end != ',' && item_end != group_end + 1 )`
of `dir_glob_match_groups`, over the cells from `item_end` on. -/
def item_end_go (group_end : Nat) : List Char → Nat → Exec Nat
  | [], _ => .oob
  | x :: xs, item_end =>
    if x ≠ ',' ∧ item_end ≠ group_end + 1 then item_end_go group_end xs (item_end + 1)
    else .ret item_end

/-- The `while ( item_start < group_end )` loop of `dir_glob_match_groups`. -/
def dir_glob_match_groups_loop (m : List Char) (group_end : Nat) (p : List Char)
    (match_this : Nat) : Nat → Nat → Exec Int
  | 0, _ => .nofuel
  | fuel + 1, item_start =>
    if item_start < group_end then do
      let item_end ← item_end_go group_end (m.drop item_start) item_start
      let item_len := (item_end - item_start) % 2 ^ 32
      let c ← strncmp p match_this m item_start item_len
      if c = 0 then pure (to_int item_len)
      else dir_glob_match_groups_loop m group_end p match_this fuel (item_end + 1)
    else .ret (-1)

/-- The function `dir_glob_match_groups( group_start, group_end, match_this )`:
the pattern array is `m`, the path array is `p`. -/
def dir_glob_match_groups (m : List Char) (group_start group_end : Nat) (p : List Char)
    (match_this : Nat) : Exec Int :=
  dir_glob_match_groups_loop m group_end p match_this (m.length + 1) group_start

/-! ## dir_strchr2 (dirutil.h:737) -/

/-- The inner loop `while ( s[1] == a || s[1] == b ) ++s;` of `dir_strchr2`,
over the cells from `s + 1` on. -/
def dir_strchr2_run (a b : Char) : List Char → Nat → Exec Nat
  | [], _ => .oob
  | x :: xs, s => if x = a ∨ x = b then dir_strchr2_run a b xs (s + 1) else .ret s

/-- The outer loop `while ( *s )` of `dir_strchr2`, over the cells from `s` on. -/
def dir_strchr2_go (a b : Char) : List Char → Nat → Exec (Option Nat)
  | [], _ => .oob
  | x :: xs, s =>
    if x = NUL then .ret none
    else if x = a ∨ x = b then do
      let r ← dir_strchr2_run a b xs s
      pure (some r)
    else dir_strchr2_go a b xs (s + 1)

/-- The function `dir_strchr2( s, a, b )`: the end of the first run of `a`/`b`
characters of the string at `s`, or the null pointer (`none`). -/
def dir_strchr2 (m : List Char) (s : Nat) (a b : Char) : Exec (Option Nat) :=
  dir_strchr2_go a b (m.drop s) s

/-! ## dir_glob_match_impl (dirutil.h:752) -/

/-- The scan `while ( *next && ( *next != glob_pattern[1] ) && !DIR_IS_SEP( *next ) ) ++next;`
of the `*` case, over the cells from `next` on. -/
def star_next_go (g1 : Char) : List Char → Nat → Exec Nat
  | [], _ => .oob
  | x :: xs, next =>
    if x ≠ NUL ∧ x ≠ g1 ∧ DIR_IS_SEP x = false then star_next_go g1 xs (next + 1)
    else .ret next

/-- The loop `while ( DIR_IS_SEP( *unverified ) ) ++unverified;` (skip running
slashes), over the cells from `unverified` on. -/
def skip_sep_go : List Char → Nat → Exec Nat
  | [], _ => .oob
  | x :: xs, unverified =>
    if DIR_IS_SEP x then skip_sep_go xs (unverified + 1) else .ret unverified

/-- The loop `while ( group_end != glob_end && *group_end != '}' ) ++group_end;`
of the `{` case, over the cells from `group_end` on. -/
def group_end_go (glob_end : Option Nat) : List Char → Nat → Exec Nat
  | [], group_end => if some group_end = glob_end then .ret group_end else .oob
  | x :: xs, group_end =>
    if some group_end ≠ glob_end ∧ x ≠ '}' then group_end_go glob_end xs (group_end + 1)
    else .ret group_end

/-- The `for` loop of the `**` case. `sub_search` is the pointer after the
`++sub_search` at the top of the body (the loop starts from `unverified - 1`, so
the first attempt is at `unverified`); `attempt s` is the recursive call
`dir_glob_match_impl( glob_pattern + 3, glob_end, s )`. -/
def sub_search_loop (attempt : Nat → Exec dir_glob_result) (p : List Char) :
    Nat → Nat → Exec dir_glob_result
  | 0, _ => .nofuel
  | fuel + 1, sub_search => do
    let res ← attempt sub_search
    if res ≠ DIR_GLOB_NO_MATCH then pure res
    else do
      let nxt ← dir_strchr2 p (sub_search + 1) '/' '\\'
      match nxt with
      | none => pure DIR_GLOB_NO_MATCH
      | some s => sub_search_loop attempt p fuel (s + 1)

/-- The function `dir_glob_match_impl( glob_pattern, glob_end, path )`. `m` is the
pattern array and `p` the path array; `glob_end` is `none` for the null pointer.
One unit of fuel is one iteration of `while ( glob_pattern != glob_end )`. -/
def dir_glob_match_impl (m p : List Char) (glob_end : Option Nat) :
    Nat → Nat → Nat → Exec dir_glob_result
  | 0, _, _ => .nofuel
  | fuel + 1, glob_pattern, unverified =>
    if some glob_pattern = glob_end then do
      let c ← rd p unverified
      pure (if c = NUL then DIR_GLOB_MATCH else DIR_GLOB_NO_MATCH)
    else do
      let g ← rd m glob_pattern
      if g = NUL then pure DIR_GLOB_NO_MATCH
      else if g = '*' then do
        let g1 ← rd m (glob_pattern + 1)
        if g1 = NUL then do
          let r ← dir_strchr2 p unverified '/' '\\'
          pure (if r.isSome then DIR_GLOB_NO_MATCH else DIR_GLOB_MATCH)
        else if g1 = '*' then do
          let g2 ← rd m (glob_pattern + 2)
          if g2 ≠ '/' then
            pure (if g2 = NUL then DIR_GLOB_MATCH else DIR_GLOB_INVALID_PATTERN)
          else
            sub_search_loop (fun s => dir_glob_match_impl m p glob_end fuel (glob_pattern + 3) s)
              p (p.length + 1) unverified
        else do
          let next ← star_next_go g1 (p.drop unverified) unverified
          let n ← rd p next
          if n = NUL then pure DIR_GLOB_NO_MATCH
          else if n = '\\' ∨ n = '/' then
            if g1 = '/' then do
              let u ← skip_sep_go (p.drop (next + 1)) (next + 1)
              dir_glob_match_impl m p glob_end fuel (glob_pattern + 2) u
            else pure DIR_GLOB_NO_MATCH
          else dir_glob_match_impl m p glob_end fuel (glob_pattern + 1) next
      else if g = '?' then do
        let c ← rd p unverified
        if DIR_IS_SEP c then pure DIR_GLOB_NO_MATCH
        else dir_glob_match_impl m p glob_end fuel (glob_pattern + 1) (unverified + 1)
      else if g = '[' then do
        let range_start := glob_pattern + 1
        let range_end ← strchr m range_start ']'
        match range_end with
        | none => pure DIR_GLOB_INVALID_PATTERN
        | some range_end => do
          let c ← rd p unverified
          let r ← dir_glob_match_range m range_start (range_end - 1) c
          if r = false then pure DIR_GLOB_NO_MATCH
          else dir_glob_match_impl m p glob_end fuel (range_end + 1) (unverified + 1)
      else if g = '{' then do
        let group_start := glob_pattern + 1
        let group_end ← group_end_go glob_end (m.drop group_start) group_start
        let match_len ← dir_glob_match_groups m group_start (group_end - 1) p unverified
        if match_len < 0 then pure DIR_GLOB_NO_MATCH
        else dir_glob_match_impl m p glob_end fuel (group_end + 1) (unverified + match_len.toNat)
      else do
        let c ← rd p unverified
        if c ≠ g then pure DIR_GLOB_NO_MATCH
        else dir_glob_match_impl m p glob_end fuel (glob_pattern + 1) (unverified + 1)

/-- The function `dir_glob_match( glob_pattern, path )` (dirutil.h:882) on the
pattern array `m` and the path array `p`. -/
def dir_glob_match (m p : List Char) : Exec dir_glob_result := do
  let n ← dir_strlen32 m 0
  dir_glob_match_impl m p (some n) (m.length + 1) 0 0

/-- Run `dir_glob_match` on two strings held in arrays of exactly their size. -/
def glob (pattern path : String) : Exec dir_glob_result :=
  dir_glob_match (cstr pattern.toList []) (cstr path.toList [])

/-! ## Writing to arrays, unsigned arithmetic and more libc -/

/-- Write of cell `i` of the array `m` (`m[i] = c` in C); a write outside the
array is undefined behaviour and is reported as `Exec.oob`. -/
def wr : List Char → Nat → Char → Exec (List Char)
  | [], _, _ => .oob
  | _ :: xs, 0, c => .ret (c :: xs)
  | x :: xs, i + 1, c => do
    let r ← wr xs i c
    pure (x :: r)

/-- Reduction of a value to the range of `unsigned int`. -/
def u32 (n : Nat) : Nat := n % 2 ^ 32

/-- Subtraction of `unsigned int` values, which wraps around below zero. -/
def usub (a b : Nat) : Nat := (a + (2 ^ 32 - b % 2 ^ 32)) % 2 ^ 32

/-- libc `memcpy( dst + d, src + s, n )` between two different arrays; the
result is the new content of `dst`. -/
def memcpy (dst : List Char) (d : Nat) (src : List Char) (s : Nat) : Nat → Exec (List Char)
  | 0 => .ret dst
  | n + 1 => do
    let c ← rd src s
    let dst2 ← wr dst d c
    memcpy dst2 (d + 1) src (s + 1) n

/-- Read of the `n` cells from index `s` on. -/
def rd_n (m : List Char) (s : Nat) : Nat → Exec (List Char)
  | 0 => .ret []
  | n + 1 => do
    let c ← rd m s
    let cs ← rd_n m (s + 1) n
    pure (c :: cs)

/-- Write of the cells `cs` from index `d` on. -/
def wr_n (m : List Char) (d : Nat) : List Char → Exec (List Char)
  | [] => .ret m
  | c :: cs => do
    let m2 ← wr m d c
    wr_n m2 (d + 1) cs

/-- libc `memmove( m + d, m + s, n )` inside one array: the `n` cells are
copied as if through a temporary array. -/
def memmove (m : List Char) (d s n : Nat) : Exec (List Char) := do
  let cs ← rd_n m s n
  wr_n m d cs

/-- Loop of reading a C string, over the cells from the pointer on. -/
def c_string_go : List Char → Exec (List Char)
  | [] => .oob
  | x :: xs => if x = NUL then .ret [] else do
    let r ← c_string_go xs
    pure (x :: r)

/-- The C string that starts at cell `i` of the array `m`, as a callee that
reads it up to the terminator sees it. -/
def c_string_at (m : List Char) (i : Nat) : Exec (List Char) := c_string_go (m.drop i)

/-- Loop of `strcmp`, over the cells of the second string. -/
def strcmp_go (a : List Char) : Nat → List Char → Exec Int
  | _, [] => .oob
  | i, y :: ys => do
    let x ← rd a i
    if x ≠ y then pure ((x.toNat : Int) - (y.toNat : Int))
    else if x = NUL then pure 0
    else strcmp_go a (i + 1) ys

/-- libc `strcmp( a + i, b )` where `b` is the array of a string literal. -/
def strcmp (a : List Char) (i : Nat) (b : List Char) : Exec Int := strcmp_go a i b

/-! ## Path tidying (dirutil.h:321, 489-527) -/

/-- The function `dir_walk_iswhite( c )`, as a truth value. -/
def dir_walk_iswhite (c : Char) : Bool :=
  c == ' ' || c == '\t' || c == '\n' || c == Char.ofNat 11 || c == Char.ofNat 12 || c == '\r'

/-- The loop `while ( ( c = *runner++ ) )` of
`dir_walk_trim_convert_slashes_inplace` (the branch without `_WIN32`); the
result is the array and `dest - odest`. One unit of fuel is one iteration. -/
def convert_slashes_loop (slash_substitute : Char) :
    Nat → List Char → Nat → Nat → Exec (List Char × Nat)
  | 0, _, _, _ => .nofuel
  | fuel + 1, m, runner, dest => do
    let c ← rd m runner
    if c = NUL then do
      let m2 ← wr m dest NUL
      pure (m2, u32 dest)
    else if c = '/' ∨ c = '\\' then do
      let nxt ← rd m (runner + 1)
      if DIR_IS_SEP nxt then convert_slashes_loop slash_substitute fuel m (runner + 1) dest
      else do
        let m2 ← wr m dest slash_substitute
        convert_slashes_loop slash_substitute fuel m2 (runner + 1) (dest + 1)
    else do
      let m2 ← wr m dest c
      convert_slashes_loop slash_substitute fuel m2 (runner + 1) (dest + 1)

/-- The function `dir_walk_trim_convert_slashes_inplace( dest, slash_substitute )`
on the array `m` (the branch without `_WIN32`). The loop runs once for each
character of the string and once for its terminator, which is the fuel it gets. -/
def dir_walk_trim_convert_slashes_inplace (m : List Char) (slash_substitute : Char) :
    Exec (List Char × Nat) := do
  let n ← strlen m 0
  convert_slashes_loop slash_substitute (n + 1) m 0 0

/-- The first loop of `dir_walk_path_trimwhite_unquote`, which steps `path_len`
down over trailing white space and quotes. `path_buffer[path_len - 1]` is read in
every evaluation of the condition, also when `path_len` is `0`, where the
`unsigned` index wraps around. -/
def trim_tail_loop (m : List Char) : Nat → Nat → Exec Nat
  | 0, _ => .nofuel
  | fuel + 1, path_len => do
    let c ← rd m (usub path_len 1)
    if (path_len ≠ 0 ∧ dir_walk_iswhite c = true) ∨ c = '"' then
      trim_tail_loop m fuel (usub path_len 1)
    else pure path_len

/-- The second loop of `dir_walk_path_trimwhite_unquote`, over the cells from `p`
on; the result is `p` and `path_len`. -/
def trim_head_go : List Char → Nat → Nat → Exec (Nat × Nat)
  | [], _, _ => .oob
  | x :: xs, p, path_len =>
    if (path_len ≠ 0 ∧ dir_walk_iswhite x = true) ∨ x = '"' then
      trim_head_go xs (p + 1) (usub path_len 1)
    else .ret (p, path_len)

/-- The function `dir_walk_path_trimwhite_unquote( path_buffer, path_len )`; the
result is the array and the returned length. The first loop stops within `2^32`
steps or never. -/
def dir_walk_path_trimwhite_unquote (m : List Char) (path_len : Nat) : Exec (List Char × Nat) := do
  let path_len ← trim_tail_loop m (2 ^ 32 + 1) path_len
  let (p, path_len) ← trim_head_go m 0 path_len
  let m2 ← if p ≠ 0 then memmove m 0 p path_len else pure m
  let m3 ← wr m2 path_len NUL
  pure (m3, path_len)

/-- The function `dir_path_tidy( path, slash, path_len )`; the result is the
array and the returned length. -/
def dir_path_tidy (m : List Char) (slash : Char) (path_len : Nat) : Exec (List Char × Nat) := do
  let path_len ← if path_len ≠ 0 then pure path_len else dir_strlen32 m 0
  let (m1, _) ← dir_walk_path_trimwhite_unquote m path_len
  let (m2, path_len) ← dir_walk_trim_convert_slashes_inplace m1 slash
  if path_len ≠ 0 then do
    let c ← rd m2 (path_len - 1)
    if DIR_IS_SEP c then do
      let m3 ← wr m2 (path_len - 1) NUL
      pure (m3, path_len - 1)
    else pure (m2, path_len)
  else pure (m2, path_len)

/-! ## dir_path_extension (dirutil.h:545) -/

/-- The loop `while ( path_len > 1 && path[path_len - 1] != '.' &&
!DIR_IS_SEP( path[path_len - 1] ) ) --path_len;` of `dir_path_extension`. -/
def extension_scan (m : List Char) : Nat → Exec Nat
  | 0 => .ret 0
  | 1 => .ret 1
  | n + 2 => do
    let c ← rd m (n + 1)
    if c ≠ '.' ∧ DIR_IS_SEP c = false then extension_scan m (n + 1) else pure (n + 2)

/-- The function `dir_path_extension( path, path_len, extension_len )`: the
returned pointer (`none` for the null pointer, `some i` for `path + i`) and the
value stored in `*extension_len`. -/
def dir_path_extension (m : List Char) (path_len : Nat) : Exec (Option Nat × Nat) :=
  if path_len = 0 then .ret (none, 0)
  else do
    let c ← rd m (path_len - 1)
    if DIR_IS_SEP c ∨ c = '.' then pure (none, 0)
    else do
      let n ← extension_scan m path_len
      if 1 < n then do
        let c2 ← rd m (n - 2)
        if DIR_IS_SEP c2 = false then pure (some n, usub path_len n)
        else pure (none, 0)
      else pure (none, 0)

/-! ## The directory walk (dirutil.h:310, 355-487, 566-585)

The branch without `_WIN32` is embedded. The file system is a pair of functions
of the path string: what `opendir`/`readdir` list and what `stat` reports. The
callback is the record of its calls, since `dir_walk_impl` ignores what it
returns. -/

/-- The enum `dir_error` (dirutil.h:74). -/
inductive dir_error where
  | DIR_ERROR_OK
  | DIR_ERROR_FAILED
  | DIR_ERROR_PATH_TOO_DEEP
  | DIR_ERROR_PATH_DO_NOT_EXIST
  deriving DecidableEq, Repr

/-- The enum `dir_item_type` (dirutil.h:113). -/
inductive dir_item_type where
  | DIR_ITEM_FILE
  | DIR_ITEM_DIR
  | DIR_ITEM_UNHANDLED
  deriving DecidableEq, Repr

open dir_error dir_item_type

/-- The values of `d_type` the walk tells apart: `DT_DIR`, `DT_UNKNOWN`, and any
other type (`DT_REG` stands for all of them). -/
inductive d_type_t where
  | DT_UNKNOWN
  | DT_DIR
  | DT_REG
  deriving DecidableEq, Repr

/-- A `struct dirent` as far as the walk reads it: the array `d_name` and
`d_type`. -/
structure dirent where
  d_name : List Char
  d_type : d_type_t
  deriving DecidableEq, Repr

/-- The file system under the walk: `opendir path` is the sequence of entries
that `readdir` yields for the directory (`none` when `opendir` fails), and
`stat path` tells whether the path is a directory (`none` when `stat` fails). -/
structure filesystem where
  opendir : List Char → Option (List dirent)
  stat : List Char → Option Bool

/-- One call of the callback: the string at `path`, `path_len` and `type`. -/
structure walk_event where
  path : List Char
  path_len : Nat
  type : dir_item_type
  deriving DecidableEq, Repr

/-- What a part of the walk leaves behind: the error code, the path buffer and
the calls of the callback in order; `returned` tells that `dir_walk_impl` was
left by a `return` inside its loop. -/
structure walk_out where
  result : dir_error
  returned : Bool
  path_buffer : List Char
  calls : List walk_event
  deriving DecidableEq, Repr

def DIR_WALK_DEPTH_FIRST : Nat := 1 <<< 1

def DIR_WALK_SINGLE_DIRECTORY : Nat := 1 <<< 2

def DIR_WALK_ONLY_DIRECTORIES : Nat := 1 <<< 3

def DIR_WALK_ONLY_FILES : Nat := 1 <<< 4

def DIR_WALK_IGNORE_DOT_DIRECTORIES : Nat := 1 <<< 5

def DIR_WALK_IGNORE_DOT_FILES : Nat := 1 <<< 6

def DIR_WALK_ROOT_RELATIVE_PATHS : Nat := 1 <<< 7

def DIR_WALK_PATHS_SLASH_FORWARD : Nat := 1 <<< 14

def DIR_WALK_PATHS_SLASH_BACK : Nat := 1 <<< 15

def DIR_WALK_PATHS_SLASH_MASK : Nat := 0xc000

/-- The macro `DIR_SEP_PLATFORM` outside `_WIN32`. -/
def DIR_SEP_PLATFORM : Char := '/'

/-- The function `dir_walk_slash_by_flags( flags )`. -/
def dir_walk_slash_by_flags (flags : Nat) : Char :=
  if flags &&& DIR_WALK_PATHS_SLASH_MASK = DIR_WALK_PATHS_SLASH_FORWARD then '/'
  else if flags &&& DIR_WALK_PATHS_SLASH_MASK = DIR_WALK_PATHS_SLASH_BACK then '\\'
  else DIR_SEP_PLATFORM

/-- The call `callback( path_buffer + callback_path_offset, current_path_len -
callback_path_offset, type, userdata )`: the record of what the callback is
handed. -/
def callback (path_buffer : List Char) (callback_path_offset current_path_len : Nat)
    (type : dir_item_type) : Exec walk_event := do
  let s ← c_string_at path_buffer callback_path_offset
  pure ⟨s, usub current_path_len callback_path_offset, type⟩

/-- The test `!glob || DIR_GLOB_MATCH == dir_glob_match_impl( glob, glob_end, path )`
of `dir_walk_impl`; `path` is the array from the pointer on. -/
def matches_pattern (glob : Option (List Char)) (glob_end : Option Nat) (path : List Char) :
    Exec Bool :=
  match glob with
  | none => .ret true
  | some g => do
    let r ← dir_glob_match_impl g path glob_end (g.length + 1) 0 0
    pure (decide (r = DIR_GLOB_MATCH))

/-- How one pass through the body of the loop of `dir_walk_impl` ends: with
`next`, the loop goes on to the following entry (a `continue`, or the end of the
body); with `leave`, the loop is left by `break` or the function by `return`. -/
inductive body_out where
  | next (path_buffer : List Char) (calls : List walk_event)
  | leave (out : walk_out)

/-- The start of the loop body (dirutil.h:406-415): `is_dir` for the entry, with
the `stat` probe when the type is `DT_UNKNOWN`; `none` stands for the
`return DIR_ERROR_FAILED` of a failed probe. -/
def dir_walk_is_dir (fs : filesystem) (ent : dirent) (path_buffer : List Char) :
    Exec (Option Bool) :=
  if ent.d_type = d_type_t.DT_UNKNOWN then do
    let p ← c_string_at path_buffer 0
    pure (fs.stat p)
  else pure (some (decide (ent.d_type = d_type_t.DT_DIR)))

/-- The three tests that end in `continue` (dirutil.h:417-424): the entries `.`
and `..`, and the entries that start with `.` when the flags ignore them. -/
def dir_walk_skips (should_ignore_dot_directories should_ignore_dot_files : Bool)
    (item_name : List Char) (is_dir : Bool) : Exec Bool := do
  let c1 ← strcmp item_name 0 ['.', NUL]
  let c2 ← (if c1 = 0 then pure 0 else strcmp item_name 0 ['.', '.', NUL])
  if c1 = 0 ∨ c2 = 0 then pure true
  else do
    let first ← rd item_name 0
    if is_dir = true ∧ should_ignore_dot_directories = true ∧ first = '.' then pure true
    else if is_dir = false ∧ should_ignore_dot_files = true ∧ first = '.' then pure true
    else pure false

/-- The two writes that put the entry behind the path (dirutil.h:434-436):
`path_buffer[path_len] = slash` and the `memcpy` of the name with its
terminator. -/
def dir_walk_append (slash : Char) (path_buffer : List Char) (path_len : Nat)
    (item_name : List Char) (item_len : Nat) : Exec (List Char) := do
  let b1 ← wr path_buffer path_len slash
  memcpy b1 (u32 (path_len + 1)) item_name 0 (u32 (item_len + 1))

/-- The visit of the entry that now ends the path buffer (dirutil.h:440-473):
the array and the calls of the callback that it leaves. `recurse` is the
recursive call `dir_walk_impl( path_buffer, path_len, path_buffer_size, .. )`
with the other arguments unchanged; what it returns is dropped. -/
def dir_walk_visit (recurse : List Char → Nat → Nat → Exec walk_out) (root_path_len : Nat)
    (optional_glob_directories : Option (List Char)) (optional_glob_directories_end : Option Nat)
    (optional_glob_files : Option (List Char)) (optional_glob_files_end : Option Nat)
    (flags : Nat) (should_walk_directories should_call_callback_directories
      should_call_callback_files : Bool) (callback_path_offset : Nat)
    (path_len path_buffer_size : Nat) (item_name : List Char) (item_len : Nat) (is_dir : Bool)
    (path_buffer : List Char) : Exec (List Char × List walk_event) :=
  let current_path_len := u32 (u32 (path_len + item_len) + 1)
  if is_dir = true ∧
      (should_walk_directories = true ∨ should_call_callback_directories = true) then do
    let m ← matches_pattern optional_glob_directories optional_glob_directories_end
      (path_buffer.drop (u32 (root_path_len + 1)))
    if m = false then pure (path_buffer, [])
    else if flags &&& DIR_WALK_DEPTH_FIRST ≠ 0 then do
      let sub ← (if should_walk_directories = true then
          recurse path_buffer (u32 (u32 (path_len + item_len) + 1))
            (usub (usub path_buffer_size item_len) 1)
        else pure ⟨DIR_ERROR_OK, false, path_buffer, []⟩)
      let own ← (if should_call_callback_directories = true then do
          let e ← callback sub.path_buffer callback_path_offset current_path_len DIR_ITEM_DIR
          pure [e]
        else pure [])
      pure (sub.path_buffer, sub.calls ++ own)
    else do
      let own ← (if should_call_callback_directories = true then do
          let e ← callback path_buffer callback_path_offset current_path_len DIR_ITEM_DIR
          pure [e]
        else pure [])
      let sub ← (if should_walk_directories = true then
          recurse path_buffer (u32 (u32 (path_len + item_len) + 1))
            (usub (usub path_buffer_size item_len) 1)
        else pure ⟨DIR_ERROR_OK, false, path_buffer, []⟩)
      pure (sub.path_buffer, own ++ sub.calls)
  else if is_dir = false ∧ should_call_callback_files = true then do
    let m ← matches_pattern optional_glob_files optional_glob_files_end item_name
    if m = false then pure (path_buffer, [])
    else do
      let e ← callback path_buffer callback_path_offset current_path_len DIR_ITEM_FILE
      pure (path_buffer, [e])
  else pure (path_buffer, [])

/-- One pass through the body of the loop of `dir_walk_impl` (dirutil.h:400-475)
for the entry `ent` that `readdir` returned. -/
def dir_walk_body (fs : filesystem) (recurse : List Char → Nat → Nat → Exec walk_out)
    (root_path_len : Nat)
    (optional_glob_directories : Option (List Char)) (optional_glob_directories_end : Option Nat)
    (optional_glob_files : Option (List Char)) (optional_glob_files_end : Option Nat)
    (flags : Nat) (slash : Char) (should_walk_directories should_ignore_dot_directories
      should_ignore_dot_files should_call_callback_directories should_call_callback_files : Bool)
    (callback_path_offset : Nat) (path_len path_buffer_size : Nat)
    (ent : dirent) (path_buffer : List Char) : Exec body_out := do
  let item_name := ent.d_name
  let probe ← dir_walk_is_dir fs ent path_buffer
  match probe with
  | none => pure (.leave ⟨DIR_ERROR_FAILED, true, path_buffer, []⟩)
  | some is_dir => do
    let skip ← dir_walk_skips should_ignore_dot_directories should_ignore_dot_files item_name is_dir
    if skip = true then pure (.next path_buffer [])
    else do
      let item_len ← dir_strlen32 item_name 0
      if path_buffer_size < u32 (item_len + 2) then
        pure (.leave ⟨DIR_ERROR_PATH_TOO_DEEP, false, path_buffer, []⟩)
      else do
        let b2 ← dir_walk_append slash path_buffer path_len item_name item_len
        let (b3, calls) ← dir_walk_visit recurse root_path_len optional_glob_directories
          optional_glob_directories_end optional_glob_files optional_glob_files_end flags
          should_walk_directories should_call_callback_directories should_call_callback_files
          callback_path_offset path_len path_buffer_size item_name item_len is_dir b2
        pure (.next b3 calls)

/-- The loop `while ( ( ent = readdir( dir ) ) != 0x0 )` of `dir_walk_impl` over
the entries that `readdir` still has to return; `body` is one pass through the
loop body. -/
def dir_walk_loop (body : dirent → List Char → Exec body_out) :
    List dirent → List Char → Exec walk_out
  | [], path_buffer => .ret ⟨DIR_ERROR_OK, false, path_buffer, []⟩
  | ent :: rest, path_buffer => do
    let step ← body ent path_buffer
    match step with
    | .leave out => pure out
    | .next b calls => do
      let out ← dir_walk_loop body rest b
      pure { out with calls := calls ++ out.calls }

/-- The function `dir_walk_impl`. One unit of fuel is one level of the recursion. -/
def dir_walk_impl (fs : filesystem) (root_path_len : Nat)
    (optional_glob_directories : Option (List Char)) (optional_glob_directories_end : Option Nat)
    (optional_glob_files : Option (List Char)) (optional_glob_files_end : Option Nat)
    (flags : Nat) : Nat → List Char → Nat → Nat → Exec walk_out
  | 0, _, _, _ => .nofuel
  | fuel + 1, path_buffer, path_len, path_buffer_size =>
    let slash := dir_walk_slash_by_flags flags
    let should_walk_directories := decide (flags &&& DIR_WALK_SINGLE_DIRECTORY = 0)
    let should_ignore_dot_directories := decide (flags &&& DIR_WALK_IGNORE_DOT_DIRECTORIES ≠ 0)
    let should_ignore_dot_files := decide (flags &&& DIR_WALK_IGNORE_DOT_FILES ≠ 0)
    let should_call_callback_directories := decide (flags &&& DIR_WALK_ONLY_FILES = 0)
    let should_call_callback_files := decide (flags &&& DIR_WALK_ONLY_DIRECTORIES = 0)
    let callback_path_offset :=
      if flags &&& DIR_WALK_ROOT_RELATIVE_PATHS ≠ 0 then u32 (root_path_len + 1) else 0
    do
      let name ← c_string_at path_buffer 0
      match fs.opendir name with
      | none => pure ⟨DIR_ERROR_PATH_DO_NOT_EXIST, false, path_buffer, []⟩
      | some entries => do
        let out ← dir_walk_loop
          (dir_walk_body fs
            (dir_walk_impl fs root_path_len optional_glob_directories
              optional_glob_directories_end optional_glob_files optional_glob_files_end flags fuel)
            root_path_len optional_glob_directories optional_glob_directories_end
            optional_glob_files optional_glob_files_end flags slash should_walk_directories
            should_ignore_dot_directories should_ignore_dot_files
            should_call_callback_directories should_call_callback_files callback_path_offset
            path_len path_buffer_size)
          entries path_buffer
        if out.returned = true then pure { out with returned := false }
        else do
          let b ← wr out.path_buffer path_len NUL
          pure { out with path_buffer := b }

/-- The end pointer `( glob && *glob ) ? glob + strlen( glob ) : 0` that
`dir_walkex` computes for a pattern. -/
def glob_end_of (glob : Option (List Char)) : Exec (Option Nat) :=
  match glob with
  | none => .ret none
  | some g => do
    let c ← rd g 0
    if c ≠ NUL then do
      let n ← strlen g 0
      pure (some n)
    else pure none

/-- The function `dir_walkex( path, flags, optional_glob_directories,
optional_glob_files, callback, userdata )`: the returned error code and the
calls of the callback. `path_buffer` is the local array `char path_buffer[4096]`
with whatever it holds on entry. -/
def dir_walkex (fs : filesystem) (path : List Char) (flags : Nat)
    (optional_glob_directories optional_glob_files : Option (List Char))
    (path_buffer : List Char) : Exec (dir_error × List walk_event) := do
  let path_len ← dir_strlen32 path 0
  if path_len ≥ 4096 - 1 then pure (DIR_ERROR_FAILED, [])
  else do
    let b1 ← memcpy path_buffer 0 path 0 (u32 (path_len + 1))
    let (b2, path_len) ← dir_path_tidy b1 (dir_walk_slash_by_flags flags) path_len
    if path_len = 0 then pure (DIR_ERROR_FAILED, [])
    else do
      let gd_end ← glob_end_of optional_glob_directories
      let gf_end ← glob_end_of optional_glob_files
      let out ← dir_walk_impl fs path_len optional_glob_directories gd_end
        optional_glob_files gf_end flags 4096 b2 path_len (4096 - path_len) 
      pure (out.result, out.calls)

open d_type_t

/-! ## Vocabulary of the specification -/

/-- A literal pattern character: not the terminator and none of `* ? [ {`. -/
def literal (g : Char) : Prop := g ≠ NUL ∧ g ≠ '*' ∧ g ≠ '?' ∧ g ≠ '[' ∧ g ≠ '{'

instance (g : Char) : Decidable (literal g) := by unfold literal; infer_instance

/-- The path `s1/s2/.../sn/f` built from the segments `s1..sn` and the name `f`
(just `f` when there is no segment). -/
def join_segments : List (List Char) → List Char → List Char
  | [], f => f
  | s :: rest, f => s ++ '/' :: join_segments rest f

/-- An item of a bracket set: a single character or a range `lo-hi`. -/
inductive set_item where
  | single (c : Char)
  | range (lo hi : Char)
  deriving DecidableEq, Repr

/-- The pattern text of an item. -/
def set_item.text : set_item → List Char
  | .single c => [c]
  | .range lo hi => [lo, '-', hi]

/-- The characters an item is written with. -/
def set_item.chars : set_item → List Char
  | .single c => [c]
  | .range lo hi => [lo, hi]

/-- Whether `c` equals the single character, or lies in the range: `lo <= c` and
`c <= hi` as values of the C type `char`. -/
def set_item.has (c : Char) : set_item → Bool
  | .single x => decide (c = x)
  | .range lo hi => decide (char_value lo ≤ char_value c) && decide (char_value c ≤ char_value hi)

/-- The text between the brackets: the items written one after the other. -/
def set_text : List set_item → List Char
  | [] => []
  | it :: rest => it.text ++ set_text rest

/-- Whether `c` is in the set: it equals one of the single characters or lies
in one of the ranges. -/
def set_has (items : List set_item) (c : Char) : Bool := items.any (set_item.has c)

/-- The item characters are ordinary: none is `]`, `-` or the terminator. -/
def set_ok (items : List set_item) : Prop :=
  ∀ it ∈ items, ∀ x ∈ it.chars, x ≠ ']' ∧ x ≠ '-' ∧ x ≠ NUL

instance (items : List set_item) : Decidable (set_ok items) := by unfold set_ok; infer_instance

/-- The text between the braces: the alternatives separated by commas. -/
def alts_text : List (List Char) → List Char
  | [] => []
  | [a] => a
  | a :: b :: rest => a ++ ',' :: alts_text (b :: rest)

/-- The alternatives are plain: none is empty and none holds `,`, `}` or the
terminator. -/
def alts_ok (alts : List (List Char)) : Prop :=
  ∀ a ∈ alts, a ≠ [] ∧ ∀ x ∈ a, x ≠ ',' ∧ x ≠ '}' ∧ x ≠ NUL

instance (alts : List (List Char)) : Decidable (alts_ok alts) := by
  unfold alts_ok; infer_instance

/-- What `dir_glob_match_groups` returns on well-formed alternatives: the length
of the first alternative that begins the candidate, `-1` when there is none; the
last alternative is compared only when it is longer than one character. -/
def groups_result (cand : List Char) : List (List Char) → Int
  | [] => -1
  | [a] => if 2 ≤ a.length ∧ a <+: cand then (a.length : Int) else -1
  | a :: b :: rest => if a <+: cand then (a.length : Int) else groups_result cand (b :: rest)

/-! ## Vocabulary for the path functions -/

/-- A character that `dir_walk_path_trimwhite_unquote` trims: white space or a
double quote. -/
def trimmed_char (c : Char) : Prop := dir_walk_iswhite c = true ∨ c = '"'

instance (c : Char) : Decidable (trimmed_char c) := by unfold trimmed_char; infer_instance

/-- What `dir_walk_trim_convert_slashes_inplace` makes of a string: every run of
separators becomes one `slash`, every other character stays. -/
def convert_spec (slash : Char) : List Char → List Char
  | [] => []
  | c :: rest =>
    if c = '/' ∨ c = '\\' then
      match rest with
      | [] => slash :: convert_spec slash rest
      | n :: _ => if DIR_IS_SEP n then convert_spec slash rest else slash :: convert_spec slash rest
    else c :: convert_spec slash rest

/-- Removal of one separator from the end of a string, the last step of
`dir_path_tidy`. -/
def strip_last_sep (s : List Char) : List Char :=
  match s.getLast? with
  | some c => if DIR_IS_SEP c then s.dropLast else s
  | none => s

/-! ## Vocabulary for the walk -/

/-- The name in an entry: the string that `d_name` holds. -/
def entry_name (ent : dirent) : List Char := ent.d_name.takeWhile (fun c => decide (c ≠ NUL))

/-- A listing as a directory gives it: every `d_name` holds a string (in the 256
cells of `struct dirent`) that is not empty and has no `slash` in it, and no
name is listed twice. -/
def listing_ok (slash : Char) (l : List dirent) : Prop :=
  (∀ ent ∈ l, NUL ∈ ent.d_name ∧ ent.d_name.length ≤ 256 ∧ entry_name ent ≠ [] ∧
      slash ∉ entry_name ent) ∧ (l.map entry_name).Nodup

instance (slash : Char) (l : List dirent) : Decidable (listing_ok slash l) := by
  unfold listing_ok; infer_instance

/-- A directory tree: every listing is as a directory gives it and the `stat`
probe never fails. -/
def tree_ok (fs : filesystem) (slash : Char) : Prop :=
  (∀ p l, fs.opendir p = some l → listing_ok slash l) ∧ ∀ p, fs.stat p ≠ none

/-- The file system of a table of directories: `opendir` finds the listing of a
path in the table, `stat` tells whether the path is in the table. -/
def fs_of_table (table : List (List Char × List dirent)) : filesystem where
  opendir := fun p => table.lookup p
  stat := fun p => some (table.lookup p).isSome

/-- What the callback is handed for the entry with the full path `e.1` and the
type `e.2`, when the walk hands out paths from the offset `off` on. -/
def render (off : Nat) (e : List Char × dir_item_type) : walk_event :=
  ⟨e.1.drop off, e.1.length - off, e.2⟩

/-- The entries that a walk of the directory `P` passes to the callback, as full
paths with their types: `a` lists them with every directory before its content,
`b` with every directory after its content; `ns` are the names in `P` that the
walk went through. `good` is what the walk knows of a directory it passed on or
went into. -/
inductive Shape (slash : Char) (good : List Char → Prop) :
    List Char → List (List Char) → List (List Char × dir_item_type) →
      List (List Char × dir_item_type) → Prop
  | nil (P : List Char) : Shape slash good P [] [] []
  | skip (P n : List Char) (ns : List (List Char)) (a b : List (List Char × dir_item_type)) :
      n ≠ [] → slash ∉ n → n ∉ ns → Shape slash good P ns a b →
      Shape slash good P (n :: ns) a b
  | file (P n : List Char) (ns : List (List Char)) (a b : List (List Char × dir_item_type)) :
      n ≠ [] → slash ∉ n → n ∉ ns → Shape slash good P ns a b →
      Shape slash good P (n :: ns) ((P ++ slash :: n, DIR_ITEM_FILE) :: a)
        ((P ++ slash :: n, DIR_ITEM_FILE) :: b)
  | dir (P n : List Char) (ns : List (List Char)) (a b : List (List Char × dir_item_type))
      (ns2 : List (List Char)) (a2 b2 own : List (List Char × dir_item_type)) :
      n ≠ [] → slash ∉ n → n ∉ ns → good (P ++ slash :: n) →
      (own = [] ∨ own = [(P ++ slash :: n, DIR_ITEM_DIR)]) →
      Shape slash good (P ++ slash :: n) ns2 a2 b2 → Shape slash good P ns a b →
      Shape slash good P (n :: ns) (own ++ a2 ++ a) (b2 ++ own ++ b)

/-- The directory with the full path `s` passed the test against the directory
pattern, which reads the path from cell `root_path_len + 1` of the path buffer
on; `slack` is what the buffer holds behind the string. -/
def dir_matched (glob : Option (List Char)) (glob_end : Option Nat) (root_path_len : Nat)
    (s : List Char) : Prop :=
  ∃ slack, matches_pattern glob glob_end (cstr (s.drop (root_path_len + 1)) slack) = .ret true

/-- Two values of `flags` that differ at most in `DIR_WALK_DEPTH_FIRST` and
`DIR_WALK_ROOT_RELATIVE_PATHS`. -/
def same_walk (f1 f2 : Nat) : Prop :=
  f1 &&& DIR_WALK_PATHS_SLASH_MASK = f2 &&& DIR_WALK_PATHS_SLASH_MASK ∧
  f1 &&& DIR_WALK_SINGLE_DIRECTORY = f2 &&& DIR_WALK_SINGLE_DIRECTORY ∧
  f1 &&& DIR_WALK_IGNORE_DOT_DIRECTORIES = f2 &&& DIR_WALK_IGNORE_DOT_DIRECTORIES ∧
  f1 &&& DIR_WALK_IGNORE_DOT_FILES = f2 &&& DIR_WALK_IGNORE_DOT_FILES ∧
  f1 &&& DIR_WALK_ONLY_FILES = f2 &&& DIR_WALK_ONLY_FILES ∧
  f1 &&& DIR_WALK_ONLY_DIRECTORIES = f2 &&& DIR_WALK_ONLY_DIRECTORIES

/-- The offset `callback_path_offset` that `dir_walk_impl` computes. -/
def offset_of (flags root_path_len : Nat) : Nat :=
  if flags &&& DIR_WALK_ROOT_RELATIVE_PATHS ≠ 0 then u32 (root_path_len + 1) else 0

/-- The entry `x` is passed to the callback before the entry `y`. -/
def before {α : Type} (x y : α) (l : List α) : Prop :=
  ∃ l1 l2 l3, l = l1 ++ x :: l2 ++ y :: l3

/-- What two runs of `dir_walk_impl` on the same directory have to do with each
other, the first with `flags1` and the offset `off1`, the second with `flags2`
and `off2`: they pass the same entries to the callback, each in its order and
from its offset on, and leave the same path buffer and result. -/
def rec_rel (slash : Char) (good : List Char → Prop) (root flags1 flags2 off1 off2 : Nat)
    (rec1 rec2 : List Char → Nat → Nat → Exec walk_out) : Prop :=
  ∀ S R sz o1, NUL ∉ S → root ≤ S.length → (S ++ NUL :: R).length < 2 ^ 32 →
    rec1 (S ++ NUL :: R) S.length sz = .ret o1 →
    ∃ ns a b R2, Shape slash good S ns a b ∧ R2.length = R.length ∧
      o1.path_buffer = S ++ NUL :: R2 ∧
      o1.calls = (if flags1 &&& DIR_WALK_DEPTH_FIRST ≠ 0 then b else a).map (render off1) ∧
      rec2 (S ++ NUL :: R) S.length sz = .ret { o1 with
        calls := (if flags2 &&& DIR_WALK_DEPTH_FIRST ≠ 0 then b else a).map (render off2) }

/-- The root as `dir_walkex` tidies it: the string that the path buffer holds
when `dir_walk_impl` is called. -/
def tidied_root (path : List Char) (flags : Nat) (path_buffer : List Char) :
    Exec (List Char) := do
  let path_len ← dir_strlen32 path 0
  let b1 ← memcpy path_buffer 0 path 0 (u32 (path_len + 1))
  let (b2, _) ← dir_path_tidy b1 (dir_walk_slash_by_flags flags) path_len
  c_string_at b2 0

/-! ## Example file systems -/

/-- A `struct dirent` whose `d_name` holds exactly the name. -/
def mk_dirent (name : String) (t : d_type_t) : dirent := ⟨cstr name.toList [], t⟩

/-- A tree in which the directory `root/sub` is listed but cannot be opened. -/
def fs_closed_sub : filesystem where
  opendir := fun p =>
    if p = "root".toList then
      some [mk_dirent "." d_type_t.DT_DIR, mk_dirent ".." d_type_t.DT_DIR,
        mk_dirent "sub" d_type_t.DT_DIR]
    else none
  stat := fun _ => some false

/-- A tree in which `root/sub` holds an entry of unknown type and `stat` fails. -/
def fs_failing_probe : filesystem where
  opendir := fun p =>
    if p = "root".toList then some [mk_dirent "sub" d_type_t.DT_DIR]
    else if p = "root/sub".toList then some [mk_dirent "x" d_type_t.DT_UNKNOWN]
    else none
  stat := fun _ => none

/-- The local array `char path_buffer[4096]` of `dir_walkex`, here filled with
`x` on entry. -/
def stack_buffer : List Char := List.replicate 4096 'x'

/-- The full path of an entry that was passed to the callback: in the
root-relative mode the root and a separator come before what the callback was
handed. -/
def full_path (flags : Nat) (root : List Char) (e : walk_event) : List Char :=
  if flags &&& DIR_WALK_ROOT_RELATIVE_PATHS ≠ 0 then
    root ++ dir_walk_slash_by_flags flags :: e.path
  else e.path

/-- A tree with the directories `root`, `root/a`, `root/a/sub` and `root/b`. -/
def fs_sample : filesystem :=
  fs_of_table [
    ("root".toList, [mk_dirent "." d_type_t.DT_DIR, mk_dirent ".." d_type_t.DT_DIR,
      mk_dirent "a" d_type_t.DT_DIR, mk_dirent "f.txt" d_type_t.DT_REG,
      mk_dirent "b" d_type_t.DT_DIR]),
    ("root/a".toList, [mk_dirent "x.c" d_type_t.DT_REG, mk_dirent "sub" d_type_t.DT_DIR]),
    ("root/a/sub".toList, [mk_dirent "y.c" d_type_t.DT_REG]),
    ("root/b".toList, [])]

/-- A tree in which `root/sub` lists the file `x` and then an entry `y` of unknown
type, and `stat` fails. -/
def fs_probe_after_entry : filesystem where
  opendir := fun p =>
    if p = "root".toList then some [mk_dirent "sub" d_type_t.DT_DIR]
    else if p = "root/sub".toList then
      some [mk_dirent "x" d_type_t.DT_REG, mk_dirent "y" d_type_t.DT_UNKNOWN]
    else none
  stat := fun _ => none

/-- A tree in which `root` lists the file `f` and the directory `d`, both with
the type `DT_UNKNOWN`; `stat` tells that `root` and `root/d` are directories and
that `root/f` is not. -/
def fs_unknown_types : filesystem :=
  fs_of_table [
    ("root".toList, [mk_dirent "f" d_type_t.DT_UNKNOWN, mk_dirent "d" d_type_t.DT_UNKNOWN]),
    ("root/d".toList, [mk_dirent "g" d_type_t.DT_REG])]

/-- The invariant of the calls of `dir_walk_impl`: the path buffer has its 4096
cells, `path_len` and `path_buffer_size` add up to them, and at least one cell
is left. -/
def in_buffer (path_buffer : List Char) (path_len path_buffer_size : Nat) : Prop :=
  path_buffer.length = 4096 ∧ path_len + path_buffer_size = 4096 ∧ 1 ≤ path_buffer_size

instance (path_buffer : List Char) (path_len path_buffer_size : Nat) :
    Decidable (in_buffer path_buffer path_len path_buffer_size) := by
  unfold in_buffer; infer_instance

/-! ## The walk with its calls watched -/

/-- The function `dir_walk_impl` with its calls watched: a call within the invariant
`in_buffer` runs as `dir_walk_impl` does, its recursive calls being watched in
turn; a call outside the invariant is not run, `other` answers it. -/
def dir_walk_impl_within (other : List Char → Nat → Nat → Exec walk_out)
    (fs : filesystem) (root_path_len : Nat)
    (optional_glob_directories : Option (List Char)) (optional_glob_directories_end : Option Nat)
    (optional_glob_files : Option (List Char)) (optional_glob_files_end : Option Nat)
    (flags : Nat) : Nat → List Char → Nat → Nat → Exec walk_out
  | 0, _, _, _ => .nofuel
  | fuel + 1, path_buffer, path_len, path_buffer_size =>
    if in_buffer path_buffer path_len path_buffer_size then
      let slash := dir_walk_slash_by_flags flags
      let should_walk_directories := decide (flags &&& DIR_WALK_SINGLE_DIRECTORY = 0)
      let should_ignore_dot_directories := decide (flags &&& DIR_WALK_IGNORE_DOT_DIRECTORIES ≠ 0)
      let should_ignore_dot_files := decide (flags &&& DIR_WALK_IGNORE_DOT_FILES ≠ 0)
      let should_call_callback_directories := decide (flags &&& DIR_WALK_ONLY_FILES = 0)
      let should_call_callback_files := decide (flags &&& DIR_WALK_ONLY_DIRECTORIES = 0)
      let callback_path_offset :=
        if flags &&& DIR_WALK_ROOT_RELATIVE_PATHS ≠ 0 then u32 (root_path_len + 1) else 0
      do
        let name ← c_string_at path_buffer 0
        match fs.opendir name with
        | none => pure ⟨DIR_ERROR_PATH_DO_NOT_EXIST, false, path_buffer, []⟩
        | some entries => do
          let out ← dir_walk_loop
            (dir_walk_body fs
              (dir_walk_impl_within other fs root_path_len optional_glob_directories
                optional_glob_directories_end optional_glob_files optional_glob_files_end flags
                fuel)
              root_path_len optional_glob_directories optional_glob_directories_end
              optional_glob_files optional_glob_files_end flags slash should_walk_directories
              should_ignore_dot_directories should_ignore_dot_files
              should_call_callback_directories should_call_callback_files callback_path_offset
              path_len path_buffer_size)
            entries path_buffer
          if out.returned = true then pure { out with returned := false }
          else do
            let b ← wr out.path_buffer path_len NUL
            pure { out with path_buffer := b }
    else other path_buffer path_len path_buffer_size

/-- The function `dir_walkex` with the calls of `dir_walk_impl` watched: the
first call and every recursive call is run only within the invariant
`in_buffer`, and answered by `other` outside it. -/
def dir_walkex_within (other : List Char → Nat → Nat → Exec walk_out)
    (fs : filesystem) (path : List Char) (flags : Nat)
    (optional_glob_directories optional_glob_files : Option (List Char))
    (path_buffer : List Char) : Exec (dir_error × List walk_event) := do
  let path_len ← dir_strlen32 path 0
  if path_len ≥ 4096 - 1 then pure (DIR_ERROR_FAILED, [])
  else do
    let b1 ← memcpy path_buffer 0 path 0 (u32 (path_len + 1))
    let (b2, path_len) ← dir_path_tidy b1 (dir_walk_slash_by_flags flags) path_len
    if path_len = 0 then pure (DIR_ERROR_FAILED, [])
    else do
      let gd_end ← glob_end_of optional_glob_directories
      let gf_end ← glob_end_of optional_glob_files
      let out ← dir_walk_impl_within other fs path_len optional_glob_directories gd_end
        optional_glob_files gf_end flags 4096 b2 path_len (4096 - path_len)
      pure (out.result, out.calls)

/-! ## Vocabulary of the file pattern and of well-formed pattern texts -/

/-- A pattern text that is a sequence of well-formed items: a character other
than `*`, `[` and `{` (a literal character or `?`); `*` before another item that
does not begin with `*`; `*/`; `**/`; a bracket set `[..]` or `[!..]` of single
characters and ranges; a brace group `{..}` of alternatives. -/
inductive items_ok : List Char → Prop
  | nil : items_ok []
  | char (c : Char) (rest : List Char) :
      c ≠ NUL → c ≠ '*' → c ≠ '[' → c ≠ '{' → items_ok rest → items_ok (c :: rest)
  | star (c : Char) (rest : List Char) :
      c ≠ NUL → c ≠ '*' → c ≠ '/' → items_ok (c :: rest) → items_ok ('*' :: c :: rest)
  | star_sep (rest : List Char) : items_ok rest → items_ok ('*' :: '/' :: rest)
  | double_star_sep (rest : List Char) : items_ok rest → items_ok ('*' :: '*' :: '/' :: rest)
  | set (bang : Bool) (items : List set_item) (rest : List Char) :
      set_ok items → (bang = false → (set_text items).head? ≠ some '!') → items_ok rest →
      items_ok ('[' :: ((if bang then ['!'] else []) ++ set_text items) ++ ']' :: rest)
  | group (alts : List (List Char)) (rest : List Char) :
      alts_ok alts → items_ok rest → items_ok ('{' :: alts_text alts ++ '}' :: rest)

/-! ## More example file systems -/

/-- A tree in which `root` lists the directory `ab` and then the directory `a`,
which holds the file `f`. -/
def fs_short_after_long : filesystem :=
  fs_of_table [
    ("root".toList, [mk_dirent "ab" d_type_t.DT_DIR, mk_dirent "a" d_type_t.DT_DIR]),
    ("root/ab".toList, []),
    ("root/a".toList, [mk_dirent "f" d_type_t.DT_REG])]

/-- The tree `fs_short_after_long` with the two entries of `root` listed the
other way round: the directory `a` first, then the directory `ab`. -/
def fs_long_after_short : filesystem :=
  fs_of_table [
    ("root".toList, [mk_dirent "a" d_type_t.DT_DIR, mk_dirent "ab" d_type_t.DT_DIR]),
    ("root/ab".toList, []),
    ("root/a".toList, [mk_dirent "f" d_type_t.DT_REG])]

@[simp] theorem Exec.ret_bind {α β : Type} (a : α) (f : α → Exec β) :
    (Exec.ret a >>= f) = f a := rfl

@[simp] theorem Exec.oob_bind {α β : Type} (f : α → Exec β) :
    ((Exec.oob : Exec α) >>= f) = Exec.oob := rfl

@[simp] theorem Exec.nofuel_bind {α β : Type} (f : α → Exec β) :
    ((Exec.nofuel : Exec α) >>= f) = Exec.nofuel := rfl

@[simp] theorem Exec.pure_eq {α : Type} (a : α) : (pure a : Exec α) = Exec.ret a := rfl

theorem rd_of_drop {m : List Char} {i : Nat} {a : Char} {t : List Char}
    (h : m.drop i = a :: t) : rd m i = .ret a := by
  have h1 : (m.drop i).head? = some a := by rw [h]; rfl
  rw [List.head?_drop] at h1
  simp [rd, h1]

theorem drop_succ_of_drop {m : List Char} {i : Nat} {a : Char} {t : List Char}
    (h : m.drop i = a :: t) : m.drop (i + 1) = t := by
  have h1 : (m.drop i).tail = t := by rw [h]; rfl
  rw [List.tail_drop] at h1
  exact h1

theorem drop_add_of_drop {m : List Char} {i : Nat} (q : List Char) {t : List Char}
    (h : m.drop i = q ++ t) : m.drop (i + q.length) = t := by
  have h1 : (m.drop i).drop q.length = t := by rw [h]; simp
  rw [List.drop_drop] at h1
  exact h1

theorem impl_end (m p : List Char) (fuel gp u : Nat) :
    dir_glob_match_impl m p (some gp) (fuel + 1) gp u
      = (rd p u >>= fun c => .ret (if c = NUL then DIR_GLOB_MATCH else DIR_GLOB_NO_MATCH)) := by
  rw [dir_glob_match_impl]; simp

theorem impl_literal_step (m p : List Char) (ge : Option Nat) (fuel gp u : Nat) (g : Char)
    (hg : rd m gp = .ret g) (hlit : literal g) (hne : some gp ≠ ge) :
    dir_glob_match_impl m p ge (fuel + 1) gp u
      = (rd p u >>= fun c => if c ≠ g then .ret DIR_GLOB_NO_MATCH
          else dir_glob_match_impl m p ge fuel (gp + 1) (u + 1)) := by
  obtain ⟨h0, h1, h2, h3, h4⟩ := hlit
  rw [dir_glob_match_impl]
  simp [hne, hg, h0, h1, h2, h3, h4]

theorem impl_literal_run (m p : List Char) (e : Nat) (q : List Char) :
    ∀ (fuel gp u : Nat) (mt pt : List Char), (∀ x ∈ q, literal x) →
      m.drop gp = q ++ mt → p.drop u = q ++ pt → gp + q.length ≤ e →
      dir_glob_match_impl m p (some e) (fuel + q.length) gp u
        = dir_glob_match_impl m p (some e) fuel (gp + q.length) (u + q.length) := by
  induction q with
  | nil => intro fuel gp u mt pt _ _ _ _; rfl
  | cons a q ih =>
    intro fuel gp u mt pt hl hm hp he
    simp only [List.length_cons] at he ⊢
    have hne : some gp ≠ some e := by simp; omega
    rw [show fuel + (q.length + 1) = (fuel + q.length) + 1 by omega]
    rw [impl_literal_step m p _ _ gp u a (rd_of_drop hm) (hl a (by simp)) hne]
    rw [rd_of_drop hp]
    simp only [Exec.ret_bind, ne_eq, not_true_eq_false, if_false]
    rw [ih fuel (gp + 1) (u + 1) mt pt (fun x hx => hl x (by simp [hx]))
      (drop_succ_of_drop hm) (drop_succ_of_drop hp) (by omega)]
    congr 1 <;> omega

theorem impl_literal_tail (m p : List Char) (e : Nat) (lit : List Char) :
    ∀ (fuel gp u : Nat) (cand mt sc : List Char), (∀ x ∈ lit, literal x) → NUL ∉ cand →
      m.drop gp = lit ++ mt → p.drop u = cand ++ NUL :: sc → gp + lit.length = e →
      lit.length < fuel →
      dir_glob_match_impl m p (some e) fuel gp u
        = .ret (if cand = lit then DIR_GLOB_MATCH else DIR_GLOB_NO_MATCH) := by
  induction lit with
  | nil =>
    intro fuel gp u cand mt sc _ hc _ hp he hf
    obtain ⟨f, rfl⟩ : ∃ f, fuel = f + 1 := ⟨fuel - 1, by simp at hf; omega⟩
    simp only [List.length_nil, Nat.add_zero] at he
    subst he
    rw [impl_end]
    cases cand with
    | nil => rw [rd_of_drop hp]; simp
    | cons c ct =>
      have hc0 : c ≠ NUL := fun h => hc (by simp [h])
      rw [rd_of_drop hp]; simp [hc0]
  | cons a lit ih =>
    intro fuel gp u cand mt sc hl hc hm hp he hf
    obtain ⟨f, rfl⟩ : ∃ f, fuel = f + 1 := ⟨fuel - 1, by simp at hf; omega⟩
    simp only [List.length_cons] at he hf
    have hne : some gp ≠ some e := by simp; omega
    have ha : literal a := hl a (by simp)
    rw [impl_literal_step m p _ _ gp u a (rd_of_drop hm) ha hne]
    cases cand with
    | nil =>
      rw [rd_of_drop hp]
      have : NUL ≠ a := fun h => ha.1 h.symm
      simp [this]
    | cons c ct =>
      rw [rd_of_drop hp]
      by_cases hca : c = a
      · subst hca
        simp only [Exec.ret_bind, ne_eq, not_true_eq_false, if_false]
        rw [ih f (gp + 1) (u + 1) ct mt sc (fun x hx => hl x (by simp [hx]))
          (fun h => hc (by simp [h])) (drop_succ_of_drop hm) (drop_succ_of_drop hp)
          (by omega) (by omega)]
        simp
      · simp [hca]

theorem strlen_go_cstr (s slack : List Char) (h : NUL ∉ s) :
    ∀ n, strlen_go (s ++ NUL :: slack) n = .ret (n + s.length) := by
  induction s with
  | nil => intro n; simp [strlen_go]
  | cons a s ih =>
    intro n
    have ha : a ≠ NUL := fun e => h (by simp [e])
    have hs : NUL ∉ s := fun e => h (by simp [e])
    rw [List.cons_append, strlen_go, if_neg ha, ih hs, List.length_cons]
    congr 1; omega

theorem dir_strlen32_cstr (s slack : List Char) (h : NUL ∉ s) (hlen : s.length < 2 ^ 32) :
    dir_strlen32 (cstr s slack) 0 = .ret s.length := by
  have hl : s.length % 2 ^ 32 = s.length := Nat.mod_eq_of_lt hlen
  simp only [dir_strlen32, strlen, cstr, List.drop_zero, strlen_go_cstr s slack h, Exec.ret_bind,
    Exec.pure_eq, Nat.zero_add, hl]

theorem dir_glob_match_cstr (pat sp p : List Char) (h : NUL ∉ pat) (hlen : pat.length < 2 ^ 32) :
    dir_glob_match (cstr pat sp) p
      = dir_glob_match_impl (cstr pat sp) p (some pat.length) ((cstr pat sp).length + 1) 0 0 := by
  simp [dir_glob_match, dir_strlen32_cstr pat sp h hlen]

theorem impl_star_star_end (m p : List Char) (ge : Option Nat) (fuel gp u : Nat)
    (hg : rd m gp = .ret '*') (hg1 : rd m (gp + 1) = .ret '*') (hg2 : rd m (gp + 2) = .ret NUL)
    (hne : some gp ≠ ge) :
    dir_glob_match_impl m p ge (fuel + 1) gp u = .ret DIR_GLOB_MATCH := by
  rw [dir_glob_match_impl]
  have h1 : ¬ ('*' = NUL) := by decide
  have h2 : ¬ (NUL = '/') := by decide
  simp [hne, hg, hg1, hg2, h1, h2]

theorem sep_iff (x : Char) : DIR_IS_SEP x = true ↔ (x = '\\' ∨ x = '/') := by
  simp [DIR_IS_SEP]

theorem not_sep_iff (x : Char) : DIR_IS_SEP x = false ↔ (x ≠ '\\' ∧ x ≠ '/') := by
  simp [DIR_IS_SEP]

theorem exists_first (stop : Char → Prop) (c : List Char) (h : ∃ x ∈ c, stop x) :
    ∃ w x rest, c = w ++ x :: rest ∧ (∀ y ∈ w, ¬ stop y) ∧ stop x := by
  induction c with
  | nil => obtain ⟨x, hx, _⟩ := h; cases hx
  | cons a c ih =>
    by_cases ha : stop a
    · exact ⟨[], a, c, rfl, by simp, ha⟩
    · obtain ⟨x, hx, hs⟩ := h
      have hx2 : x ∈ c := by
        rcases List.mem_cons.1 hx with h1 | h1
        · subst h1; exact absurd hs ha
        · exact h1
      obtain ⟨w, y, rest, hc, hw, hy⟩ := ih ⟨x, hx2, hs⟩
      refine ⟨a :: w, y, rest, by simp [hc], ?_, hy⟩
      intro z hz
      rcases List.mem_cons.1 hz with h1 | h1
      · subst h1; exact ha
      · exact hw z h1

theorem star_next_go_spec (g1 : Char) (w : List Char) (x : Char) (rest : List Char)
    (hw : ∀ y ∈ w, ¬ (y = NUL ∨ y = g1 ∨ DIR_IS_SEP y = true))
    (hx : x = NUL ∨ x = g1 ∨ DIR_IS_SEP x = true) :
    ∀ n, star_next_go g1 (w ++ x :: rest) n = .ret (n + w.length) := by
  induction w with
  | nil =>
    intro n
    have : ¬ (x ≠ NUL ∧ x ≠ g1 ∧ DIR_IS_SEP x = false) := by
      rcases hx with h | h | h <;> simp [h]
    simp [star_next_go, this]
  | cons a w ih =>
    intro n
    have ha := hw a (by simp)
    have ha2 : a ≠ NUL ∧ a ≠ g1 ∧ DIR_IS_SEP a = false := by
      refine ⟨fun h => ha (Or.inl h), fun h => ha (Or.inr (Or.inl h)), ?_⟩
      cases hs : DIR_IS_SEP a
      · rfl
      · exact absurd (Or.inr (Or.inr hs)) ha
    rw [List.cons_append, star_next_go, if_pos ha2, ih (fun y hy => hw y (by simp [hy]))]
    simp only [List.length_cons]; congr 1; omega

theorem dir_strchr2_run_spec (a b : Char) (r : List Char) (x : Char) (rest : List Char)
    (hr : ∀ y ∈ r, y = a ∨ y = b) (hx : ¬ (x = a ∨ x = b)) :
    ∀ s, dir_strchr2_run a b (r ++ x :: rest) s = .ret (s + r.length) := by
  induction r with
  | nil => intro s; simp [dir_strchr2_run, hx]
  | cons y r ih =>
    intro s
    rw [List.cons_append, dir_strchr2_run, if_pos (hr y (by simp)),
      ih (fun z hz => hr z (by simp [hz]))]
    simp only [List.length_cons]; congr 1; omega

/-- `dir_strchr2` finds the end of the first run of separators. -/
theorem dir_strchr2_go_some (a b : Char) (w r : List Char) (y x : Char) (rest : List Char)
    (hw : ∀ z ∈ w, z ≠ NUL ∧ ¬ (z = a ∨ z = b)) (hy : y ≠ NUL ∧ (y = a ∨ y = b))
    (hr : ∀ z ∈ r, z = a ∨ z = b) (hx : ¬ (x = a ∨ x = b)) :
    ∀ s, dir_strchr2_go a b (w ++ y :: (r ++ x :: rest)) s = .ret (some (s + w.length + r.length)) := by
  induction w with
  | nil =>
    intro s
    simp [dir_strchr2_go, hy.1, hy.2, dir_strchr2_run_spec a b r x rest hr hx]
  | cons z w ih =>
    intro s
    have hz := hw z (by simp)
    rw [List.cons_append, dir_strchr2_go, if_neg hz.1, if_neg hz.2,
      ih (fun t ht => hw t (by simp [ht]))]
    simp only [List.length_cons]; congr 2; omega

theorem dir_strchr2_go_none (a b : Char) (w rest : List Char)
    (hw : ∀ z ∈ w, z ≠ NUL ∧ ¬ (z = a ∨ z = b)) :
    ∀ s, dir_strchr2_go a b (w ++ NUL :: rest) s = .ret none := by
  induction w with
  | nil => intro s; simp [dir_strchr2_go]
  | cons z w ih =>
    intro s
    have hz := hw z (by simp)
    rw [List.cons_append, dir_strchr2_go, if_neg hz.1, if_neg hz.2,
      ih (fun t ht => hw t (by simp [ht]))]

/-- In a string that holds a separator `dir_strchr2` returns a non-null pointer. -/
theorem dir_strchr2_go_found (c sc : List Char) (hc : NUL ∉ c)
    (hsep : ∃ x ∈ c, DIR_IS_SEP x = true) (s : Nat) :
    ∃ r, dir_strchr2_go '/' '\\' (c ++ NUL :: sc) s = .ret (some r) := by
  obtain ⟨w, y, rest, hcw, hw, hy⟩ := exists_first (fun x => DIR_IS_SEP x = true) c hsep
  subst hcw
  have hy2 : y = '/' ∨ y = '\\' := by rcases (sep_iff y).1 hy with h | h <;> simp [h]
  have hrest : NUL ∉ rest := fun h => hc (by simp [h])
  -- the run of separators behind `y`
  have key : ∀ (l : List Char), NUL ∉ l → ∃ r x t, l ++ NUL :: sc = r ++ x :: t ∧
      (∀ z ∈ r, z = '/' ∨ z = '\\') ∧ ¬ (x = '/' ∨ x = '\\') := by
    intro l
    induction l with
    | nil => intro _; exact ⟨[], NUL, sc, rfl, by simp, by decide⟩
    | cons a l ih =>
      intro hl
      by_cases ha : a = '/' ∨ a = '\\'
      · obtain ⟨r, x, t, h1, h2, h3⟩ := ih (fun h => hl (by simp [h]))
        refine ⟨a :: r, x, t, by simp [h1], ?_, h3⟩
        intro z hz
        rcases List.mem_cons.1 hz with h | h
        · subst h; exact ha
        · exact h2 z h
      · exact ⟨[], a, l ++ NUL :: sc, rfl, by simp, ha⟩
  obtain ⟨r, x, t, h1, h2, h3⟩ := key rest hrest
  refine ⟨s + w.length + r.length, ?_⟩
  have hw2 : ∀ z ∈ w, z ≠ NUL ∧ ¬ (z = '/' ∨ z = '\\') := by
    intro z hz
    refine ⟨fun h => hc (by simp [← h, hz]), ?_⟩
    intro h
    apply hw z hz
    rcases h with h | h <;> simp [h, DIR_IS_SEP]
  have hy0 : y ≠ NUL := fun h => hc (by simp [h])
  have := dir_strchr2_go_some '/' '\\' w r y x t hw2 ⟨hy0, hy2⟩ h2 h3 s
  rw [← h1] at this
  simpa using this

theorem impl_star_nul (m p : List Char) (ge : Option Nat) (fuel gp u : Nat)
    (hg : rd m gp = .ret '*') (hg1 : rd m (gp + 1) = .ret NUL) (hne : some gp ≠ ge) :
    dir_glob_match_impl m p ge (fuel + 1) gp u
      = (dir_strchr2 p u '/' '\\' >>= fun r =>
          .ret (if r.isSome then DIR_GLOB_NO_MATCH else DIR_GLOB_MATCH)) := by
  rw [dir_glob_match_impl]
  have h1 : ¬ ('*' = NUL) := by decide
  simp [hne, hg, hg1, h1]

theorem impl_star_other (m p : List Char) (ge : Option Nat) (fuel gp u : Nat) (g1 : Char)
    (hg : rd m gp = .ret '*') (hg1 : rd m (gp + 1) = .ret g1) (h0 : g1 ≠ NUL) (hs : g1 ≠ '*')
    (hne : some gp ≠ ge) :
    dir_glob_match_impl m p ge (fuel + 1) gp u
      = (star_next_go g1 (p.drop u) u >>= fun next => rd p next >>= fun n =>
          if n = NUL then .ret DIR_GLOB_NO_MATCH
          else if n = '\\' ∨ n = '/' then
            if g1 = '/' then
              skip_sep_go (p.drop (next + 1)) (next + 1) >>= fun u2 =>
                dir_glob_match_impl m p ge fuel (gp + 2) u2
            else .ret DIR_GLOB_NO_MATCH
          else dir_glob_match_impl m p ge fuel (gp + 1) next) := by
  rw [dir_glob_match_impl]
  have h1 : ¬ ('*' = NUL) := by decide
  simp [hne, hg, hg1, h1, h0, hs]

theorem impl_star_star_slash (m p : List Char) (ge : Option Nat) (fuel gp u : Nat)
    (hg : rd m gp = .ret '*') (hg1 : rd m (gp + 1) = .ret '*') (hg2 : rd m (gp + 2) = .ret '/')
    (hne : some gp ≠ ge) :
    dir_glob_match_impl m p ge (fuel + 1) gp u
      = sub_search_loop (fun s => dir_glob_match_impl m p ge fuel (gp + 3) s) p (p.length + 1) u := by
  rw [dir_glob_match_impl]
  have h1 : ¬ ('*' = NUL) := by decide
  simp [hne, hg, hg1, hg2, h1]

theorem join_segments_length (segs : List (List Char)) (f : List Char) :
    segs.length ≤ (join_segments segs f).length := by
  induction segs with
  | nil => simp
  | cons s rest ih => simp [join_segments]; omega

theorem join_segments_no_nul (segs : List (List Char)) (f : List Char)
    (hs : ∀ s ∈ segs, NUL ∉ s) (hf : NUL ∉ f) : NUL ∉ join_segments segs f := by
  induction segs with
  | nil => simpa [join_segments] using hf
  | cons s rest ih =>
    intro h
    simp only [join_segments, List.mem_append, List.mem_cons] at h
    rcases h with h | h | h
    · exact hs s (by simp) h
    · revert h; decide
    · exact ih (fun t ht => hs t (by simp [ht])) h

theorem join_segments_head (segs : List (List Char)) (f sc : List Char)
    (hs : ∀ s ∈ segs, s ≠ [] ∧ ∀ x ∈ s, DIR_IS_SEP x = false)
    (hf : ∀ x ∈ f, DIR_IS_SEP x = false) :
    ∃ x t, join_segments segs f ++ NUL :: sc = x :: t ∧ ¬ (x = '/' ∨ x = '\\') := by
  have hsep : ∀ x : Char, DIR_IS_SEP x = false → ¬ (x = '/' ∨ x = '\\') := by
    intro x hx h
    have := (not_sep_iff x).1 hx
    rcases h with h | h
    · exact this.2 h
    · exact this.1 h
  cases segs with
  | nil =>
    cases f with
    | nil => exact ⟨NUL, sc, rfl, by decide⟩
    | cons a f => exact ⟨a, f ++ NUL :: sc, rfl, hsep a (hf a (by simp))⟩
  | cons s rest =>
    obtain ⟨hne, hs1⟩ := hs s (by simp)
    cases s with
    | nil => exact absurd rfl hne
    | cons a s =>
      exact ⟨a, s ++ '/' :: join_segments rest f ++ NUL :: sc, by simp [join_segments],
        hsep a (hs1 a (by simp))⟩

theorem sub_search_loop_segments (m p : List Char) (e fuel gp3 : Nat) (f sp sc : List Char)
    (hf : ∀ x ∈ f, literal x ∧ DIR_IS_SEP x = false)
    (hm : m.drop gp3 = f ++ NUL :: sp) (he : gp3 + f.length = e) (hfuel : f.length < fuel)
    (segs : List (List Char)) :
    ∀ (fuel2 pos : Nat), segs.length < fuel2 →
      (∀ s ∈ segs, s ≠ [] ∧ NUL ∉ s ∧ ∀ x ∈ s, DIR_IS_SEP x = false) →
      p.drop pos = join_segments segs f ++ NUL :: sc →
      sub_search_loop (fun s => dir_glob_match_impl m p (some e) fuel gp3 s) p fuel2 pos
        = .ret DIR_GLOB_MATCH := by
  have hf0 : NUL ∉ f := fun h => (hf NUL h).1.1 rfl
  induction segs with
  | nil =>
    intro fuel2 pos h2 _ hp
    obtain ⟨f2, rfl⟩ : ∃ f2, fuel2 = f2 + 1 := ⟨fuel2 - 1, by simp at h2; omega⟩
    rw [sub_search_loop]
    simp only [join_segments] at hp
    rw [impl_literal_tail m p e f fuel gp3 pos f (NUL :: sp) sc (fun x hx => (hf x hx).1) hf0 hm hp
      he hfuel]
    simp
  | cons s rest ih =>
    intro fuel2 pos h2 hs hp
    obtain ⟨f2, rfl⟩ : ∃ f2, fuel2 = f2 + 1 := ⟨fuel2 - 1, by simp at h2; omega⟩
    have hs' : ∀ t ∈ rest, t ≠ [] ∧ NUL ∉ t ∧ ∀ x ∈ t, DIR_IS_SEP x = false :=
      fun t ht => hs t (by simp [ht])
    have hnul : NUL ∉ join_segments (s :: rest) f :=
      join_segments_no_nul _ _ (fun t ht => (hs t ht).2.1) hf0
    rw [sub_search_loop]
    rw [impl_literal_tail m p e f fuel gp3 pos (join_segments (s :: rest) f) (NUL :: sp) sc
      (fun x hx => (hf x hx).1) hnul hm hp he hfuel]
    have hne : join_segments (s :: rest) f ≠ f := by
      intro h
      have h1 : '/' ∈ join_segments (s :: rest) f := by simp [join_segments]
      rw [h] at h1
      have := (hf _ h1).2
      revert this; decide
    rw [if_neg hne]
    obtain ⟨hsne, hs0, hssep⟩ := hs s (by simp)
    cases s with
    | nil => exact absurd rfl hsne
    | cons a s =>
      obtain ⟨x, t, hxt, hx⟩ := join_segments_head rest f sc
        (fun t ht => ⟨(hs' t ht).1, (hs' t ht).2.2⟩) (fun y hy => (hf y hy).2)
      have hp0 : p.drop pos = a :: (s ++ '/' :: ([] ++ x :: t)) := by
        rw [hp, List.nil_append, ← hxt]; simp [join_segments]
      have hp1 : p.drop (pos + 1) = s ++ '/' :: ([] ++ x :: t) := drop_succ_of_drop hp0
      have hw : ∀ z ∈ s, z ≠ NUL ∧ ¬ (z = '/' ∨ z = '\\') := by
        intro z hz
        refine ⟨fun h => hs0 (by simp [← h, hz]), ?_⟩
        have := (not_sep_iff z).1 (hssep z (by simp [hz]))
        intro h
        rcases h with h | h
        · exact this.2 h
        · exact this.1 h
      have hgo := dir_strchr2_go_some '/' '\\' s [] '/' x t hw (by decide) (by simp) hx (pos + 1)
      have hp2 : p.drop (pos + 1 + s.length + 1) = join_segments rest f ++ NUL :: sc := by
        have := drop_succ_of_drop (drop_add_of_drop s hp1)
        rw [this]; simp [hxt]
      simp only [Exec.ret_bind, ne_eq, not_true_eq_false, if_false, dir_strchr2, hp1, hgo,
        Exec.pure_eq, List.length_nil, Nat.add_zero]
      exact ih f2 _ (by simp at h2; omega) hs' hp2

theorem set_text_head (items : List set_item) (rest : List Char) (hok : set_ok items) :
    ∃ x t, set_text items ++ ']' :: rest = x :: t ∧ x ≠ '-' := by
  cases items with
  | nil => exact ⟨']', rest, rfl, by decide⟩
  | cons it its =>
    have h := hok it (by simp)
    cases it with
    | single c => exact ⟨c, _, rfl, (h c (by simp [set_item.chars])).2.1⟩
    | range lo hi => exact ⟨lo, _, rfl, (h lo (by simp [set_item.chars])).2.1⟩

theorem set_text_no_close (items : List set_item) (hok : set_ok items) :
    ∀ z ∈ set_text items, z ≠ ']' ∧ z ≠ NUL := by
  induction items with
  | nil => intro z hz; cases hz
  | cons it its ih =>
    intro z hz
    have h := hok it (by simp)
    have ih2 := ih (fun j hj => hok j (by simp [hj]))
    simp only [set_text, List.mem_append] at hz
    rcases hz with hz | hz
    · cases it with
      | single c =>
        simp only [set_item.text, List.mem_singleton] at hz
        subst hz
        exact ⟨(h z (by simp [set_item.chars])).1, (h z (by simp [set_item.chars])).2.2⟩
      | range lo hi =>
        simp only [set_item.text, List.mem_cons, List.mem_singleton, List.not_mem_nil,
          or_false] at hz
        rcases hz with hz | hz | hz
        · subst hz
          exact ⟨(h z (by simp [set_item.chars])).1, (h z (by simp [set_item.chars])).2.2⟩
        · subst hz; decide
        · subst hz
          exact ⟨(h z (by simp [set_item.chars])).1, (h z (by simp [set_item.chars])).2.2⟩
    · exact ih2 z hz

theorem strchr_go_spec (c : Char) (w rest : List Char) (hw : ∀ z ∈ w, z ≠ c ∧ z ≠ NUL) :
    ∀ i, strchr_go c (w ++ c :: rest) i = .ret (some (i + w.length)) := by
  induction w with
  | nil => intro i; simp [strchr_go]
  | cons z w ih =>
    intro i
    have hz := hw z (by simp)
    rw [List.cons_append, strchr_go, if_neg hz.1, if_neg hz.2, ih (fun t ht => hw t (by simp [ht]))]
    simp only [List.length_cons]; congr 2; omega

theorem range_loop_spec (m : List Char) (mc : Char) (mr : Bool) (rest : List Char)
    (items : List set_item) :
    ∀ (fuel rs re : Nat), set_ok items → m.drop rs = set_text items ++ ']' :: rest →
      re + 1 = rs + (set_text items).length → items.length < fuel →
      dir_glob_match_range_loop m re mc mr fuel rs
        = .ret (if set_has items mc then mr else !mr) := by
  induction items with
  | nil =>
    intro fuel rs re _ _ hre hf
    obtain ⟨f, rfl⟩ : ∃ f, fuel = f + 1 := ⟨fuel - 1, by simp at hf; omega⟩
    simp only [set_text, List.length_nil, Nat.add_zero] at hre
    rw [dir_glob_match_range_loop, if_pos hre.symm]
    simp [set_has]
  | cons it its ih =>
    intro fuel rs re hok hm hre hf
    obtain ⟨f, rfl⟩ : ∃ f, fuel = f + 1 := ⟨fuel - 1, by simp at hf; omega⟩
    have hok2 : set_ok its := fun j hj => hok j (by simp [hj])
    have hf2 : its.length < f := by simp at hf; omega
    obtain ⟨x, t, hxt, hx⟩ := set_text_head its rest hok2
    cases it with
    | single c =>
      have hm : m.drop rs = c :: (set_text its ++ ']' :: rest) := by
        rw [hm]; simp [set_text, set_item.text]
      have hre : re + 1 = rs + 1 + (set_text its).length := by
        rw [hre]; simp [set_text, set_item.text]; omega
      have hne : ¬ (rs = re + 1) := by omega
      have hm1 := drop_succ_of_drop hm
      have hm1x : m.drop (rs + 1) = x :: t := by rw [hm1, hxt]
      rw [dir_glob_match_range_loop, if_neg hne, rd_of_drop hm1x]
      simp only [Exec.ret_bind, if_neg hx, rd_of_drop hm, Exec.pure_eq]
      by_cases hc : c = mc
      · subst hc; simp [set_has, set_item.has]
      · rw [if_neg hc, ih f (rs + 1) re hok2 hm1 (by omega) hf2]
        have : set_has (set_item.single c :: its) mc = set_has its mc := by
          simp [set_has, set_item.has, Ne.symm hc]
        rw [this]
    | range lo hi =>
      have hm : m.drop rs = lo :: '-' :: hi :: (set_text its ++ ']' :: rest) := by
        rw [hm]; simp [set_text, set_item.text]
      have hre : re + 1 = rs + 3 + (set_text its).length := by
        rw [hre]; simp [set_text, set_item.text]; omega
      have hne : ¬ (rs = re + 1) := by omega
      have hm1 := drop_succ_of_drop hm
      have hm2 := drop_succ_of_drop hm1
      have hm3 := drop_succ_of_drop hm2
      rw [dir_glob_match_range_loop, if_neg hne, rd_of_drop hm1]
      simp only [Exec.ret_bind, if_true, rd_of_drop hm, rd_of_drop hm2, Exec.pure_eq]
      by_cases h1 : char_value lo ≤ char_value mc
      · rw [if_pos h1]
        by_cases h2 : char_value mc ≤ char_value hi
        · simp [set_has, set_item.has, h1, h2]
        · rw [if_neg h2, ih f (rs + 3) re hok2 hm3 (by omega) hf2]
          have : set_has (set_item.range lo hi :: its) mc = set_has its mc := by
            simp [set_has, set_item.has, h2]
          rw [this]
      · rw [if_neg h1, ih f (rs + 3) re hok2 hm3 (by omega) hf2]
        have : set_has (set_item.range lo hi :: its) mc = set_has its mc := by
          simp [set_has, set_item.has, h1]
        rw [this]

theorem impl_bracket (m p : List Char) (ge : Option Nat) (fuel gp u : Nat)
    (hg : rd m gp = .ret '[') (hne : some gp ≠ ge) :
    dir_glob_match_impl m p ge (fuel + 1) gp u
      = (strchr m (gp + 1) ']' >>= fun range_end =>
          match range_end with
          | none => .ret DIR_GLOB_INVALID_PATTERN
          | some range_end =>
            rd p u >>= fun c => dir_glob_match_range m (gp + 1) (range_end - 1) c >>= fun r =>
              if r = false then .ret DIR_GLOB_NO_MATCH
              else dir_glob_match_impl m p ge fuel (range_end + 1) (u + 1)) := by
  rw [dir_glob_match_impl]
  have h1 : ¬ ('[' = NUL) := by decide
  have h2 : ¬ ('[' = '*') := by decide
  have h3 : ¬ ('[' = '?') := by decide
  simp only [if_neg hne, hg, Exec.ret_bind, if_neg h1, if_neg h2, if_neg h3, if_true]
  rfl

theorem impl_question (m p : List Char) (ge : Option Nat) (fuel gp u : Nat)
    (hg : rd m gp = .ret '?') (hne : some gp ≠ ge) :
    dir_glob_match_impl m p ge (fuel + 1) gp u
      = (rd p u >>= fun c => if DIR_IS_SEP c then .ret DIR_GLOB_NO_MATCH
          else dir_glob_match_impl m p ge fuel (gp + 1) (u + 1)) := by
  rw [dir_glob_match_impl]
  have h1 : ¬ ('?' = NUL) := by decide
  have h2 : ¬ ('?' = '*') := by decide
  simp only [if_neg hne, hg, Exec.ret_bind, if_neg h1, if_neg h2, if_true]
  rfl

/-- On a non-empty candidate `?` behaves as documented: the pattern `?` matches
exactly the candidates that are one non-separator character. -/
theorem question_mark_nonempty (a : Char) (s sp sc : List Char) (h0 : NUL ∉ a :: s) :
    dir_glob_match (cstr ['?'] sp) (cstr (a :: s) sc)
      = .ret (if DIR_IS_SEP a = false ∧ s = [] then DIR_GLOB_MATCH else DIR_GLOB_NO_MATCH) := by
  rw [dir_glob_match_cstr ['?'] sp _ (by decide) (by decide)]
  have hm0 : (cstr ['?'] sp).drop 0 = '?' :: NUL :: sp := by simp [cstr]
  have hp0 : (cstr (a :: s) sc).drop 0 = a :: (s ++ NUL :: sc) := by simp [cstr]
  have hf : (cstr ['?'] sp).length + 1 = (sp.length + 1 + 1) + 1 := by simp [cstr]
  rw [hf, impl_question _ _ _ _ _ _ (rd_of_drop hm0) (by simp), rd_of_drop hp0]
  simp only [Exec.ret_bind]
  cases hsep : DIR_IS_SEP a
  · simp only [Bool.false_eq_true, if_false, true_and]
    have hp1 := drop_succ_of_drop hp0
    simp only [List.length_singleton, Nat.zero_add]
    rw [impl_end]
    cases s with
    | nil => rw [rd_of_drop hp1]; simp
    | cons b s =>
      rw [rd_of_drop hp1]
      have hb : b ≠ NUL := fun h => h0 (by simp [h])
      simp [hb]
  · simp

/-- Where `*` does work: when the text `w` it has to stand for holds no separator
and does not hold the character that follows the `*` in the pattern, the pattern
`q ++ "*" ++ t` matches `q ++ w ++ t`. -/
theorem star_matches_plain_run (q w t sp sc : List Char)
    (hq : ∀ x ∈ q, literal x) (hw : ∀ x ∈ w, x ≠ NUL ∧ DIR_IS_SEP x = false)
    (ht : ∀ x ∈ t, literal x ∧ DIR_IS_SEP x = false)
    (hfirst : ∀ g, t.head? = some g → g ∉ w)
    (hlen : (q ++ '*' :: t).length < 2 ^ 32) :
    dir_glob_match (cstr (q ++ '*' :: t) sp) (cstr (q ++ w ++ t) sc) = .ret DIR_GLOB_MATCH := by
  have h0 : NUL ∉ q ++ '*' :: t := by
    intro h
    rcases List.mem_append.1 h with h | h
    · exact (hq NUL h).1 rfl
    · rcases List.mem_cons.1 h with h | h
      · revert h; decide
      · exact (ht NUL h).1.1 rfl
  rw [dir_glob_match_cstr _ sp _ h0 hlen]
  have hm : (cstr (q ++ '*' :: t) sp).drop 0 = q ++ ('*' :: (t ++ NUL :: sp)) := by
    simp [cstr]
  have hp : (cstr (q ++ w ++ t) sc).drop 0 = q ++ (w ++ (t ++ NUL :: sc)) := by simp [cstr]
  have hf : (cstr (q ++ '*' :: t) sp).length + 1 = (sp.length + t.length + 2 + 1) + q.length := by
    simp [cstr]; omega
  rw [hf, impl_literal_run _ _ _ q _ 0 0 _ _ hq hm hp (by simp)]
  have hm1 := drop_add_of_drop q hm
  have hp1 := drop_add_of_drop q hp
  simp only [Nat.zero_add] at hm1 hp1 ⊢
  have hm2 := drop_succ_of_drop hm1
  have hne : some q.length ≠ some (q ++ '*' :: t).length := by simp
  have hwsep : ∀ z ∈ w, z ≠ NUL ∧ ¬ (z = '/' ∨ z = '\\') := by
    intro z hz
    refine ⟨(hw z hz).1, fun h => ?_⟩
    have := (not_sep_iff z).1 (hw z hz).2
    rcases h with h | h
    · exact this.2 h
    · exact this.1 h
  cases t with
  | nil =>
    rw [impl_star_nul _ _ _ _ _ _ (rd_of_drop hm1) (rd_of_drop hm2) hne]
    rw [dir_strchr2, hp1]
    simp only [List.nil_append]
    rw [dir_strchr2_go_none '/' '\\' w sc hwsep]
    rfl
  | cons g1 t =>
    have hg1 := ht g1 (by simp)
    rw [impl_star_other _ _ _ _ _ _ g1 (rd_of_drop hm1) (rd_of_drop hm2) hg1.1.1 hg1.1.2.1 hne]
    have hp2 : (cstr (q ++ w ++ g1 :: t) sc).drop q.length = w ++ g1 :: (t ++ NUL :: sc) := by
      rw [hp1]; simp
    have hstop : ∀ y ∈ w, ¬ (y = NUL ∨ y = g1 ∨ DIR_IS_SEP y = true) := by
      intro y hy h
      rcases h with h | h | h
      · exact (hw y hy).1 h
      · exact hfirst g1 rfl (h ▸ hy)
      · rw [(hw y hy).2] at h; cases h
    rw [hp2, star_next_go_spec g1 w g1 _ hstop (Or.inr (Or.inl rfl))]
    have hp3 := drop_add_of_drop w hp2
    have hg1s : ¬ (g1 = '\\' ∨ g1 = '/') := by
      have := (not_sep_iff g1).1 hg1.2
      intro h
      rcases h with h | h
      · exact this.1 h
      · exact this.2 h
    simp only [Exec.ret_bind, rd_of_drop hp3, if_neg hg1.1.1, if_neg hg1s]
    have hp4 : (cstr (q ++ w ++ g1 :: t) sc).drop (q.length + w.length)
        = (g1 :: t) ++ NUL :: sc := by rw [hp3]; simp
    rw [impl_literal_tail _ _ _ (g1 :: t) _ _ _ (g1 :: t) (NUL :: sp) sc
      (fun y hy => (ht y hy).1) (fun h => (ht NUL h).1.1 rfl) hm2 hp4 (by simp; omega)
      (by simp; omega)]
    simp

/-- The examples of the specification, run on arrays of exactly the size the
strings need. -/
theorem specification_examples :
    glob "a/*.txt" "a/b.txt" = .ret DIR_GLOB_MATCH
      ∧ glob "a/*.txt" "a/b/c.txt" = .ret DIR_GLOB_NO_MATCH
      ∧ glob "a/**" "a/b/c/d.txt" = .ret DIR_GLOB_MATCH
      ∧ glob "a/b/c**" "a/b/c/d/e/file.txt" = .ret DIR_GLOB_MATCH
      ∧ glob "a/**/d.txt" "a/d.txt" = .ret DIR_GLOB_MATCH
      ∧ glob "a/**/d.txt" "a/x/y/d.txt" = .ret DIR_GLOB_MATCH
      ∧ glob "[0-9]*.log" "7server.log" = .ret DIR_GLOB_MATCH
      ∧ glob "[!0-9]*.log" "7server.log" = .ret DIR_GLOB_NO_MATCH
      ∧ glob "\x7bfoo,bar\x7d.txt" "bar.txt" = .ret DIR_GLOB_MATCH
      ∧ glob "\x7bfoo,bar\x7d.txt" "baz.txt" = .ret DIR_GLOB_NO_MATCH := by
  decide

/-! ## Brace alternation -/

theorem char_toNat_inj {a b : Char} (h : a.toNat = b.toNat) : a = b := by
  apply Char.ext
  cases ha : a.val with
  | mk va =>
    cases hb : b.val with
    | mk vb =>
      simp only [Char.toNat, UInt32.toNat, ha, hb] at h
      congr
      first
      | exact Fin.ext h
      | exact BitVec.eq_of_toNat_eq h

/-- `strncmp( path, item, strlen item )` is `0` exactly when the item is an
initial part of the path. -/
theorem strncmp_spec (p m : List Char) (sc : List Char) (a : List Char) :
    ∀ (cand rest : List Char) (u i : Nat), NUL ∉ a →
      p.drop u = cand ++ NUL :: sc → m.drop i = a ++ rest →
      ∃ z, strncmp p u m i a.length = .ret z ∧ (z = 0 ↔ a <+: cand) := by
  induction a with
  | nil => intro cand rest u i _ _ _; exact ⟨0, rfl, by simp⟩
  | cons x a ih =>
    intro cand rest u i ha hp hm
    have hx : x ≠ NUL := fun h => ha (by simp [h])
    have ha2 : NUL ∉ a := fun h => ha (by simp [h])
    have hm2 : m.drop i = x :: (a ++ rest) := hm
    simp only [List.length_cons]
    rw [strncmp]
    cases cand with
    | nil =>
      have hp2 : p.drop u = NUL :: sc := hp
      rw [rd_of_drop hp2, rd_of_drop hm2]
      refine ⟨(NUL.toNat : Int) - (x.toNat : Int), ?_, ?_⟩
      · simp [Ne.symm hx]
      · constructor
        · intro h
          exfalso
          apply hx
          apply char_toNat_inj
          omega
        · intro h; simp at h
    | cons c cand =>
      have hp2 : p.drop u = c :: (cand ++ NUL :: sc) := hp
      rw [rd_of_drop hp2, rd_of_drop hm2]
      by_cases hcx : c = x
      · subst hcx
        obtain ⟨z, hz, hiff⟩ := ih cand rest (u + 1) (i + 1) ha2
          (drop_succ_of_drop hp2) (drop_succ_of_drop hm2)
        refine ⟨z, ?_, ?_⟩
        · simp [hx, hz]
        · rw [hiff, List.prefix_cons_inj]
      · refine ⟨(c.toNat : Int) - (x.toNat : Int), ?_, ?_⟩
        · simp [hcx]
        · constructor
          · intro h
            exfalso
            apply hcx
            apply char_toNat_inj
            omega
          · intro h
            rw [List.cons_prefix_cons] at h
            exact absurd h.1.symm hcx

theorem item_end_go_spec (ge : Nat) (a : List Char) (d : Char) (rest : List Char) :
    ∀ (is : Nat), (∀ x ∈ a, x ≠ ',') → is + a.length ≤ ge + 1 →
      (d = ',' ∨ is + a.length = ge + 1) →
      item_end_go ge (a ++ d :: rest) is = .ret (is + a.length) := by
  induction a with
  | nil =>
    intro is _ _ hd
    have : ¬ (d ≠ ',' ∧ is ≠ ge + 1) := by
      rcases hd with h | h
      · simp [h]
      · simp at h; simp [h]
    simp [item_end_go, this]
  | cons x a ih =>
    intro is ha hle hd
    simp only [List.length_cons] at hle hd
    have hx : x ≠ ',' ∧ is ≠ ge + 1 := ⟨ha x (by simp), by omega⟩
    rw [List.cons_append, item_end_go, if_pos hx,
      ih (is + 1) (fun y hy => ha y (by simp [hy])) (by omega)
        (by rcases hd with h | h; exact Or.inl h; exact Or.inr (by omega))]
    simp only [List.length_cons]; congr 1; omega

theorem alts_text_length (alts : List (List Char)) (hok : alts_ok alts) :
    alts.length ≤ (alts_text alts).length := by
  induction alts with
  | nil => simp
  | cons a rest ih =>
    have ha := (hok a (by simp)).1
    have hlen : 1 ≤ a.length := by
      cases a with
      | nil => exact absurd rfl ha
      | cons _ _ => simp
    cases rest with
    | nil => simpa [alts_text] using hlen
    | cons b rest =>
      have := ih (fun c hc => hok c (by simp [hc]))
      simp only [alts_text, List.length_append, List.length_cons] at this ⊢
      omega

theorem alts_text_no_close (alts : List (List Char)) (hok : alts_ok alts) :
    ∀ x ∈ alts_text alts, x ≠ '}' ∧ x ≠ NUL := by
  induction alts with
  | nil => intro x hx; cases hx
  | cons a rest ih =>
    have ha := (hok a (by simp)).2
    cases rest with
    | nil => intro x hx; exact ⟨(ha x hx).2.1, (ha x hx).2.2⟩
    | cons b rest =>
      intro x hx
      simp only [alts_text, List.mem_append, List.mem_cons] at hx
      rcases hx with hx | hx | hx
      · exact ⟨(ha x hx).2.1, (ha x hx).2.2⟩
      · subst hx; decide
      · exact ih (fun c hc => hok c (by simp [hc])) x hx

theorem to_int_small (n : Nat) (h : n < 2 ^ 31) : to_int n = (n : Int) := by
  have h1 : n % 2 ^ 32 = n := Nat.mod_eq_of_lt (by omega)
  unfold to_int
  rw [h1, if_pos h]

theorem groups_loop_spec (m p cand sc rest : List Char) (u : Nat)
    (hp : p.drop u = cand ++ NUL :: sc) (alts : List (List Char)) :
    ∀ (fuel is ge : Nat), alts_ok alts → (∀ a ∈ alts, a.length < 2 ^ 31) →
      m.drop is = alts_text alts ++ '}' :: rest → ge + 1 = is + (alts_text alts).length →
      alts.length < fuel →
      dir_glob_match_groups_loop m ge p u fuel is = .ret (groups_result cand alts) := by
  induction alts with
  | nil =>
    intro fuel is ge _ _ _ hge hf
    obtain ⟨f, rfl⟩ : ∃ f, fuel = f + 1 := ⟨fuel - 1, by simp at hf; omega⟩
    simp only [alts_text, List.length_nil, Nat.add_zero] at hge
    rw [dir_glob_match_groups_loop, if_neg (by omega)]
    rfl
  | cons a alts ih =>
    intro fuel is ge hok hsmall hm hge hf
    obtain ⟨f, rfl⟩ : ∃ f, fuel = f + 1 := ⟨fuel - 1, by simp at hf; omega⟩
    obtain ⟨hane, hach⟩ := hok a (by simp)
    have ha0 : NUL ∉ a := fun h => (hach NUL h).2.2 rfl
    have halen : 1 ≤ a.length := by
      cases a with
      | nil => exact absurd rfl hane
      | cons _ _ => simp
    have hasmall := hsmall a (by simp)
    have hmod : a.length % 2 ^ 32 = a.length := Nat.mod_eq_of_lt (by omega)
    cases alts with
    | nil =>
      simp only [alts_text] at hm hge
      rw [dir_glob_match_groups_loop]
      by_cases h2 : 2 ≤ a.length
      · rw [if_pos (by omega), hm, item_end_go_spec ge a '}' rest is (fun x hx => (hach x hx).1)
          (by omega) (Or.inr (by omega))]
        obtain ⟨z, hz, hiff⟩ := strncmp_spec p m sc a cand ('}' :: rest) u is ha0 hp hm
        simp only [Exec.ret_bind, Nat.add_sub_cancel_left, hmod, hz, Exec.pure_eq]
        by_cases hz0 : z = 0
        · rw [if_pos hz0, to_int_small _ hasmall]
          simp [groups_result, h2, hiff.1 hz0]
        · rw [if_neg hz0]
          have hno : ¬ a <+: cand := fun h => hz0 (hiff.2 h)
          obtain ⟨f2, rfl⟩ : ∃ f2, f = f2 + 1 := ⟨f - 1, by simp at hf; omega⟩
          rw [dir_glob_match_groups_loop, if_neg (by omega)]
          simp [groups_result, hno]
      · rw [if_neg (by omega)]
        simp [groups_result, h2]
    | cons b alts =>
      have hok2 : alts_ok (b :: alts) := fun c hc => hok c (by simp [hc])
      have htl := alts_text_length (b :: alts) hok2
      simp only [List.length_cons] at htl hf
      have hm2 : m.drop is = a ++ ',' :: (alts_text (b :: alts) ++ '}' :: rest) := by
        rw [hm]; simp [alts_text]
      have hge2 : ge + 1 = is + a.length + 1 + (alts_text (b :: alts)).length := by
        rw [hge]; simp [alts_text]; omega
      rw [dir_glob_match_groups_loop, if_pos (by omega), hm2,
        item_end_go_spec ge a ',' _ is (fun x hx => (hach x hx).1) (by omega) (Or.inl rfl)]
      obtain ⟨z, hz, hiff⟩ := strncmp_spec p m sc a cand _ u is ha0 hp hm2
      simp only [Exec.ret_bind, Nat.add_sub_cancel_left, hmod, hz, Exec.pure_eq]
      by_cases hz0 : z = 0
      · rw [if_pos hz0, to_int_small _ hasmall]
        simp [groups_result, hiff.1 hz0]
      · rw [if_neg hz0]
        have hno : ¬ a <+: cand := fun h => hz0 (hiff.2 h)
        have hm3 := drop_succ_of_drop (drop_add_of_drop a hm2)
        rw [ih f (is + a.length + 1) ge hok2 (fun c hc => hsmall c (by simp [hc])) hm3
          (by omega) (by simp only [List.length_cons]; omega)]
        simp [groups_result, hno]

theorem group_end_go_spec (e : Nat) (text rest : List Char) (hno : ∀ x ∈ text, x ≠ '}') :
    ∀ i, i + text.length < e →
      group_end_go (some e) (text ++ '}' :: rest) i = .ret (i + text.length) := by
  induction text with
  | nil => intro i _; simp [group_end_go]
  | cons x text ih =>
    intro i hi
    simp only [List.length_cons] at hi
    have hx : some i ≠ some e ∧ x ≠ '}' := ⟨by simp; omega, hno x (by simp)⟩
    rw [List.cons_append, group_end_go, if_pos hx,
      ih (fun y hy => hno y (by simp [hy])) (i + 1) (by omega)]
    simp only [List.length_cons]; congr 1; omega

theorem impl_brace (m p : List Char) (ge : Option Nat) (fuel gp u : Nat)
    (hg : rd m gp = .ret '{') (hne : some gp ≠ ge) :
    dir_glob_match_impl m p ge (fuel + 1) gp u
      = (group_end_go ge (m.drop (gp + 1)) (gp + 1) >>= fun group_end =>
          dir_glob_match_groups m (gp + 1) (group_end - 1) p u >>= fun match_len =>
            if match_len < 0 then .ret DIR_GLOB_NO_MATCH
            else dir_glob_match_impl m p ge fuel (group_end + 1) (u + match_len.toNat)) := by
  rw [dir_glob_match_impl]
  have h1 : ¬ ('{' = NUL) := by decide
  have h2 : ¬ ('{' = '*') := by decide
  have h3 : ¬ ('{' = '?') := by decide
  have h4 : ¬ ('{' = '[') := by decide
  simp only [if_neg hne, hg, Exec.ret_bind, if_neg h1, if_neg h2, if_neg h3, if_neg h4, if_true]
  rfl

theorem groups_result_bounds (cand : List Char) (alts : List (List Char)) :
    groups_result cand alts = -1 ∨
      ∃ a ∈ alts, groups_result cand alts = (a.length : Int) ∧ a <+: cand := by
  induction alts with
  | nil => exact Or.inl rfl
  | cons a alts ih =>
    cases alts with
    | nil =>
      by_cases h : 2 ≤ a.length ∧ a <+: cand
      · exact Or.inr ⟨a, by simp, by simp [groups_result, h], h.2⟩
      · exact Or.inl (by simp only [groups_result, if_neg h])
    | cons b alts =>
      by_cases h : a <+: cand
      · exact Or.inr ⟨a, by simp, by simp [groups_result, h], h⟩
      · rcases ih with h2 | ⟨c, hc, h2, h3⟩
        · exact Or.inl (by simp only [groups_result, if_neg h]; exact h2)
        · exact Or.inr ⟨c, by simp [List.mem_cons.1 hc], by
            simp only [groups_result, if_neg h]; exact h2, h3⟩

/-- Brace alternation on well-formed patterns: the pattern `{a1,..,an}` followed by
the literal text `t` matches the candidate exactly when `dir_glob_match_groups`
finds an alternative and the rest of the candidate behind it is `t`. -/
theorem brace_alternation (alts : List (List Char)) (t cand sp sc : List Char)
    (hok : alts_ok alts) (ht : ∀ x ∈ t, literal x) (hcand : NUL ∉ cand)
    (hlen : ('{' :: alts_text alts ++ '}' :: t).length < 2 ^ 31) :
    dir_glob_match (cstr ('{' :: alts_text alts ++ '}' :: t) sp) (cstr cand sc)
      = .ret (if groups_result cand alts < 0 then DIR_GLOB_NO_MATCH
          else if cand.drop (groups_result cand alts).toNat = t then DIR_GLOB_MATCH
          else DIR_GLOB_NO_MATCH) := by
  have hno := alts_text_no_close alts hok
  have h0 : NUL ∉ '{' :: alts_text alts ++ '}' :: t := by
    intro h
    simp only [List.cons_append, List.mem_cons, List.mem_append] at h
    rcases h with h | h | h | h
    · revert h; decide
    · exact (hno NUL h).2 rfl
    · revert h; decide
    · exact (ht NUL h).1 rfl
  rw [dir_glob_match_cstr _ sp _ h0 (by omega)]
  have hm0 : (cstr ('{' :: alts_text alts ++ '}' :: t) sp).drop 0
      = '{' :: (alts_text alts ++ '}' :: (t ++ NUL :: sp)) := by simp [cstr]
  have hp0 : (cstr cand sc).drop 0 = cand ++ NUL :: sc := by simp [cstr]
  have hm1 := drop_succ_of_drop hm0
  have hm2 := drop_succ_of_drop (drop_add_of_drop (alts_text alts) hm1)
  have hL : ('{' :: alts_text alts ++ '}' :: t).length = (alts_text alts).length + t.length + 2 := by
    simp; omega
  have hf : (cstr ('{' :: alts_text alts ++ '}' :: t) sp).length + 1
      = (sp.length + (alts_text alts).length + t.length + 3) + 1 := by simp [cstr]; omega
  rw [hf, impl_brace _ _ _ _ _ _ (rd_of_drop hm0) (by rw [hL]; simp), hm1,
    group_end_go_spec _ _ _ (fun x hx => (hno x hx).1) _ (by rw [hL]; omega)]
  simp only [Exec.ret_bind, Nat.zero_add, Nat.add_sub_cancel_left]
  have hsmall : ∀ a ∈ alts, a.length < 2 ^ 31 := by
    intro a ha
    have h1 : a.length ≤ (alts_text alts).length := by
      clear hlen hL hf hm2 hm1 hm0 h0 hno
      induction alts with
      | nil => cases ha
      | cons b alts ih =>
        cases alts with
        | nil => rw [List.mem_singleton.1 ha]; simp [alts_text]
        | cons c alts =>
          rcases List.mem_cons.1 ha with h | h
          · subst h; simp [alts_text]
          · have := ih (fun d hd => hok d (by simp [hd])) h
            simp only [alts_text, List.length_append, List.length_cons] at this ⊢
            omega
    omega
  have hfu : alts.length < (cstr ('{' :: alts_text alts ++ '}' :: t) sp).length + 1 := by
    have := alts_text_length alts hok
    simp [cstr]; omega
  rw [dir_glob_match_groups, groups_loop_spec _ _ cand sc (t ++ NUL :: sp) 0 hp0 alts _ 1
    (alts_text alts).length hok hsmall hm1 (by omega) hfu]
  simp only [Exec.ret_bind]
  by_cases hneg : groups_result cand alts < 0
  · rw [if_pos hneg, if_pos hneg]
  · rw [if_neg hneg, if_neg hneg]
    rcases groups_result_bounds cand alts with h | ⟨a, _, h, hpre⟩
    · rw [h] at hneg; exact absurd (by decide) hneg
    · obtain ⟨r, hr⟩ := hpre
      rw [h, Int.toNat_ofNat]
      have hp1 : (cstr cand sc).drop a.length = r ++ NUL :: sc := by
        have h5 : (cstr cand sc).drop 0 = a ++ (r ++ NUL :: sc) := by rw [hp0, ← hr]; simp
        have h6 := drop_add_of_drop a h5
        rwa [Nat.zero_add] at h6
      have hr0 : NUL ∉ r := fun hh => hcand (by rw [← hr]; simp [hh])
      have hdrop : cand.drop a.length = r := by rw [← hr]; simp
      rw [hdrop]
      exact impl_literal_tail _ _ _ t _ _ _ r (NUL :: sp) sc ht hr0 hm2 hp1
        (by rw [hL]; omega) (by omega)

theorem groups_result_none (cand : List Char) (alts : List (List Char))
    (h : ∀ a ∈ alts, ¬ a <+: cand) : groups_result cand alts = -1 := by
  rcases groups_result_bounds cand alts with h1 | ⟨a, ha, _, hpre⟩
  · exact h1
  · exact absurd hpre (h a ha)

theorem groups_result_hit (cand a : List Char) (pre post : List (List Char))
    (hpre : ∀ b ∈ pre, ¬ b <+: cand) (ha : a <+: cand) (hlast : post ≠ [] ∨ 2 ≤ a.length) :
    groups_result cand (pre ++ a :: post) = (a.length : Int) := by
  induction pre with
  | nil =>
    cases post with
    | nil =>
      have h2 : 2 ≤ a.length := by
        rcases hlast with h | h
        · exact absurd rfl h
        · exact h
      simp [groups_result, h2, ha]
    | cons c post => simp [groups_result, ha]
  | cons b pre ih =>
    have hb : ¬ b <+: cand := hpre b (by simp)
    have ih2 := ih (fun c hc => hpre c (by simp [hc]))
    cases hrest : pre ++ a :: post with
    | nil => simp at hrest
    | cons c rest =>
      rw [hrest] at ih2
      simp only [List.cons_append, hrest, groups_result, if_neg hb]
      exact ih2

/-- The part of brace alternation that works: an alternative that begins the
candidate `a ++ t`, with no earlier alternative that does, gives
`DIR_GLOB_MATCH`, unless it is a last alternative of a single character. -/
theorem brace_first_alternative_wins (pre post : List (List Char)) (a t sp sc : List Char)
    (hok : alts_ok (pre ++ a :: post)) (ht : ∀ x ∈ t, literal x)
    (hpre : ∀ b ∈ pre, ¬ b <+: a ++ t) (hlast : post ≠ [] ∨ 2 ≤ a.length)
    (hlen : ('{' :: alts_text (pre ++ a :: post) ++ '}' :: t).length < 2 ^ 31) :
    dir_glob_match (cstr ('{' :: alts_text (pre ++ a :: post) ++ '}' :: t) sp) (cstr (a ++ t) sc)
      = .ret DIR_GLOB_MATCH := by
  have ha0 : NUL ∉ a := fun h => ((hok a (by simp)).2 NUL h).2.2 rfl
  have hcand : NUL ∉ a ++ t := by
    intro h
    rcases List.mem_append.1 h with h | h
    · exact ha0 h
    · exact (ht NUL h).1 rfl
  rw [brace_alternation _ t (a ++ t) sp sc hok ht hcand hlen,
    groups_result_hit (a ++ t) a pre post hpre ⟨t, rfl⟩ hlast]
  simp

/-- When no alternative begins the candidate, the result is `DIR_GLOB_NO_MATCH`. -/
theorem brace_no_alternative (alts : List (List Char)) (t cand sp sc : List Char)
    (hok : alts_ok alts) (ht : ∀ x ∈ t, literal x) (hcand : NUL ∉ cand)
    (hnone : ∀ a ∈ alts, ¬ a <+: cand)
    (hlen : ('{' :: alts_text alts ++ '}' :: t).length < 2 ^ 31) :
    dir_glob_match (cstr ('{' :: alts_text alts ++ '}' :: t) sp) (cstr cand sc)
      = .ret DIR_GLOB_NO_MATCH := by
  rw [brace_alternation _ t cand sp sc hok ht hcand hlen, groups_result_none cand alts hnone]
  simp

/-! ## The fuel of the embedding is never used up -/

theorem bind_ne_nofuel {α β : Type} {x : Exec α} {f : α → Exec β} (hx : x ≠ .nofuel)
    (hf : ∀ a, x = .ret a → f a ≠ .nofuel) : (x >>= f) ≠ .nofuel := by
  cases x with
  | ret a => exact hf a rfl
  | oob => intro h; cases h
  | nofuel => exact absurd rfl hx

theorem rd_ne_nofuel (m : List Char) (i : Nat) : rd m i ≠ .nofuel := by
  unfold rd; split <;> intro h <;> cases h

theorem rd_lt {m : List Char} {i : Nat} {c : Char} (h : rd m i = .ret c) : i < m.length := by
  unfold rd at h
  split at h
  · rename_i c2 hc
    rw [List.get?_eq_getElem?] at hc
    exact (List.getElem?_eq_some_iff.1 hc).1
  · cases h

theorem strchr_go_ok (c : Char) (cells : List Char) :
    ∀ i, strchr_go c cells i ≠ .nofuel ∧
      ∀ r, strchr_go c cells i = .ret (some r) → i ≤ r ∧ r < i + cells.length := by
  induction cells with
  | nil => intro i; simp [strchr_go]
  | cons x xs ih =>
    intro i
    rw [strchr_go]
    split
    · simp
    · split
      · simp
      · obtain ⟨h1, h2⟩ := ih (i + 1)
        refine ⟨h1, fun r hr => ?_⟩
        have := h2 r hr
        simp only [List.length_cons]; omega

theorem dir_strchr2_run_ok (a b : Char) (cells : List Char) :
    ∀ s, dir_strchr2_run a b cells s ≠ .nofuel ∧
      ∀ r, dir_strchr2_run a b cells s = .ret r → s ≤ r ∧ r < s + cells.length := by
  induction cells with
  | nil => intro s; simp [dir_strchr2_run]
  | cons x xs ih =>
    intro s
    rw [dir_strchr2_run]
    split
    · obtain ⟨h1, h2⟩ := ih (s + 1)
      refine ⟨h1, fun r hr => ?_⟩
      have := h2 r hr
      simp only [List.length_cons]; omega
    · simp

theorem dir_strchr2_go_ok (a b : Char) (cells : List Char) :
    ∀ s, dir_strchr2_go a b cells s ≠ .nofuel ∧
      ∀ r, dir_strchr2_go a b cells s = .ret (some r) → s ≤ r ∧ r < s + cells.length := by
  induction cells with
  | nil => intro s; simp [dir_strchr2_go]
  | cons x xs ih =>
    intro s
    rw [dir_strchr2_go]
    split
    · simp
    · split
      · obtain ⟨h1, h2⟩ := dir_strchr2_run_ok a b xs s
        constructor
        · exact bind_ne_nofuel h1 (fun r _ => by simp)
        · intro r hr
          cases hrun : dir_strchr2_run a b xs s with
          | ret r2 =>
            rw [hrun] at hr
            simp only [Exec.ret_bind, Exec.pure_eq, Exec.ret.injEq, Option.some.injEq] at hr
            subst hr
            have := h2 r2 hrun
            simp only [List.length_cons]; omega
          | oob => rw [hrun] at hr; cases hr
          | nofuel => rw [hrun] at hr; cases hr
      · obtain ⟨h1, h2⟩ := ih (s + 1)
        refine ⟨h1, fun r hr => ?_⟩
        have := h2 r hr
        simp only [List.length_cons]; omega

theorem dir_strchr2_ok (p : List Char) (s : Nat) (a b : Char) :
    dir_strchr2 p s a b ≠ .nofuel ∧
      ∀ r, dir_strchr2 p s a b = .ret (some r) → s ≤ r ∧ r < p.length := by
  obtain ⟨h1, h2⟩ := dir_strchr2_go_ok a b (p.drop s) s
  refine ⟨h1, fun r hr => ?_⟩
  have := h2 r hr
  rw [List.length_drop] at this
  omega

theorem star_next_go_ne_nofuel (g1 : Char) (cells : List Char) :
    ∀ n, star_next_go g1 cells n ≠ .nofuel := by
  induction cells with
  | nil => intro n; simp [star_next_go]
  | cons x xs ih => intro n; rw [star_next_go]; split; exact ih _; simp

theorem skip_sep_go_ne_nofuel (cells : List Char) :
    ∀ n, skip_sep_go cells n ≠ .nofuel := by
  induction cells with
  | nil => intro n; simp [skip_sep_go]
  | cons x xs ih => intro n; rw [skip_sep_go]; split; exact ih _; simp

theorem group_end_go_ok (ge : Option Nat) (cells : List Char) :
    ∀ i, group_end_go ge cells i ≠ .nofuel ∧
      ∀ r, group_end_go ge cells i = .ret r → i ≤ r ∧ r ≤ i + cells.length := by
  induction cells with
  | nil =>
    intro i
    rw [group_end_go]
    split <;> simp
  | cons x xs ih =>
    intro i
    rw [group_end_go]
    split
    · obtain ⟨h1, h2⟩ := ih (i + 1)
      refine ⟨h1, fun r hr => ?_⟩
      have := h2 r hr
      simp only [List.length_cons]; omega
    · simp

theorem item_end_go_ok (ge : Nat) (cells : List Char) :
    ∀ i, item_end_go ge cells i ≠ .nofuel ∧
      ∀ r, item_end_go ge cells i = .ret r → i ≤ r ∧ r < i + cells.length := by
  induction cells with
  | nil => intro i; simp [item_end_go]
  | cons x xs ih =>
    intro i
    rw [item_end_go]
    split
    · obtain ⟨h1, h2⟩ := ih (i + 1)
      refine ⟨h1, fun r hr => ?_⟩
      have := h2 r hr
      simp only [List.length_cons]; omega
    · simp

theorem strncmp_ne_nofuel (a b : List Char) (n : Nat) :
    ∀ i j, strncmp a i b j n ≠ .nofuel := by
  induction n with
  | zero => intro i j; simp [strncmp]
  | succ n ih =>
    intro i j
    rw [strncmp]
    refine bind_ne_nofuel (rd_ne_nofuel _ _) (fun x _ => ?_)
    refine bind_ne_nofuel (rd_ne_nofuel _ _) (fun y _ => ?_)
    split
    · simp
    · split
      · simp
      · exact ih _ _

theorem range_loop_ne_nofuel (m : List Char) (re : Nat) (mc : Char) (mr : Bool) :
    ∀ fuel rs, 1 ≤ fuel → m.length ≤ rs + fuel →
      dir_glob_match_range_loop m re mc mr fuel rs ≠ .nofuel := by
  intro fuel
  induction fuel with
  | zero => intro rs h; omega
  | succ f ih =>
    intro rs _ hlen
    rw [dir_glob_match_range_loop]
    split
    · simp
    · refine bind_ne_nofuel (rd_ne_nofuel _ _) (fun c1 hc1 => ?_)
      have hlt := rd_lt hc1
      split
      · refine bind_ne_nofuel (rd_ne_nofuel _ _) (fun c0 _ => ?_)
        split
        · refine bind_ne_nofuel (rd_ne_nofuel _ _) (fun c2 _ => ?_)
          split
          · simp
          · exact ih _ (by omega) (by omega)
        · exact ih _ (by omega) (by omega)
      · refine bind_ne_nofuel (rd_ne_nofuel _ _) (fun c0 _ => ?_)
        split
        · simp
        · exact ih _ (by omega) (by omega)

theorem dir_glob_match_range_ne_nofuel (m : List Char) (rs re : Nat) (mc : Char) :
    dir_glob_match_range m rs re mc ≠ .nofuel := by
  unfold dir_glob_match_range
  refine bind_ne_nofuel (rd_ne_nofuel _ _) (fun c _ => ?_)
  split
  · exact range_loop_ne_nofuel _ _ _ _ _ _ (by omega) (by omega)
  · exact range_loop_ne_nofuel _ _ _ _ _ _ (by omega) (by omega)

theorem groups_loop_ne_nofuel (m : List Char) (ge : Nat) (p : List Char) (u : Nat) :
    ∀ fuel is, is ≤ m.length → m.length + 1 ≤ is + fuel →
      dir_glob_match_groups_loop m ge p u fuel is ≠ .nofuel := by
  intro fuel
  induction fuel with
  | zero => intro is h1 h2; omega
  | succ f ih =>
    intro is h1 h2
    rw [dir_glob_match_groups_loop]
    split
    · obtain ⟨hne, hb⟩ := item_end_go_ok ge (m.drop is) is
      refine bind_ne_nofuel hne (fun ie hie => ?_)
      have hie2 := hb ie hie
      rw [List.length_drop] at hie2
      refine bind_ne_nofuel (strncmp_ne_nofuel _ _ _ _ _) (fun c _ => ?_)
      split
      · simp
      · exact ih _ (by omega) (by omega)
    · simp

theorem dir_glob_match_groups_ne_nofuel (m : List Char) (gs ge : Nat) (p : List Char) (u : Nat)
    (h : gs ≤ m.length) : dir_glob_match_groups m gs ge p u ≠ .nofuel :=
  groups_loop_ne_nofuel m ge p u _ _ h (by omega)

theorem sub_search_loop_ne_nofuel (attempt : Nat → Exec dir_glob_result) (p : List Char)
    (hatt : ∀ s, attempt s ≠ .nofuel) :
    ∀ fuel pos, 1 ≤ fuel → p.length + 1 ≤ pos + fuel →
      sub_search_loop attempt p fuel pos ≠ .nofuel := by
  intro fuel
  induction fuel with
  | zero => intro pos h; omega
  | succ f ih =>
    intro pos _ h2
    rw [sub_search_loop]
    refine bind_ne_nofuel (hatt pos) (fun res _ => ?_)
    split
    · simp
    · obtain ⟨hne, hb⟩ := dir_strchr2_ok p (pos + 1) '/' '\\'
      refine bind_ne_nofuel hne (fun nxt hnxt => ?_)
      cases nxt with
      | none => simp
      | some s =>
        have := hb s hnxt
        exact ih _ (by omega) (by omega)

/-- The fuel `dir_glob_match` hands to `dir_glob_match_impl` is never used up:
with one unit for each remaining cell of the pattern array and one more, the
loop ends by returning or by reading outside an array. -/
theorem dir_glob_match_impl_fuel_enough (m p : List Char) (ge : Option Nat) :
    ∀ fuel gp u, 1 ≤ fuel → m.length + 1 ≤ gp + fuel →
      dir_glob_match_impl m p ge fuel gp u ≠ .nofuel := by
  intro fuel
  induction fuel with
  | zero => intro gp u h; omega
  | succ f ih =>
    intro gp u _ h2
    rw [dir_glob_match_impl]
    split
    · exact bind_ne_nofuel (rd_ne_nofuel _ _) (fun c _ => by simp)
    · refine bind_ne_nofuel (rd_ne_nofuel _ _) (fun g hg => ?_)
      have hlt := rd_lt hg
      split
      · simp
      split
      · -- `*`
        refine bind_ne_nofuel (rd_ne_nofuel _ _) (fun g1 _ => ?_)
        split
        · exact bind_ne_nofuel (dir_strchr2_ok _ _ _ _).1 (fun r _ => by simp)
        split
        · refine bind_ne_nofuel (rd_ne_nofuel _ _) (fun g2 _ => ?_)
          split
          · simp
          · exact sub_search_loop_ne_nofuel _ _ (fun s => ih _ _ (by omega) (by omega)) _ _
              (by omega) (by omega)
        · refine bind_ne_nofuel (star_next_go_ne_nofuel _ _ _) (fun next _ => ?_)
          refine bind_ne_nofuel (rd_ne_nofuel _ _) (fun n _ => ?_)
          split
          · simp
          split
          · split
            · refine bind_ne_nofuel (skip_sep_go_ne_nofuel _ _) (fun u2 _ => ?_)
              exact ih _ _ (by omega) (by omega)
            · simp
          · exact ih _ _ (by omega) (by omega)
      split
      · -- `?`
        refine bind_ne_nofuel (rd_ne_nofuel _ _) (fun c _ => ?_)
        split
        · simp
        · exact ih _ _ (by omega) (by omega)
      split
      · -- `[`
        obtain ⟨hne, hb⟩ := strchr_go_ok ']' (m.drop (gp + 1)) (gp + 1)
        refine bind_ne_nofuel hne (fun re hre => ?_)
        cases re with
        | none => simp
        | some re =>
          have := hb re hre
          rw [List.length_drop] at this
          refine bind_ne_nofuel (rd_ne_nofuel _ _) (fun c _ => ?_)
          refine bind_ne_nofuel (dir_glob_match_range_ne_nofuel _ _ _ _) (fun r _ => ?_)
          split
          · simp
          · exact ih _ _ (by omega) (by omega)
      split
      · -- `{`
        obtain ⟨hne, hb⟩ := group_end_go_ok ge (m.drop (gp + 1)) (gp + 1)
        refine bind_ne_nofuel hne (fun gend hgend => ?_)
        have := hb gend hgend
        rw [List.length_drop] at this
        refine bind_ne_nofuel (dir_glob_match_groups_ne_nofuel _ _ _ _ _ (by omega)) (fun ml _ => ?_)
        split
        · simp
        · exact ih _ _ (by omega) (by omega)
      · refine bind_ne_nofuel (rd_ne_nofuel _ _) (fun c _ => ?_)
        split
        · simp
        · exact ih _ _ (by omega) (by omega)

/-- The embedding of `dir_glob_match` never runs out of fuel: on every pattern
array and path array it returns a result or reads outside an array. -/
theorem dir_glob_match_ne_nofuel (m p : List Char) : dir_glob_match m p ≠ .nofuel := by
  unfold dir_glob_match dir_strlen32 strlen
  have h1 : ∀ cells n, strlen_go cells n ≠ .nofuel := by
    intro cells
    induction cells with
    | nil => intro n; simp [strlen_go]
    | cons x xs ih => intro n; rw [strlen_go]; split; simp; exact ih _
  refine bind_ne_nofuel (bind_ne_nofuel (h1 _ _) (fun n _ => by simp)) (fun n _ => ?_)
  exact dir_glob_match_impl_fuel_enough _ _ _ _ _ _ (by omega) (by omega)

/-! ## A double star that is followed by something else -/

theorem impl_star_star_invalid (m p : List Char) (ge : Option Nat) (fuel gp u : Nat) (x : Char)
    (hg : rd m gp = .ret '*') (hg1 : rd m (gp + 1) = .ret '*') (hg2 : rd m (gp + 2) = .ret x)
    (hx : x ≠ '/') (hx0 : x ≠ NUL) (hne : some gp ≠ ge) :
    dir_glob_match_impl m p ge (fuel + 1) gp u = .ret DIR_GLOB_INVALID_PATTERN := by
  rw [dir_glob_match_impl]
  have h1 : ¬ ('*' = NUL) := by decide
  simp [hne, hg, hg1, hg2, h1, hx, hx0]

/-! ## Reads and writes of arrays -/

theorem rd_append (a : List Char) (c : Char) (b : List Char) :
    rd (a ++ c :: b) a.length = .ret c :=
  rd_of_drop (t := b) (by simp)

theorem rd_ret {m : List Char} {i : Nat} {c : Char} (h : rd m i = .ret c) :
    ∃ a b, m = a ++ c :: b ∧ a.length = i := by
  unfold rd at h
  split at h
  · rename_i c2 hc
    rw [List.get?_eq_getElem?] at hc
    obtain ⟨hlt, hget⟩ := List.getElem?_eq_some_iff.1 hc
    injection h with h
    subst h
    refine ⟨m.take i, m.drop (i + 1), ?_, by simp; omega⟩
    rw [← hget, List.getElem_cons_drop, List.take_append_drop]
  · cases h

theorem wr_append (a : List Char) (y c : Char) (b : List Char) :
    wr (a ++ y :: b) a.length c = .ret (a ++ c :: b) := by
  induction a with
  | nil => rfl
  | cons x a ih => simp [wr, ih]

theorem wr_ret {m : List Char} {i : Nat} {c : Char} {m2 : List Char} (h : wr m i c = .ret m2) :
    ∃ a y b, m = a ++ y :: b ∧ a.length = i ∧ m2 = a ++ c :: b := by
  induction m generalizing i m2 with
  | nil => simp [wr] at h
  | cons x m ih =>
    cases i with
    | zero =>
      simp only [wr, Exec.ret.injEq] at h
      exact ⟨[], x, m, rfl, rfl, h.symm⟩
    | succ i =>
      simp only [wr] at h
      cases hw : wr m i c with
      | ret r =>
        rw [hw] at h
        simp only [Exec.ret_bind, Exec.pure_eq, Exec.ret.injEq] at h
        obtain ⟨a, y, b, h1, h2, h3⟩ := ih hw
        exact ⟨x :: a, y, b, by rw [h1]; rfl, by simp [h2], by rw [← h, h3]; rfl⟩
      | oob => rw [hw] at h; cases h
      | nofuel => rw [hw] at h; cases h

theorem wr_length {m : List Char} {i : Nat} {c : Char} {m2 : List Char}
    (h : wr m i c = .ret m2) : m2.length = m.length := by
  obtain ⟨a, y, b, h1, _, h3⟩ := wr_ret h
  rw [h1, h3]; simp

theorem wr_ne_nofuel (m : List Char) (i : Nat) (c : Char) : wr m i c ≠ .nofuel := by
  induction m generalizing i with
  | nil => simp [wr]
  | cons x m ih =>
    cases i with
    | zero => simp [wr]
    | succ i =>
      simp only [wr]
      exact bind_ne_nofuel (ih i) (fun r _ => by simp)

theorem rd_n_append (a cs b : List Char) : rd_n (a ++ cs ++ b) a.length cs.length = .ret cs := by
  induction cs generalizing a with
  | nil => rfl
  | cons c cs ih =>
    have h1 : rd (a ++ c :: cs ++ b) a.length = .ret c := by
      have := rd_append a c (cs ++ b)
      simpa using this
    have h2 := ih (a ++ [c])
    simp only [List.append_assoc, List.singleton_append, List.length_append,
      List.length_singleton] at h2
    simp only [List.length_cons, rd_n, h1, Exec.ret_bind]
    simp only [List.append_assoc, List.cons_append] at h2 ⊢
    rw [h2]; rfl

theorem wr_n_append (a old cs b : List Char) (h : old.length = cs.length) :
    wr_n (a ++ old ++ b) a.length cs = .ret (a ++ cs ++ b) := by
  induction cs generalizing a old with
  | nil =>
    have : old = [] := List.length_eq_zero.1 h
    subst this; rfl
  | cons c cs ih =>
    cases old with
    | nil => simp at h
    | cons o old =>
      have h1 : wr (a ++ o :: old ++ b) a.length c = .ret (a ++ c :: (old ++ b)) := by
        have := wr_append a o c (old ++ b)
        simpa using this
      have h2 := ih (a ++ [c]) old (by simpa using h)
      simp only [List.append_assoc, List.singleton_append, List.length_append,
        List.length_singleton] at h2
      simp only [wr_n, h1, Exec.ret_bind]
      simp only [List.append_assoc, List.cons_append] at h2 ⊢
      exact h2

theorem wr_n_length {m : List Char} {d : Nat} {cs m2 : List Char}
    (h : wr_n m d cs = .ret m2) : m2.length = m.length := by
  induction cs generalizing m d with
  | nil => simp only [wr_n, Exec.ret.injEq] at h; rw [← h]
  | cons c cs ih =>
    simp only [wr_n] at h
    cases hw : wr m d c with
    | ret r =>
      rw [hw] at h
      simp only [Exec.ret_bind] at h
      rw [ih h, wr_length hw]
    | oob => rw [hw] at h; cases h
    | nofuel => rw [hw] at h; cases h

theorem memcpy_append (a old b src_pre cs src_post : List Char) (h : old.length = cs.length) :
    memcpy (a ++ old ++ b) a.length (src_pre ++ cs ++ src_post) src_pre.length cs.length
      = .ret (a ++ cs ++ b) := by
  induction cs generalizing a old src_pre with
  | nil =>
    have : old = [] := List.length_eq_zero.1 h
    subst this; rfl
  | cons c cs ih =>
    cases old with
    | nil => simp at h
    | cons o old =>
      have h0 : rd (src_pre ++ c :: cs ++ src_post) src_pre.length = .ret c := by
        have := rd_append src_pre c (cs ++ src_post)
        simpa using this
      have h1 : wr (a ++ o :: old ++ b) a.length c = .ret (a ++ c :: (old ++ b)) := by
        have := wr_append a o c (old ++ b)
        simpa using this
      have h2 := ih (a ++ [c]) old (src_pre ++ [c]) (by simpa using h)
      simp only [List.append_assoc, List.singleton_append, List.length_append,
        List.length_singleton] at h2
      simp only [List.length_cons, memcpy, h0, h1, Exec.ret_bind]
      simp only [List.append_assoc, List.cons_append] at h2 ⊢
      exact h2

theorem memcpy_length {dst : List Char} {d : Nat} {src : List Char} {s n : Nat} {r : List Char}
    (h : memcpy dst d src s n = .ret r) : r.length = dst.length := by
  induction n generalizing dst d s with
  | zero => simp only [memcpy, Exec.ret.injEq] at h; rw [← h]
  | succ n ih =>
    simp only [memcpy] at h
    cases hr : rd src s with
    | ret c =>
      rw [hr] at h
      simp only [Exec.ret_bind] at h
      cases hw : wr dst d c with
      | ret r2 =>
        rw [hw] at h
        simp only [Exec.ret_bind] at h
        rw [ih h, wr_length hw]
      | oob => rw [hw] at h; cases h
      | nofuel => rw [hw] at h; cases h
    | oob => rw [hr] at h; cases h
    | nofuel => rw [hr] at h; cases h

theorem c_string_go_cstr (s tail : List Char) (h : NUL ∉ s) :
    c_string_go (s ++ NUL :: tail) = .ret s := by
  induction s with
  | nil => simp [c_string_go]
  | cons a s ih =>
    have ha : a ≠ NUL := fun e => h (by simp [e])
    rw [List.cons_append, c_string_go, if_neg ha, ih (fun e => h (by simp [e]))]
    rfl

theorem c_string_go_ret {cells s : List Char} (h : c_string_go cells = .ret s) :
    NUL ∉ s ∧ ∃ tail, cells = s ++ NUL :: tail := by
  induction cells generalizing s with
  | nil => simp [c_string_go] at h
  | cons x xs ih =>
    rw [c_string_go] at h
    by_cases hx : x = NUL
    · rw [if_pos hx] at h
      injection h with h
      subst h
      exact ⟨by simp, xs, by simp [hx]⟩
    · rw [if_neg hx] at h
      cases hr : c_string_go xs with
      | ret r =>
        rw [hr] at h
        simp only [Exec.ret_bind, Exec.pure_eq, Exec.ret.injEq] at h
        subst h
        obtain ⟨h1, tail, h2⟩ := ih hr
        refine ⟨?_, tail, by rw [h2]; rfl⟩
        intro hm
        rcases List.mem_cons.1 hm with h3 | h3
        · exact hx h3.symm
        · exact h1 h3
      | oob => rw [hr] at h; cases h
      | nofuel => rw [hr] at h; cases h

theorem strlen_go_ret {cells : List Char} {k n : Nat} (h : strlen_go cells k = .ret n) :
    ∃ s tail, cells = s ++ NUL :: tail ∧ NUL ∉ s ∧ n = k + s.length := by
  induction cells generalizing k with
  | nil => simp [strlen_go] at h
  | cons x xs ih =>
    rw [strlen_go] at h
    by_cases hx : x = NUL
    · rw [if_pos hx] at h
      injection h with h
      exact ⟨[], xs, by simp [hx], by simp, by simp [h]⟩
    · rw [if_neg hx] at h
      obtain ⟨s, tail, h1, h2, h3⟩ := ih h
      refine ⟨x :: s, tail, by rw [h1]; rfl, ?_, by simp; omega⟩
      intro hm
      rcases List.mem_cons.1 hm with h4 | h4
      · exact hx h4.symm
      · exact h2 h4

theorem u32_of_lt {n : Nat} (h : n < 2 ^ 32) : u32 n = n := Nat.mod_eq_of_lt h

theorem usub_of_le {a b : Nat} (hb : b ≤ a) (ha : a < 2 ^ 32) : usub a b = a - b := by
  unfold usub
  have hb2 : b % 2 ^ 32 = b := Nat.mod_eq_of_lt (by omega)
  rw [hb2]
  have : a + (2 ^ 32 - b) = (a - b) + 2 ^ 32 := by omega
  rw [this, Nat.add_mod_right]
  exact Nat.mod_eq_of_lt (by omega)

/-! ## dir_walk_trim_convert_slashes_inplace -/

theorem sep_iff2 (x : Char) : (x = '/' ∨ x = '\\') ↔ DIR_IS_SEP x = true := by
  rw [sep_iff]; tauto

theorem convert_spec_nil (slash : Char) : convert_spec slash [] = [] := by
  simp [convert_spec]

theorem convert_spec_plain (slash c : Char) (s : List Char) (h : ¬ (c = '/' ∨ c = '\\')) :
    convert_spec slash (c :: s) = c :: convert_spec slash s := by
  rw [convert_spec.eq_def]; simp only [if_neg h]

theorem convert_spec_sep_last (slash c : Char) (h : c = '/' ∨ c = '\\') :
    convert_spec slash [c] = [slash] := by
  rw [convert_spec.eq_def]; simp only [if_pos h, convert_spec_nil]

theorem convert_spec_sep_sep (slash c n : Char) (s : List Char) (h : c = '/' ∨ c = '\\')
    (hn : DIR_IS_SEP n = true) : convert_spec slash (c :: n :: s) = convert_spec slash (n :: s) := by
  rw [convert_spec.eq_def]; simp only [if_pos h, hn, if_true]

theorem convert_spec_sep_plain (slash c n : Char) (s : List Char) (h : c = '/' ∨ c = '\\')
    (hn : ¬ DIR_IS_SEP n = true) :
    convert_spec slash (c :: n :: s) = slash :: convert_spec slash (n :: s) := by
  rw [convert_spec.eq_def]; simp [h, hn]

/-- The four shapes of `convert_spec` on a non-empty string. -/
theorem convert_spec_cases (slash c : Char) (s : List Char) :
    (convert_spec slash (c :: s) = c :: convert_spec slash s ∧ ¬ (c = '/' ∨ c = '\\'))
      ∨ (convert_spec slash (c :: s) = slash :: convert_spec slash s ∧ (c = '/' ∨ c = '\\')
          ∧ ∀ n r, s = n :: r → ¬ DIR_IS_SEP n = true)
      ∨ (convert_spec slash (c :: s) = convert_spec slash s ∧ (c = '/' ∨ c = '\\')
          ∧ ∃ n r, s = n :: r ∧ DIR_IS_SEP n = true) := by
  by_cases h : c = '/' ∨ c = '\\'
  · cases s with
    | nil =>
      exact Or.inr (Or.inl ⟨by rw [convert_spec_sep_last _ _ h, convert_spec_nil], h,
        fun n r e => by cases e⟩)
    | cons n s =>
      by_cases hn : DIR_IS_SEP n = true
      · exact Or.inr (Or.inr ⟨convert_spec_sep_sep _ _ _ _ h hn, h, n, s, rfl, hn⟩)
      · refine Or.inr (Or.inl ⟨convert_spec_sep_plain _ _ _ _ h hn, h, ?_⟩)
        intro n2 r e
        injection e with e1 e2
        subst e1; exact hn
  · exact Or.inl ⟨convert_spec_plain _ _ _ h, h⟩

theorem convert_spec_length_le (slash : Char) (s : List Char) :
    (convert_spec slash s).length ≤ s.length := by
  induction s with
  | nil => simp [convert_spec_nil]
  | cons c s ih =>
    rcases convert_spec_cases slash c s with ⟨h, _⟩ | ⟨h, _⟩ | ⟨h, _⟩ <;> rw [h] <;>
      simp only [List.length_cons] <;> omega

theorem convert_spec_no_nul (slash : Char) (hs : slash ≠ NUL) (s : List Char) (h : NUL ∉ s) :
    NUL ∉ convert_spec slash s := by
  induction s with
  | nil => simp [convert_spec_nil]
  | cons c s ih =>
    have hc : c ≠ NUL := fun e => h (by simp [e])
    have ih2 := ih (fun e => h (by simp [e]))
    rcases convert_spec_cases slash c s with ⟨h1, _⟩ | ⟨h1, _⟩ | ⟨h1, _⟩ <;> rw [h1]
    · intro hm
      rcases List.mem_cons.1 hm with h2 | h2
      · exact hc h2.symm
      · exact ih2 h2
    · intro hm
      rcases List.mem_cons.1 hm with h2 | h2
      · exact hs h2.symm
      · exact ih2 h2
    · exact ih2

/-- The loop of `dir_walk_trim_convert_slashes_inplace`: with `out` written so
far, `gap` cells between `dest` and `runner`, and the string `s` still to read,
it leaves `out ++ convert_spec s` with its terminator. -/
theorem convert_slashes_loop_spec (slash : Char) (s : List Char) :
    ∀ (out gap tail : List Char) (fuel : Nat), NUL ∉ s → s.length < fuel →
      ∃ R, R.length + (convert_spec slash s).length = gap.length + s.length + tail.length ∧
        convert_slashes_loop slash fuel (out ++ gap ++ s ++ NUL :: tail)
            (out.length + gap.length) out.length
          = .ret (out ++ convert_spec slash s ++ NUL :: R,
              u32 (out.length + (convert_spec slash s).length)) := by
  induction s with
  | nil =>
    intro out gap tail fuel _ hf
    obtain ⟨f, rfl⟩ : ∃ f, fuel = f + 1 := ⟨fuel - 1, by simp at hf; omega⟩
    have hrd : rd (out ++ gap ++ [] ++ NUL :: tail) (out.length + gap.length) = .ret NUL := by
      have := rd_append (out ++ gap) NUL tail
      simpa using this
    cases hg : gap ++ NUL :: tail with
    | nil => simp at hg
    | cons y B =>
      have hm : out ++ gap ++ [] ++ NUL :: tail = out ++ y :: B := by
        simp only [List.append_nil, List.append_assoc, hg]
      have hlen : B.length = gap.length + tail.length := by
        have := congrArg List.length hg
        simp at this; omega
      refine ⟨B, by simp [convert_spec_nil, hlen], ?_⟩
      rw [convert_slashes_loop, hrd]
      simp only [Exec.ret_bind, if_true]
      rw [hm, wr_append]
      simp [convert_spec_nil]
  | cons c s ih =>
    intro out gap tail fuel h0 hf
    obtain ⟨f, rfl⟩ : ∃ f, fuel = f + 1 := ⟨fuel - 1, by simp at hf; omega⟩
    have hc : c ≠ NUL := fun e => h0 (by simp [e])
    have hs0 : NUL ∉ s := fun e => h0 (by simp [e])
    have hf2 : s.length < f := by simp at hf; omega
    have hrd : rd (out ++ gap ++ c :: s ++ NUL :: tail) (out.length + gap.length) = .ret c := by
      have := rd_append (out ++ gap) c (s ++ NUL :: tail)
      simpa using this
    -- the step that writes `x` and moves both pointers
    have hwrite : ∀ x : Char, ∃ R,
        R.length + (convert_spec slash s).length + 1 = gap.length + (s.length + 1) + tail.length ∧
        (wr (out ++ gap ++ c :: s ++ NUL :: tail) out.length x >>= fun m2 =>
            convert_slashes_loop slash f m2 (out.length + gap.length + 1) (out.length + 1))
          = .ret (out ++ x :: convert_spec slash s ++ NUL :: R,
              u32 (out.length + ((convert_spec slash s).length + 1))) := by
      intro x
      cases hg : gap ++ [c] with
      | nil => simp at hg
      | cons y G =>
        have hm : out ++ gap ++ c :: s ++ NUL :: tail = out ++ y :: (G ++ s ++ NUL :: tail) := by
          have : out ++ gap ++ c :: s ++ NUL :: tail = out ++ ((gap ++ [c]) ++ s ++ NUL :: tail) := by
            simp
          rw [this, hg]; simp
        have hG : G.length = gap.length := by
          have := congrArg List.length hg
          simp at this; omega
        obtain ⟨R, hR, hrun⟩ := ih (out ++ [x]) G tail f hs0 hf2
        refine ⟨R, by omega, ?_⟩
        rw [hm, wr_append]
        simp only [Exec.ret_bind]
        have e1 : out ++ x :: (G ++ s ++ NUL :: tail) = (out ++ [x]) ++ G ++ s ++ NUL :: tail := by
          simp
        have e2 : out.length + gap.length + 1 = (out ++ [x]).length + G.length := by
          simp; omega
        have e3 : out.length + 1 = (out ++ [x]).length := by simp
        rw [e1, e2, e3, hrun]
        simp only [List.append_assoc, List.singleton_append, List.length_append,
          List.length_singleton, List.cons_append]
        have e4 : out.length + 1 + (convert_spec slash s).length
            = out.length + ((convert_spec slash s).length + 1) := by omega
        rw [e4]
        rfl
    rw [convert_slashes_loop, hrd]
    simp only [Exec.ret_bind, if_neg hc]
    by_cases hsep : c = '/' ∨ c = '\\'
    · rw [if_pos hsep]
      cases s with
      | nil =>
        have hn : rd (out ++ gap ++ [c] ++ NUL :: tail) (out.length + gap.length + 1) = .ret NUL := by
          have := rd_append (out ++ gap ++ [c]) NUL tail
          simpa using this
        have hnsep : ¬ (DIR_IS_SEP NUL = true) := by decide
        rw [hn]
        simp only [Exec.ret_bind, if_neg hnsep]
        obtain ⟨R, hR, hrun⟩ := hwrite slash
        rw [convert_spec_sep_last _ _ hsep]
        rw [convert_spec_nil] at hR hrun
        refine ⟨R, by simp only [List.length_nil, List.length_singleton] at hR ⊢; omega, ?_⟩
        rw [hrun]
        simp
      | cons n s =>
        have hn : rd (out ++ gap ++ c :: n :: s ++ NUL :: tail) (out.length + gap.length + 1)
            = .ret n := by
          have := rd_append (out ++ gap ++ [c]) n (s ++ NUL :: tail)
          simpa using this
        rw [hn]
        simp only [Exec.ret_bind]
        by_cases hnsep : DIR_IS_SEP n = true
        · rw [if_pos hnsep]
          obtain ⟨R, hR, hrun⟩ := ih out (gap ++ [c]) tail f hs0 hf2
          rw [convert_spec_sep_sep _ _ _ _ hsep hnsep]
          refine ⟨R, ?_, ?_⟩
          · simp only [List.length_append, List.length_singleton, List.length_cons,
              List.length_nil] at hR ⊢
            omega
          · have e1 : out ++ gap ++ c :: n :: s ++ NUL :: tail
                = out ++ (gap ++ [c]) ++ (n :: s) ++ NUL :: tail := by simp
            have e2 : out.length + gap.length + 1 = out.length + (gap ++ [c]).length := by
              simp; omega
            rw [e1, e2, hrun]
        · rw [if_neg hnsep]
          obtain ⟨R, hR, hrun⟩ := hwrite slash
          rw [convert_spec_sep_plain _ _ _ _ hsep hnsep]
          refine ⟨R, ?_, ?_⟩
          · simp only [List.length_cons] at hR ⊢
            omega
          · rw [hrun]
            simp
    · rw [if_neg hsep]
      obtain ⟨R, hR, hrun⟩ := hwrite c
      rw [convert_spec_plain _ _ _ hsep]
      refine ⟨R, ?_, ?_⟩
      · simp only [List.length_cons] at hR ⊢
        omega
      · rw [hrun]
        simp

theorem convert_slashes_cstr (slash : Char) (s tail : List Char) (h0 : NUL ∉ s)
    (hlen : s.length < 2 ^ 32) :
    ∃ R, R.length + (convert_spec slash s).length = s.length + tail.length ∧
      dir_walk_trim_convert_slashes_inplace (s ++ NUL :: tail) slash
        = .ret (convert_spec slash s ++ NUL :: R, (convert_spec slash s).length) := by
  obtain ⟨R, hR, hrun⟩ := convert_slashes_loop_spec slash s [] [] tail (s.length + 1) h0 (by omega)
  refine ⟨R, by simpa using hR, ?_⟩
  have hs : strlen (s ++ NUL :: tail) 0 = .ret s.length := by
    simp [strlen, strlen_go_cstr s tail h0]
  have hle := convert_spec_length_le slash s
  simp only [List.nil_append, List.length_nil, Nat.add_zero, Nat.zero_add] at hrun
  rw [dir_walk_trim_convert_slashes_inplace, hs]
  simp only [Exec.ret_bind]
  rw [hrun, u32_of_lt (by omega)]

/-- Whatever array it is given, `dir_walk_trim_convert_slashes_inplace` leaves a
string of the returned length when it returns. -/
theorem convert_slashes_post (m : List Char) (slash : Char) (m2 : List Char) (n : Nat)
    (hs : slash ≠ NUL) (hm : m.length < 2 ^ 32)
    (h : dir_walk_trim_convert_slashes_inplace m slash = .ret (m2, n)) :
    ∃ s tail R, m = s ++ NUL :: tail ∧ NUL ∉ s ∧ m2 = convert_spec slash s ++ NUL :: R ∧
      n = (convert_spec slash s).length ∧ m2.length = m.length ∧
      NUL ∉ convert_spec slash s := by
  have h1 := h
  unfold dir_walk_trim_convert_slashes_inplace at h1
  cases hl : strlen m 0 with
  | ret k =>
    obtain ⟨s, tail, hm1, hs0, _⟩ := strlen_go_ret (by simpa [strlen] using hl)
    have hslen : s.length < 2 ^ 32 := by
      have := congrArg List.length hm1
      simp at this; omega
    obtain ⟨R, hR, hrun⟩ := convert_slashes_cstr slash s tail hs0 hslen
    rw [← hm1, h] at hrun
    injection hrun with hrun
    injection hrun with e1 e2
    refine ⟨s, tail, R, hm1, hs0, e1, e2, ?_, convert_spec_no_nul slash hs s hs0⟩
    rw [e1, hm1]
    simp only [List.length_append, List.length_cons]
    omega
  | oob => rw [hl] at h1; cases h1
  | nofuel => rw [hl] at h1; cases h1

/-! ## dir_walk_path_trimwhite_unquote -/

theorem trimmed_char_iff (c : Char) (n : Nat) (hn : n ≠ 0) :
    ((n ≠ 0 ∧ dir_walk_iswhite c = true) ∨ c = '"') ↔ trimmed_char c := by
  unfold trimmed_char; tauto

theorem usub_one {n : Nat} (h0 : n ≠ 0) (h : n < 2 ^ 32) : usub n 1 = n - 1 :=
  usub_of_le (by omega) h

/-- The first loop of the trimming stops behind the last character that is not
trimmed. -/
theorem trim_tail_loop_spec (a : List Char) (z : Char) (hz : ¬ trimmed_char z)
    (trailing : List Char) :
    ∀ (rest : List Char) (fuel : Nat), (∀ x ∈ trailing, trimmed_char x) →
      (a ++ z :: trailing).length < 2 ^ 32 → trailing.length < fuel →
      trim_tail_loop (a ++ z :: trailing ++ rest) fuel (a ++ z :: trailing).length
        = .ret (a.length + 1) := by
  induction trailing using List.reverseRecOn with
  | nil =>
    intro rest fuel _ hlen hf
    obtain ⟨f, rfl⟩ : ∃ f, fuel = f + 1 := ⟨fuel - 1, by simp at hf; omega⟩
    have hn : (a ++ [z]).length ≠ 0 := by simp
    have hrd : rd (a ++ [z] ++ rest) (usub (a ++ [z]).length 1) = .ret z := by
      rw [usub_one hn hlen]
      have := rd_append a z rest
      simpa using this
    rw [trim_tail_loop, hrd]
    simp only [Exec.ret_bind]
    rw [if_neg (by rw [trimmed_char_iff z _ hn]; exact hz)]
    simp
  | append_singleton t x ih =>
    intro rest fuel ht hlen hf
    obtain ⟨f, rfl⟩ : ∃ f, fuel = f + 1 := ⟨fuel - 1, by simp at hf; omega⟩
    have hn : (a ++ z :: (t ++ [x])).length ≠ 0 := by simp
    have hx : trimmed_char x := ht x (by simp)
    have hrd : rd (a ++ z :: (t ++ [x]) ++ rest) (usub (a ++ z :: (t ++ [x])).length 1)
        = .ret x := by
      rw [usub_one hn hlen]
      have := rd_append (a ++ z :: t) x rest
      simpa using this
    rw [trim_tail_loop, hrd]
    simp only [Exec.ret_bind]
    rw [if_pos (by rw [trimmed_char_iff x _ hn]; exact hx), usub_one hn hlen]
    have e1 : a ++ z :: (t ++ [x]) ++ rest = a ++ z :: t ++ (x :: rest) := by simp
    have e2 : (a ++ z :: (t ++ [x])).length - 1 = (a ++ z :: t).length := by simp
    rw [e1, e2]
    exact ih (x :: rest) f (fun y hy => ht y (by simp [hy]))
      (by simp at hlen ⊢; omega) (by simp at hf; omega)

/-- The second loop of the trimming stops at the first character that is not
trimmed. -/
theorem trim_head_go_spec (leading : List Char) (z : Char) (hz : ¬ trimmed_char z) :
    ∀ (rest : List Char) (p n : Nat), (∀ x ∈ leading, trimmed_char x) →
      leading.length < n → n < 2 ^ 32 →
      trim_head_go (leading ++ z :: rest) p n = .ret (p + leading.length, n - leading.length) := by
  induction leading with
  | nil =>
    intro rest p n _ hn _
    have hn0 : n ≠ 0 := by simp at hn; omega
    rw [List.nil_append, trim_head_go, if_neg (by rw [trimmed_char_iff z _ hn0]; exact hz)]
    simp
  | cons x l ih =>
    intro rest p n hl hn hn2
    have hn0 : n ≠ 0 := by omega
    have hx : trimmed_char x := hl x (by simp)
    rw [List.cons_append, trim_head_go, if_pos (by rw [trimmed_char_iff x _ hn0]; exact hx),
      usub_one hn0 hn2, ih rest (p + 1) (n - 1) (fun y hy => hl y (by simp [hy]))
        (by simp at hn; omega) (by omega)]
    simp only [List.length_cons]
    congr 2 <;> omega

/-- What the trimming leaves of `leading ++ core ++ trailing`, where `core`
begins and ends with characters that are not trimmed and the other two parts hold
trimmed characters only: the string `core`. -/
theorem trimwhite_unquote_spec (leading mid trailing rest : List Char) (z1 z2 : Char)
    (core : List Char) (hcore : core = z1 :: mid ∧ core.getLast? = some z2)
    (hz1 : ¬ trimmed_char z1) (hz2 : ¬ trimmed_char z2)
    (hl : ∀ x ∈ leading, trimmed_char x) (ht : ∀ x ∈ trailing, trimmed_char x)
    (hlen : (leading ++ core ++ trailing).length < 2 ^ 32) (y : Char) :
    ∃ R, R.length = leading.length + trailing.length + rest.length ∧
      dir_walk_path_trimwhite_unquote (leading ++ core ++ trailing ++ y :: rest)
          (leading ++ core ++ trailing).length
        = .ret (core ++ NUL :: R, core.length) := by
  obtain ⟨hc1, hc2⟩ := hcore
  -- split `core` at its last character
  obtain ⟨ci, hci⟩ : ∃ ci, core = ci ++ [z2] := by
    have hne : core ≠ [] := by rw [hc1]; simp
    refine ⟨core.dropLast, ?_⟩
    have := List.dropLast_append_getLast? z2 (by rw [hc2]; simp)
    exact this.symm
  have hclen : 1 ≤ core.length := by rw [hc1]; simp
  have htail : trim_tail_loop (leading ++ core ++ trailing ++ y :: rest) (2 ^ 32 + 1)
      (leading ++ core ++ trailing).length = .ret (leading ++ core).length := by
    have := trim_tail_loop_spec (leading ++ ci) z2 hz2 trailing (y :: rest) (2 ^ 32 + 1) ht
      (by rw [hci] at hlen; simpa using hlen) (by
        simp only [List.length_append] at hlen; omega)
    have e1 : leading ++ core ++ trailing ++ y :: rest
        = leading ++ ci ++ z2 :: trailing ++ y :: rest := by rw [hci]; simp
    have e2 : (leading ++ core ++ trailing).length = (leading ++ ci ++ z2 :: trailing).length := by
      rw [hci]; simp
    rw [e1, e2, this, hci]; simp; omega
  have hhead : trim_head_go (leading ++ core ++ trailing ++ y :: rest) 0 (leading ++ core).length
      = .ret (leading.length, core.length) := by
    have := trim_head_go_spec leading z1 hz1 (mid ++ trailing ++ y :: rest) 0
      (leading ++ core).length hl (by simp; omega)
      (by simp only [List.length_append] at hlen ⊢; omega)
    have e1 : leading ++ core ++ trailing ++ y :: rest
        = leading ++ z1 :: (mid ++ trailing ++ y :: rest) := by rw [hc1]; simp
    rw [e1, this]; simp
  rw [dir_walk_path_trimwhite_unquote, htail]
  simp only [Exec.ret_bind, hhead]
  by_cases hp : leading.length = 0
  · have hl0 : leading = [] := List.length_eq_zero.1 hp
    subst hl0
    simp only [List.length_nil, ne_eq, not_true_eq_false, if_false, Exec.pure_eq, Exec.ret_bind,
      List.nil_append]
    cases htr : trailing ++ y :: rest with
    | nil => simp at htr
    | cons t0 T =>
      have hT : T.length = trailing.length + rest.length := by
        have := congrArg List.length htr
        simp at this; omega
      refine ⟨T, by simp [hT], ?_⟩
      have e1 : core ++ trailing ++ y :: rest = core ++ t0 :: T := by
        rw [List.append_assoc, htr]
      rw [e1, wr_append]
      rfl
  · rw [if_pos hp]
    -- the move of `core` to the front
    have hsplit : ∃ o1 o2, leading ++ core ++ trailing ++ y :: rest = o1 ++ o2 ∧
        o1.length = core.length
        ∧ o2.length = leading.length + trailing.length + rest.length + 1 := by
      refine ⟨(leading ++ core ++ trailing ++ y :: rest).take core.length,
        (leading ++ core ++ trailing ++ y :: rest).drop core.length,
        (List.take_append_drop _ _).symm, ?_, ?_⟩
      · simp; omega
      · simp; omega
    obtain ⟨o1, o2, ho, ho1, ho2⟩ := hsplit
    have hrd : rd_n (leading ++ core ++ trailing ++ y :: rest) leading.length core.length
        = .ret core := by
      have := rd_n_append leading core (trailing ++ y :: rest)
      simpa using this
    have hwr : wr_n (leading ++ core ++ trailing ++ y :: rest) 0 core = .ret (core ++ o2) := by
      have := wr_n_append [] o1 core o2 ho1
      simp only [List.nil_append, List.length_nil] at this
      rw [ho, this]
    cases ho2c : o2 with
    | nil => rw [ho2c] at ho2; simp at ho2
    | cons t0 T =>
      refine ⟨T, by rw [ho2c] at ho2; simp at ho2; omega, ?_⟩
      simp only [memmove, hrd, Exec.ret_bind, hwr, ho2c, wr_append, Exec.pure_eq]

theorem Exec.bind_eq_ret {α β : Type} {x : Exec α} {f : α → Exec β} {v : β}
    (h : (x >>= f) = .ret v) : ∃ a, x = .ret a ∧ f a = .ret v := by
  cases x with
  | ret a => exact ⟨a, rfl, h⟩
  | oob => cases h
  | nofuel => cases h

theorem memmove_length {m : List Char} {d s n : Nat} {r : List Char}
    (h : memmove m d s n = .ret r) : r.length = m.length := by
  unfold memmove at h
  obtain ⟨cs, _, h2⟩ := Exec.bind_eq_ret h
  exact wr_n_length h2

theorem trimwhite_unquote_length {m : List Char} {n : Nat} {m2 : List Char} {n2 : Nat}
    (h : dir_walk_path_trimwhite_unquote m n = .ret (m2, n2)) : m2.length = m.length := by
  unfold dir_walk_path_trimwhite_unquote at h
  obtain ⟨k, _, h⟩ := Exec.bind_eq_ret h
  obtain ⟨⟨p, k2⟩, _, h⟩ := Exec.bind_eq_ret h
  simp only at h
  split at h
  · obtain ⟨ma, h1, h⟩ := Exec.bind_eq_ret h
    obtain ⟨mb, h2, h⟩ := Exec.bind_eq_ret h
    simp only [Exec.pure_eq, Exec.ret.injEq, Prod.mk.injEq] at h
    rw [← h.1, wr_length h2]
    exact memmove_length h1
  · obtain ⟨ma, h1, h⟩ := Exec.bind_eq_ret h
    obtain ⟨mb, h2, h⟩ := Exec.bind_eq_ret h
    simp only [Exec.pure_eq, Exec.ret.injEq, Prod.mk.injEq] at h
    rw [← h.1, wr_length h2]
    simp only [Exec.pure_eq, Exec.ret.injEq] at h1
    rw [h1]

/-! ## The last step of dir_path_tidy and the whole function -/

theorem strip_last_sep_append_sep (t : List Char) (c : Char) (hc : DIR_IS_SEP c = true) :
    strip_last_sep (t ++ [c]) = t := by
  simp [strip_last_sep, hc]

theorem strip_last_sep_append_plain (t : List Char) (c : Char) (hc : ¬ DIR_IS_SEP c = true) :
    strip_last_sep (t ++ [c]) = t ++ [c] := by
  simp [strip_last_sep, hc]

/-- The test and the removal of a separator at the end, as `dir_path_tidy` does
them on the array that holds the string `t`. -/
theorem tidy_last_step (t R : List Char) (ht : t.length < 2 ^ 32) :
    ∃ R2, R2.length + (strip_last_sep t).length = R.length + t.length ∧
      (if t.length ≠ 0 then
          rd (t ++ NUL :: R) (t.length - 1) >>= fun c =>
            if DIR_IS_SEP c then
              wr (t ++ NUL :: R) (t.length - 1) NUL >>= fun m3 =>
                (pure (m3, t.length - 1) : Exec (List Char × Nat))
            else pure (t ++ NUL :: R, t.length)
        else pure (t ++ NUL :: R, t.length))
      = .ret (strip_last_sep t ++ NUL :: R2, (strip_last_sep t).length) := by
  induction t using List.reverseRecOn with
  | nil => exact ⟨R, by simp [strip_last_sep], by simp [strip_last_sep]⟩
  | append_singleton t c _ =>
    have hn : (t ++ [c]).length ≠ 0 := by simp
    have hrd : rd (t ++ [c] ++ NUL :: R) ((t ++ [c]).length - 1) = .ret c := by
      have := rd_append t c (NUL :: R)
      simpa using this
    rw [if_pos hn, hrd]
    simp only [Exec.ret_bind]
    by_cases hc : DIR_IS_SEP c = true
    · rw [if_pos hc, strip_last_sep_append_sep t c hc]
      have hwr : wr (t ++ [c] ++ NUL :: R) ((t ++ [c]).length - 1) NUL
          = .ret (t ++ NUL :: NUL :: R) := by
        have := wr_append t c NUL (NUL :: R)
        simpa using this
      refine ⟨NUL :: R, by simp; omega, ?_⟩
      rw [hwr]
      simp
    · rw [if_neg hc, strip_last_sep_append_plain t c hc]
      exact ⟨R, by simp, by simp⟩

theorem dir_path_tidy_eq (m : List Char) (slash : Char) (len : Nat) :
    dir_path_tidy m slash len =
      ((if len ≠ 0 then (pure len : Exec Nat) else dir_strlen32 m 0) >>= fun pl =>
        dir_walk_path_trimwhite_unquote m pl >>= fun r1 =>
          dir_walk_trim_convert_slashes_inplace r1.1 slash >>= fun r2 =>
            if r2.2 ≠ 0 then
              rd r2.1 (r2.2 - 1) >>= fun c =>
                if DIR_IS_SEP c then
                  wr r2.1 (r2.2 - 1) NUL >>= fun m3 =>
                    (pure (m3, r2.2 - 1) : Exec (List Char × Nat))
                else pure (r2.1, r2.2)
            else pure (r2.1, r2.2)) := by
  unfold dir_path_tidy
  dsimp only
  split <;> rfl

/-- Whatever it is given, `dir_path_tidy` leaves a string of the returned length
in the array when it returns, and the array keeps its size. -/
theorem dir_path_tidy_post (m : List Char) (slash : Char) (len : Nat) (m2 : List Char) (n : Nat)
    (hs : slash ≠ NUL) (hm : m.length < 2 ^ 32) (h : dir_path_tidy m slash len = .ret (m2, n)) :
    ∃ s P R, NUL ∉ s ∧ P = strip_last_sep (convert_spec slash s) ∧ NUL ∉ P ∧
      m2 = P ++ NUL :: R ∧ n = P.length ∧ m2.length = m.length := by
  rw [dir_path_tidy_eq] at h
  obtain ⟨pl, _, h⟩ := Exec.bind_eq_ret h
  obtain ⟨⟨m1, x⟩, h1, h⟩ := Exec.bind_eq_ret h
  simp only at h
  obtain ⟨⟨mc, nc⟩, h2, h⟩ := Exec.bind_eq_ret h
  simp only at h
  have hl1 := trimwhite_unquote_length h1
  obtain ⟨s, tail, R, _, hs0, hmc, hnc, hlc, hno⟩ :=
    convert_slashes_post m1 slash mc nc hs (by omega) h2
  have htl : (convert_spec slash s).length < 2 ^ 32 := by
    have := congrArg List.length hmc
    simp at this; omega
  obtain ⟨R2, hR2, hlast⟩ := tidy_last_step (convert_spec slash s) R htl
  rw [hmc, hnc] at h
  rw [h] at hlast
  injection hlast with hlast
  injection hlast with e1 e2
  have hP0 : NUL ∉ strip_last_sep (convert_spec slash s) := by
    intro hmem
    apply hno
    unfold strip_last_sep at hmem
    split at hmem
    · split at hmem
      · exact List.mem_of_mem_dropLast hmem
      · exact hmem
    · exact hmem
  refine ⟨s, _, R2, hs0, rfl, hP0, e1, e2, ?_⟩
  rw [e1]
  have := congrArg List.length hmc
  simp only [List.length_append, List.length_cons] at this ⊢
  omega

/-- What `dir_path_tidy` makes of the path `leading ++ core ++ trailing`, where
`core` begins and ends with characters that are not trimmed and the other two
parts hold trimmed characters only: the separators of `core` unified, without a
separator at the end. The length argument is the length of the path, or `0`. -/
theorem dir_path_tidy_spec (leading mid trailing slack : List Char) (z1 z2 : Char)
    (core : List Char) (hcore : core = z1 :: mid ∧ core.getLast? = some z2) (hc0 : NUL ∉ core)
    (hz1 : ¬ trimmed_char z1) (hz2 : ¬ trimmed_char z2)
    (hl : ∀ x ∈ leading, trimmed_char x) (ht : ∀ x ∈ trailing, trimmed_char x)
    (hlen : (leading ++ core ++ trailing).length < 2 ^ 32) (slash : Char) (len : Nat)
    (hlen2 : len = 0 ∨ len = (leading ++ core ++ trailing).length) :
    ∃ R, dir_path_tidy (cstr (leading ++ core ++ trailing) slack) slash len
      = .ret (strip_last_sep (convert_spec slash core) ++ NUL :: R,
          (strip_last_sep (convert_spec slash core)).length) := by
  have hnn : ∀ x, trimmed_char x → x ≠ NUL := by
    intro x hx e
    subst e
    revert hx
    decide
  have hp0 : NUL ∉ leading ++ core ++ trailing := by
    intro h
    simp only [List.mem_append] at h
    rcases h with (h | h) | h
    · exact hnn _ (hl _ h) rfl
    · exact hc0 h
    · exact hnn _ (ht _ h) rfl
  have hpne : (leading ++ core ++ trailing).length ≠ 0 := by
    rw [hcore.1]; simp
  have hfirst : (if len ≠ 0 then (pure len : Exec Nat)
      else dir_strlen32 (cstr (leading ++ core ++ trailing) slack) 0)
      = .ret (leading ++ core ++ trailing).length := by
    rcases hlen2 with h | h
    · rw [h, if_neg (by simp), dir_strlen32_cstr _ slack hp0 hlen]
    · rw [h, if_pos hpne]; rfl
  obtain ⟨R1, _, htrim⟩ := trimwhite_unquote_spec leading mid trailing slack z1 z2 core hcore
    hz1 hz2 hl ht hlen NUL
  have hclen : core.length < 2 ^ 32 := by
    simp only [List.length_append] at hlen; omega
  obtain ⟨R2, _, hconv⟩ := convert_slashes_cstr slash core R1 hc0 hclen
  have hsl := convert_spec_length_le slash core
  obtain ⟨R3, _, hlast⟩ := tidy_last_step (convert_spec slash core) R2 (by omega)
  refine ⟨R3, ?_⟩
  rw [dir_path_tidy_eq, hfirst]
  simp only [Exec.ret_bind]
  have e1 : cstr (leading ++ core ++ trailing) slack
      = leading ++ core ++ trailing ++ NUL :: slack := rfl
  rw [e1, htrim]
  simp only [Exec.ret_bind, hconv]
  exact hlast

/-! ## What the unified string looks like -/

theorem convert_spec_sep_is_slash (slash : Char) (s : List Char) :
    ∀ x ∈ convert_spec slash s, DIR_IS_SEP x = true → x = slash := by
  induction s with
  | nil => simp [convert_spec_nil]
  | cons c s ih =>
    intro x hx hsep
    rcases convert_spec_cases slash c s with ⟨e, hc⟩ | ⟨e, _, _⟩ | ⟨e, _, _⟩
    · rw [e] at hx
      rcases List.mem_cons.1 hx with h | h
      · subst h
        exact absurd ((sep_iff2 x).2 hsep) hc
      · exact ih x h hsep
    · rw [e] at hx
      rcases List.mem_cons.1 hx with h | h
      · exact h
      · exact ih x h hsep
    · rw [e] at hx
      exact ih x hx hsep

theorem convert_spec_head (slash : Char) (r : List Char) :
    ∀ c, (convert_spec slash (c :: r)).head?
      = some (if DIR_IS_SEP c = true then slash else c) := by
  induction r with
  | nil =>
    intro c
    by_cases hc : DIR_IS_SEP c = true
    · rw [convert_spec_sep_last slash c ((sep_iff2 c).2 hc), if_pos hc]; rfl
    · rw [convert_spec_plain slash c [] (fun h => hc ((sep_iff2 c).1 h)), if_neg hc]; rfl
  | cons n r ih =>
    intro c
    by_cases hc : DIR_IS_SEP c = true
    · rw [if_pos hc]
      by_cases hn : DIR_IS_SEP n = true
      · rw [convert_spec_sep_sep slash c n r ((sep_iff2 c).2 hc) hn, ih n, if_pos hn]
      · rw [convert_spec_sep_plain slash c n r ((sep_iff2 c).2 hc) hn]; rfl
    · rw [convert_spec_plain slash c _ (fun h => hc ((sep_iff2 c).1 h)), if_neg hc]; rfl

theorem convert_spec_chain (slash : Char) (s : List Char) :
    List.Chain' (fun a b => ¬ (DIR_IS_SEP a = true ∧ DIR_IS_SEP b = true))
      (convert_spec slash s) := by
  induction s with
  | nil => simp [convert_spec_nil]
  | cons c s ih =>
    rcases convert_spec_cases slash c s with ⟨e, hc⟩ | ⟨e, _, hn⟩ | ⟨e, _, _⟩
    · rw [e]
      refine List.Chain'.cons' ih ?_
      intro y _ h
      exact hc ((sep_iff2 c).2 h.1)
    · rw [e]
      refine List.Chain'.cons' ih ?_
      intro y hy h
      cases s with
      | nil => simp [convert_spec_nil] at hy
      | cons n r =>
        rw [convert_spec_head, if_neg (hn n r rfl)] at hy
        simp only [Option.mem_def, Option.some.injEq] at hy
        subst hy
        exact hn n r rfl h.2
    · rw [e]; exact ih

theorem convert_spec_ne_nil (slash c : Char) (s : List Char) :
    convert_spec slash (c :: s) ≠ [] := by
  intro h
  have := convert_spec_head slash s c
  rw [h] at this
  cases this

theorem convert_spec_getLast (slash : Char) (z : Char) (hz : ¬ DIR_IS_SEP z = true)
    (s : List Char) (h : s.getLast? = some z) : (convert_spec slash s).getLast? = some z := by
  induction s with
  | nil => cases h
  | cons c s ih =>
    cases s with
    | nil =>
      simp only [List.getLast?_singleton, Option.some.injEq] at h
      subst h
      rw [convert_spec_plain slash c [] (fun h => hz ((sep_iff2 c).1 h))]
      simp [convert_spec_nil]
    | cons n r =>
      have h2 : (n :: r).getLast? = some z := by
        rw [List.getLast?_cons_cons] at h; exact h
      have ih2 := ih h2
      have hne := convert_spec_ne_nil slash n r
      rcases convert_spec_cases slash c (n :: r) with ⟨e, _⟩ | ⟨e, _, _⟩ | ⟨e, _, _⟩
      · rw [e]
        obtain ⟨a, l, hl⟩ := List.exists_cons_of_ne_nil hne
        rw [hl, List.getLast?_cons_cons, ← hl]; exact ih2
      · rw [e]
        obtain ⟨a, l, hl⟩ := List.exists_cons_of_ne_nil hne
        rw [hl, List.getLast?_cons_cons, ← hl]; exact ih2
      · rw [e]; exact ih2

theorem strip_last_sep_initial (t : List Char) : strip_last_sep t <+: t := by
  unfold strip_last_sep
  split
  · split
    · exact List.dropLast_prefix t
    · exact List.prefix_refl t
  · exact List.prefix_refl t

theorem strip_last_sep_no_sep_at_end (t : List Char)
    (h : List.Chain' (fun a b => ¬ (DIR_IS_SEP a = true ∧ DIR_IS_SEP b = true)) t) :
    ∀ z, (strip_last_sep t).getLast? = some z → ¬ DIR_IS_SEP z = true := by
  induction t using List.reverseRecOn with
  | nil => intro z hz; simp [strip_last_sep] at hz
  | append_singleton t c _ =>
    intro z hz
    by_cases hc : DIR_IS_SEP c = true
    · rw [strip_last_sep_append_sep t c hc] at hz
      obtain ⟨t2, rfl⟩ : ∃ t2, t = t2 ++ [z] := by
        rcases List.eq_nil_or_concat t with rfl | ⟨l, b, rfl⟩
        · cases hz
        · simp only [List.concat_eq_append, List.getLast?_concat, Option.some.injEq] at hz
          subst hz
          exact ⟨l, by simp⟩
      intro hzs
      rw [List.append_assoc] at h
      have := (List.chain'_append.1 h).2.1
      simp only [List.singleton_append, List.chain'_cons, List.chain'_singleton, and_true] at this
      exact this ⟨hzs, hc⟩
    · rw [strip_last_sep_append_plain t c hc] at hz
      simp only [List.getLast?_concat, Option.some.injEq] at hz
      subst hz
      exact hc

theorem strip_last_sep_head (t : List Char) (y : Char)
    (h : (strip_last_sep t).head? = some y) : t.head? = some y := by
  obtain ⟨r, hr⟩ := strip_last_sep_initial t
  rw [← hr]
  cases hst : strip_last_sep t with
  | nil => rw [hst] at h; cases h
  | cons a l => rw [hst] at h; simpa using h

theorem strip_last_sep_of_plain (t : List Char) (z : Char) (h : t.getLast? = some z)
    (hz : ¬ DIR_IS_SEP z = true) : strip_last_sep t = t := by
  unfold strip_last_sep
  rw [h]
  simp [hz]

/-- The string that `dir_path_tidy` leaves, whenever it returns: its separators
are all `slash`, no two of them are adjacent, none is at the end, and the
returned number is its length. -/
theorem dir_path_tidy_unified (m : List Char) (slash : Char) (len : Nat) (m2 : List Char)
    (n : Nat) (hs : slash ≠ NUL) (hm : m.length < 2 ^ 32)
    (h : dir_path_tidy m slash len = .ret (m2, n)) :
    ∃ P R, m2 = P ++ NUL :: R ∧ NUL ∉ P ∧ n = P.length ∧
      (∀ x ∈ P, DIR_IS_SEP x = true → x = slash) ∧
      List.Chain' (fun a b => ¬ (DIR_IS_SEP a = true ∧ DIR_IS_SEP b = true)) P ∧
      (∀ z, P.getLast? = some z → ¬ DIR_IS_SEP z = true) := by
  obtain ⟨s, P, R, _, hP, hP0, hm2, hn, _⟩ := dir_path_tidy_post m slash len m2 n hs hm h
  refine ⟨P, R, hm2, hP0, hn, ?_, ?_, ?_⟩
  · intro x hx
    rw [hP] at hx
    exact convert_spec_sep_is_slash slash s x ((strip_last_sep_initial _).subset hx)
  · rw [hP]
    exact List.Chain'.prefix (convert_spec_chain slash s) (strip_last_sep_initial _)
  · rw [hP]
    exact strip_last_sep_no_sep_at_end _ (convert_spec_chain slash s)

/-! ## The walk: one entry -/

theorem wr_lt {m : List Char} {i : Nat} {c : Char} {m2 : List Char} (h : wr m i c = .ret m2) :
    i < m.length := by
  obtain ⟨a, y, b, h1, h2, _⟩ := wr_ret h
  rw [h1, ← h2]; simp

theorem memcpy_ret_bound {dst : List Char} {d : Nat} {src : List Char} {s : Nat} :
    ∀ {k : Nat} {r : List Char}, memcpy dst d src s (k + 1) = .ret r → d + (k + 1) ≤ dst.length := by
  intro k
  induction k generalizing dst d s with
  | zero =>
    intro r h
    simp only [memcpy] at h
    obtain ⟨c, _, h⟩ := Exec.bind_eq_ret h
    obtain ⟨dst2, h2, _⟩ := Exec.bind_eq_ret h
    have := wr_lt h2
    omega
  | succ k ih =>
    intro r h
    rw [memcpy] at h
    obtain ⟨c, _, h⟩ := Exec.bind_eq_ret h
    obtain ⟨dst2, h2, h⟩ := Exec.bind_eq_ret h
    have h3 := ih h
    rw [wr_length h2] at h3
    omega

/-- The two writes that put the name behind the path: when they stay inside the
array, it holds the path, the separator, the name and a terminator. -/
theorem dir_walk_append_spec (slash y : Char) (P R n slack b2 : List Char)
    (hlen : (P ++ y :: R).length < 2 ^ 32) (hn : n.length + 1 < 2 ^ 32)
    (h : dir_walk_append slash (P ++ y :: R) P.length (n ++ NUL :: slack) n.length = .ret b2) :
    ∃ R2, b2 = (P ++ slash :: n) ++ NUL :: R2 ∧ R2.length + n.length + 1 = R.length := by
  unfold dir_walk_append at h
  rw [wr_append] at h
  simp only [Exec.ret_bind] at h
  simp only [List.length_append, List.length_cons] at hlen
  rw [u32_of_lt (by omega), u32_of_lt hn] at h
  have hb := memcpy_ret_bound h
  simp only [List.length_append, List.length_cons] at hb
  have hR : n.length + 1 ≤ R.length := by omega
  have e1 : P ++ slash :: R = (P ++ [slash]) ++ R.take (n.length + 1) ++ R.drop (n.length + 1) := by
    simp
  have e2 : n ++ NUL :: slack = [] ++ (n ++ [NUL]) ++ slack := by simp
  have e3 : P.length + 1 = (P ++ [slash]).length := by simp
  have e4 : n.length + 1 = (n ++ [NUL]).length := by simp
  have hm := memcpy_append (P ++ [slash]) (R.take (n.length + 1)) (R.drop (n.length + 1)) []
    (n ++ [NUL]) slack (by simp; omega)
  rw [← e1, ← e2, ← e3, ← e4] at hm
  simp only [List.length_nil] at hm
  rw [hm] at h
  injection h with h
  refine ⟨R.drop (n.length + 1), ?_, ?_⟩
  · rw [← h]; simp
  · simp; omega

theorem callback_spec (S R2 : List Char) (off : Nat) (type : dir_item_type) (hS : NUL ∉ S)
    (hoff : off ≤ S.length) (hlen : S.length < 2 ^ 32) :
    callback (S ++ NUL :: R2) off S.length type = .ret (render off (S, type)) := by
  unfold callback c_string_at
  have e : (S ++ NUL :: R2).drop off = S.drop off ++ NUL :: R2 := by
    rw [List.drop_append_of_le_length hoff]
  rw [e, c_string_go_cstr _ _ (fun h => hS (List.mem_of_mem_drop h))]
  simp only [Exec.ret_bind, Exec.pure_eq]
  rw [usub_of_le hoff hlen]
  rfl

theorem dir_walk_is_dir_some (fs : filesystem) (hstat : ∀ p, fs.stat p ≠ none) (ent : dirent)
    (path_buffer : List Char) (probe : Option Bool)
    (h : dir_walk_is_dir fs ent path_buffer = .ret probe) : ∃ is_dir, probe = some is_dir := by
  unfold dir_walk_is_dir at h
  split at h
  · obtain ⟨p, _, h⟩ := Exec.bind_eq_ret h
    simp only [Exec.pure_eq, Exec.ret.injEq] at h
    cases hp : fs.stat p with
    | none => exact absurd hp (hstat p)
    | some v => exact ⟨v, by rw [← h, hp]⟩
  · simp only [Exec.pure_eq, Exec.ret.injEq] at h
    exact ⟨_, h.symm⟩

theorem visit_dir_forward (recurse : List Char → Nat → Nat → Exec walk_out) (root : Nat)
    (gd : Option (List Char)) (gde : Option Nat) (gf : Option (List Char)) (gfe : Option Nat)
    (flags : Nat) (swd sccd sccf : Bool) (off pl sz : Nat) (item_name : List Char)
    (item_len : Nat) (b2 S R3 : List Char) (sub : walk_out)
    (hcond : swd = true ∨ sccd = true)
    (hm : matches_pattern gd gde (b2.drop (u32 (root + 1))) = .ret true)
    (hcur : u32 (u32 (pl + item_len) + 1) = S.length)
    (hsub : (if swd = true then
        recurse b2 (u32 (u32 (pl + item_len) + 1)) (usub (usub sz item_len) 1)
      else pure ⟨DIR_ERROR_OK, false, b2, []⟩) = .ret sub)
    (hb2 : ∃ R2, b2 = S ++ NUL :: R2) (hbuf : sub.path_buffer = S ++ NUL :: R3)
    (hS : NUL ∉ S) (hoff : off ≤ S.length) (hlen : S.length < 2 ^ 32) :
    dir_walk_visit recurse root gd gde gf gfe flags swd sccd sccf off pl sz item_name item_len
        true b2
      = .ret (S ++ NUL :: R3,
          if flags &&& DIR_WALK_DEPTH_FIRST ≠ 0 then
            sub.calls ++ (if sccd = true then [render off (S, DIR_ITEM_DIR)] else [])
          else (if sccd = true then [render off (S, DIR_ITEM_DIR)] else []) ++ sub.calls) := by
  obtain ⟨R2, hb2⟩ := hb2
  unfold dir_walk_visit
  simp only [true_and, if_pos hcond, hm, Exec.ret_bind]
  rw [if_neg (by simp)]
  by_cases hdf : flags &&& DIR_WALK_DEPTH_FIRST ≠ 0
  · rw [if_pos hdf, if_pos hdf, hsub]
    simp only [Exec.ret_bind]
    rw [hbuf, hcur, callback_spec S R3 off _ hS hoff hlen]
    cases sccd <;> rfl
  · rw [if_neg hdf, if_neg hdf, hsub, hb2, hcur, callback_spec S R2 off _ hS hoff hlen]
    cases sccd <;> simp [hbuf]

theorem dir_walk_visit_rel (slash : Char) (rec1 rec2 : List Char → Nat → Nat → Exec walk_out)
    (root : Nat) (gd : Option (List Char)) (gde : Option Nat) (gf : Option (List Char))
    (gfe : Option Nat) (flags1 flags2 : Nat) (swd sccd sccf : Bool) (off1 off2 : Nat)
    (P n slack R2 : List Char) (sz : Nat) (is_dir : Bool) (b3 : List Char)
    (calls1 : List walk_event)
    (hn1 : n ≠ []) (hn2 : slash ∉ n) (hP : NUL ∉ P) (hn0 : NUL ∉ n) (hs0 : slash ≠ NUL)
    (hroot : root ≤ P.length) (hoff1 : off1 ≤ root + 1) (hoff2 : off2 ≤ root + 1)
    (hlen : ((P ++ slash :: n) ++ NUL :: R2).length < 2 ^ 32)
    (hrec : rec_rel slash (dir_matched gd gde root) root flags1 flags2 off1 off2 rec1 rec2)
    (h1 : dir_walk_visit rec1 root gd gde gf gfe flags1 swd sccd sccf off1 P.length sz
        (n ++ NUL :: slack) n.length is_dir ((P ++ slash :: n) ++ NUL :: R2) = .ret (b3, calls1)) :
    ∃ R3 a1 b1, R3.length = R2.length ∧ b3 = (P ++ slash :: n) ++ NUL :: R3 ∧
      calls1 = (if flags1 &&& DIR_WALK_DEPTH_FIRST ≠ 0 then b1 else a1).map (render off1) ∧
      dir_walk_visit rec2 root gd gde gf gfe flags2 swd sccd sccf off2 P.length sz
          (n ++ NUL :: slack) n.length is_dir ((P ++ slash :: n) ++ NUL :: R2)
        = .ret (b3, (if flags2 &&& DIR_WALK_DEPTH_FIRST ≠ 0 then b1 else a1).map (render off2)) ∧
      ∀ ns a b, n ∉ ns → Shape slash (dir_matched gd gde root) P ns a b →
        Shape slash (dir_matched gd gde root) P (n :: ns) (a1 ++ a) (b1 ++ b) := by
  generalize hSdef : P ++ slash :: n = S at *
  have hS0 : NUL ∉ S := by
    rw [← hSdef]
    intro h
    rcases List.mem_append.1 h with h | h
    · exact hP h
    · rcases List.mem_cons.1 h with h | h
      · exact hs0 h.symm
      · exact hn0 h
  have hSlen : S.length = P.length + n.length + 1 := by rw [← hSdef]; simp; omega
  have hlen2 : S.length + 1 + R2.length < 2 ^ 32 := by
    simp only [List.length_append, List.length_cons] at hlen; omega
  have hcur : u32 (u32 (P.length + n.length) + 1) = S.length := by
    rw [u32_of_lt (show P.length + n.length < 2 ^ 32 by omega),
      u32_of_lt (show P.length + n.length + 1 < 2 ^ 32 by omega), hSlen]
  have hr1 : u32 (root + 1) = root + 1 := u32_of_lt (by omega)
  have hskip : ∀ ns a b, n ∉ ns → Shape slash (dir_matched gd gde root) P ns a b →
      Shape slash (dir_matched gd gde root) P (n :: ns) ([] ++ a) ([] ++ b) :=
    fun ns a b h3 hsh => Shape.skip P n ns a b hn1 hn2 h3 hsh
  by_cases hc1 : is_dir = true ∧ (swd = true ∨ sccd = true)
  · obtain ⟨hd, hcond⟩ := hc1
    subst hd
    cases hm : matches_pattern gd gde ((S ++ NUL :: R2).drop (u32 (root + 1))) with
    | oob =>
      exfalso
      unfold dir_walk_visit at h1
      simp [hcond, hm] at h1
    | nofuel =>
      exfalso
      unfold dir_walk_visit at h1
      simp [hcond, hm] at h1
    | ret m =>
      cases m with
      | false =>
        unfold dir_walk_visit at h1 ⊢
        simp only [true_and, if_pos hcond, hm, Exec.ret_bind, if_true, Exec.pure_eq,
          Exec.ret.injEq, Prod.mk.injEq] at h1 ⊢
        refine ⟨R2, [], [], rfl, h1.1.symm, ?_, ?_, hskip⟩
        · rw [← h1.2]; simp
        · exact ⟨h1.1, by simp⟩
      | true =>
        have hgood : dir_matched gd gde root S := by
          refine ⟨R2, ?_⟩
          rw [hr1, List.drop_append_of_le_length (by omega)] at hm
          exact hm
        cases hsc : (if swd = true then
            rec1 (S ++ NUL :: R2) (u32 (u32 (P.length + n.length) + 1))
              (usub (usub sz n.length) 1)
          else pure ⟨DIR_ERROR_OK, false, S ++ NUL :: R2, []⟩ : Exec walk_out) with
        | oob =>
          exfalso
          unfold dir_walk_visit at h1
          simp only [true_and, if_pos hcond, hm, Exec.ret_bind, hcur,
            callback_spec S R2 off1 _ hS0 (by omega) (by omega)] at h1
          rw [hcur] at hsc
          rw [if_neg (by simp), hsc] at h1
          split at h1
          · cases h1
          · cases sccd <;> cases h1
        | nofuel =>
          exfalso
          unfold dir_walk_visit at h1
          simp only [true_and, if_pos hcond, hm, Exec.ret_bind, hcur,
            callback_spec S R2 off1 _ hS0 (by omega) (by omega)] at h1
          rw [hcur] at hsc
          rw [if_neg (by simp), hsc] at h1
          split at h1
          · cases h1
          · cases sccd <;> cases h1
        | ret sub =>
          have hsubrel : ∃ ns a b R3, Shape slash (dir_matched gd gde root) S ns a b ∧
              R3.length = R2.length ∧ sub.path_buffer = S ++ NUL :: R3 ∧
              sub.calls = (if flags1 &&& DIR_WALK_DEPTH_FIRST ≠ 0 then b else a).map
                (render off1) ∧
              (if swd = true then
                rec2 (S ++ NUL :: R2) (u32 (u32 (P.length + n.length) + 1))
                  (usub (usub sz n.length) 1)
              else pure ⟨DIR_ERROR_OK, false, S ++ NUL :: R2, []⟩ : Exec walk_out)
                = .ret { sub with
                  calls := (if flags2 &&& DIR_WALK_DEPTH_FIRST ≠ 0 then b else a).map
                    (render off2) } := by
            by_cases hswd : swd = true
            · rw [if_pos hswd, hcur] at hsc
              rw [if_pos hswd, hcur]
              exact hrec S R2 _ sub hS0 (by omega) (by simp; omega) hsc
            · rw [if_neg hswd] at hsc
              rw [if_neg hswd]
              simp only [Exec.pure_eq, Exec.ret.injEq] at hsc
              refine ⟨[], [], [], R2, Shape.nil S, rfl, ?_, ?_, ?_⟩
              · rw [← hsc]
              · rw [← hsc]; simp
              · rw [← hsc]; simp
          obtain ⟨ns2, a2, b2, R3, hsh2, hR3, hbuf, hcalls, hrun2⟩ := hsubrel
          have f1 := visit_dir_forward rec1 root gd gde gf gfe flags1 swd sccd sccf off1 P.length
            sz (n ++ NUL :: slack) n.length (S ++ NUL :: R2) S R3 sub hcond hm hcur hsc
            ⟨R2, rfl⟩ hbuf hS0 (by omega) (by omega)
          have f2 := visit_dir_forward rec2 root gd gde gf gfe flags2 swd sccd sccf off2 P.length
            sz (n ++ NUL :: slack) n.length (S ++ NUL :: R2) S R3 _ hcond hm hcur hrun2
            ⟨R2, rfl⟩ hbuf hS0 (by omega) (by omega)
          rw [f1] at h1
          injection h1 with h1
          injection h1 with e1 e2
          refine ⟨R3, (if sccd = true then [(S, DIR_ITEM_DIR)] else []) ++ a2,
            b2 ++ (if sccd = true then [(S, DIR_ITEM_DIR)] else []), hR3, e1.symm, ?_, ?_, ?_⟩
          · rw [← e2, hcalls]
            by_cases hdf : flags1 &&& DIR_WALK_DEPTH_FIRST ≠ 0
            · simp only [if_pos hdf]; cases sccd <;> simp
            · simp only [if_neg hdf]; cases sccd <;> simp
          · rw [f2, ← e1]
            by_cases hdf : flags2 &&& DIR_WALK_DEPTH_FIRST ≠ 0
            · simp only [if_pos hdf]; cases sccd <;> simp
            · simp only [if_neg hdf]; cases sccd <;> simp
          · intro ns a b h3 hsh
            rw [← hSdef] at hsh2 hgood
            have := Shape.dir P n ns a b ns2 a2 b2
              (if sccd = true then [(P ++ slash :: n, DIR_ITEM_DIR)] else []) hn1 hn2 h3 hgood
              (by cases sccd <;> simp) hsh2 hsh
            rw [hSdef] at this
            exact this
  · by_cases hc2 : is_dir = false ∧ sccf = true
    · cases hm : matches_pattern gf gfe (n ++ NUL :: slack) with
      | oob =>
        exfalso
        unfold dir_walk_visit at h1
        simp [hc1, hc2, hm] at h1
      | nofuel =>
        exfalso
        unfold dir_walk_visit at h1
        simp [hc1, hc2, hm] at h1
      | ret m =>
        cases m with
        | false =>
          unfold dir_walk_visit at h1 ⊢
          simp only [if_neg hc1, if_pos hc2, hm, Exec.ret_bind, if_true, Exec.pure_eq,
            Exec.ret.injEq, Prod.mk.injEq] at h1 ⊢
          refine ⟨R2, [], [], rfl, h1.1.symm, ?_, ?_, hskip⟩
          · rw [← h1.2]; simp
          · exact ⟨h1.1, by simp⟩
        | true =>
          unfold dir_walk_visit at h1 ⊢
          simp only [if_neg hc1, if_pos hc2, hm, Exec.ret_bind, hcur,
            callback_spec S R2 _ _ hS0 (show off1 ≤ S.length by omega) (by omega),
            callback_spec S R2 _ _ hS0 (show off2 ≤ S.length by omega) (by omega)] at h1 ⊢
          rw [if_neg (by simp)] at h1 ⊢
          simp only [Exec.pure_eq, Exec.ret.injEq, Prod.mk.injEq] at h1 ⊢
          refine ⟨R2, [(S, DIR_ITEM_FILE)], [(S, DIR_ITEM_FILE)], rfl, h1.1.symm, ?_, ?_, ?_⟩
          · rw [← h1.2]; simp
          · exact ⟨h1.1, by simp⟩
          · intro ns a b h3 hsh
            have := Shape.file P n ns a b hn1 hn2 h3 hsh
            rw [hSdef] at this
            exact this
    · unfold dir_walk_visit at h1 ⊢
      simp only [if_neg hc1, if_neg hc2, Exec.pure_eq, Exec.ret.injEq, Prod.mk.injEq] at h1 ⊢
      refine ⟨R2, [], [], rfl, h1.1.symm, ?_, ?_, hskip⟩
      · rw [← h1.2]; simp
      · exact ⟨h1.1, by simp⟩

theorem entry_decomp (d : List Char) (h : NUL ∈ d) :
    ∃ slack, d = d.takeWhile (fun c => decide (c ≠ NUL)) ++ NUL :: slack ∧
      NUL ∉ d.takeWhile (fun c => decide (c ≠ NUL)) := by
  induction d with
  | nil => cases h
  | cons x d ih =>
    by_cases hx : x = NUL
    · subst hx
      exact ⟨d, by simp [List.takeWhile], by simp [List.takeWhile]⟩
    · have hd : NUL ∈ d := by
        rcases List.mem_cons.1 h with h | h
        · exact absurd h.symm hx
        · exact h
      obtain ⟨slack, h1, h2⟩ := ih hd
      refine ⟨slack, ?_, ?_⟩
      · rw [List.takeWhile_cons_of_pos (by simpa using hx), List.cons_append, ← h1]
      · rw [List.takeWhile_cons_of_pos (by simpa using hx)]
        intro hmem
        rcases List.mem_cons.1 hmem with h | h
        · exact hx h.symm
        · exact h2 h

theorem dir_walk_body_rel (fs : filesystem) (hstat : ∀ p, fs.stat p ≠ none) (slash : Char)
    (rec1 rec2 : List Char → Nat → Nat → Exec walk_out)
    (root : Nat) (gd : Option (List Char)) (gde : Option Nat) (gf : Option (List Char))
    (gfe : Option Nat) (flags1 flags2 : Nat) (swd sidd sidf sccd sccf : Bool) (off1 off2 : Nat)
    (P R : List Char) (y : Char) (sz : Nat) (ent : dirent)
    (hent : NUL ∈ ent.d_name ∧ ent.d_name.length ≤ 256 ∧ entry_name ent ≠ [] ∧
      slash ∉ entry_name ent)
    (hP : NUL ∉ P) (hs0 : slash ≠ NUL)
    (hroot : root ≤ P.length) (hoff1 : off1 ≤ root + 1) (hoff2 : off2 ≤ root + 1)
    (hlen : (P ++ y :: R).length < 2 ^ 32)
    (hrec : rec_rel slash (dir_matched gd gde root) root flags1 flags2 off1 off2 rec1 rec2)
    (bo1 : body_out)
    (h1 : dir_walk_body fs rec1 root gd gde gf gfe flags1 slash swd sidd sidf sccd sccf off1
      P.length sz ent (P ++ y :: R) = .ret bo1) :
    (bo1 = .leave ⟨DIR_ERROR_PATH_TOO_DEEP, false, P ++ y :: R, []⟩ ∧
      dir_walk_body fs rec2 root gd gde gf gfe flags2 slash swd sidd sidf sccd sccf off2
        P.length sz ent (P ++ y :: R) = .ret bo1)
    ∨ ∃ y2 R2 a1 b1, R2.length = R.length ∧
        bo1 = .next (P ++ y2 :: R2)
          ((if flags1 &&& DIR_WALK_DEPTH_FIRST ≠ 0 then b1 else a1).map (render off1)) ∧
        dir_walk_body fs rec2 root gd gde gf gfe flags2 slash swd sidd sidf sccd sccf off2
            P.length sz ent (P ++ y :: R)
          = .ret (.next (P ++ y2 :: R2)
              ((if flags2 &&& DIR_WALK_DEPTH_FIRST ≠ 0 then b1 else a1).map (render off2))) ∧
        ∀ ns a b, entry_name ent ∉ ns → Shape slash (dir_matched gd gde root) P ns a b →
          Shape slash (dir_matched gd gde root) P (entry_name ent :: ns) (a1 ++ a) (b1 ++ b) := by
  obtain ⟨hnul, hd256, hn1, hn2⟩ := hent
  obtain ⟨slack, hdn, hn0⟩ := entry_decomp ent.d_name hnul
  have hnlen : (entry_name ent).length ≤ 256 := by
    have := congrArg List.length hdn
    unfold entry_name
    simp only [List.length_append, List.length_cons] at this
    omega
  generalize hname : entry_name ent = n at *
  have hdn2 : ent.d_name = n ++ NUL :: slack := by
    rw [← hname]; exact hdn
  have hn0b : NUL ∉ n := by rw [← hname]; exact hn0
  unfold dir_walk_body at h1 ⊢
  obtain ⟨probe, hp, h1⟩ := Exec.bind_eq_ret h1
  obtain ⟨is_dir, hpr⟩ := dir_walk_is_dir_some fs hstat ent _ probe hp
  subst hpr
  rw [hp]
  simp only [Exec.ret_bind] at h1 ⊢
  obtain ⟨skip, hsk, h1⟩ := Exec.bind_eq_ret h1
  rw [hsk]
  simp only [Exec.ret_bind]
  cases skip with
  | true =>
    right
    simp only [if_true, Exec.pure_eq, Exec.ret.injEq] at h1 ⊢
    refine ⟨y, R, [], [], rfl, ?_, ?_, ?_⟩
    · rw [← h1]; simp
    · simp
    · intro ns a b h3 hsh
      exact Shape.skip P n ns a b hn1 hn2 h3 hsh
  | false =>
    have hsl : dir_strlen32 ent.d_name 0 = .ret n.length := by
      rw [hdn2]
      exact dir_strlen32_cstr n slack hn0b (by omega)
    simp only [hsl, Exec.ret_bind, Bool.false_eq_true, if_false] at h1 ⊢
    by_cases hsz : sz < u32 (n.length + 2)
    · left
      simp only [if_pos hsz, Exec.pure_eq, Exec.ret.injEq] at h1 ⊢
      exact ⟨h1.symm, h1⟩
    · right
      simp only [if_neg hsz] at h1 ⊢
      obtain ⟨b2, hb2, h1⟩ := Exec.bind_eq_ret h1
      rw [hb2]
      simp only [Exec.ret_bind]
      rw [hdn2] at hb2
      obtain ⟨R2, hb2e, hR2⟩ := dir_walk_append_spec slash y P R n slack b2 hlen (by omega) hb2
      obtain ⟨⟨b3, calls1⟩, hv, hfin⟩ := Exec.bind_eq_ret h1
      simp only [Exec.pure_eq, Exec.ret.injEq] at hfin
      subst hb2e
      rw [hdn2] at hv ⊢
      have hlen3 : ((P ++ slash :: n) ++ NUL :: R2).length < 2 ^ 32 := by
        simp only [List.length_append, List.length_cons] at hlen ⊢; omega
      obtain ⟨R3, a1, b1, hR3, hb3, hc1, hrun2, hshape⟩ := dir_walk_visit_rel slash rec1 rec2
        root gd gde gf gfe flags1 flags2 swd sccd sccf off1 off2 P n slack R2 sz is_dir b3
        calls1 hn1 hn2 hP hn0b hs0 hroot hoff1 hoff2 hlen3 hrec hv
      rw [hrun2]
      simp only [Exec.ret_bind, Exec.pure_eq, Exec.ret.injEq]
      refine ⟨slash, n ++ NUL :: R3, a1, b1, ?_, ?_, ?_, hshape⟩
      · simp; omega
      · rw [← hfin, hb3, hc1]; simp
      · rw [hb3]; simp

/-! ## The walk: the loop and the recursion -/

theorem dir_walk_loop_rel (fs : filesystem) (hstat : ∀ p, fs.stat p ≠ none) (slash : Char)
    (rec1 rec2 : List Char → Nat → Nat → Exec walk_out)
    (root : Nat) (gd : Option (List Char)) (gde : Option Nat) (gf : Option (List Char))
    (gfe : Option Nat) (flags1 flags2 : Nat) (swd sidd sidf sccd sccf : Bool) (off1 off2 : Nat)
    (P : List Char) (sz : Nat) (hP : NUL ∉ P) (hs0 : slash ≠ NUL)
    (hroot : root ≤ P.length) (hoff1 : off1 ≤ root + 1) (hoff2 : off2 ≤ root + 1)
    (hrec : rec_rel slash (dir_matched gd gde root) root flags1 flags2 off1 off2 rec1 rec2) :
    ∀ (entries : List dirent) (y : Char) (R : List Char) (out1 : walk_out),
      listing_ok slash entries → (P ++ y :: R).length < 2 ^ 32 →
      dir_walk_loop (dir_walk_body fs rec1 root gd gde gf gfe flags1 slash swd sidd sidf sccd
        sccf off1 P.length sz) entries (P ++ y :: R) = .ret out1 →
      ∃ ns a b y2 R2, Shape slash (dir_matched gd gde root) P ns a b ∧
        (∀ n ∈ ns, n ∈ entries.map entry_name) ∧ R2.length = R.length ∧
        out1.path_buffer = P ++ y2 :: R2 ∧ out1.returned = false ∧
        out1.calls = (if flags1 &&& DIR_WALK_DEPTH_FIRST ≠ 0 then b else a).map (render off1) ∧
        dir_walk_loop (dir_walk_body fs rec2 root gd gde gf gfe flags2 slash swd sidd sidf sccd
          sccf off2 P.length sz) entries (P ++ y :: R) = .ret { out1 with
            calls := (if flags2 &&& DIR_WALK_DEPTH_FIRST ≠ 0 then b else a).map (render off2) } := by
  intro entries
  induction entries with
  | nil =>
    intro y R out1 _ _ h1
    simp only [dir_walk_loop, Exec.ret.injEq] at h1 ⊢
    subst h1
    exact ⟨[], [], [], y, R, Shape.nil P, by simp, rfl, rfl, rfl, by simp, by simp⟩
  | cons ent rest ih =>
    intro y R out1 hok hlen h1
    have hent := hok.1 ent (List.mem_cons_self _ _)
    have hnd := hok.2
    rw [List.map_cons, List.nodup_cons] at hnd
    have hokrest : listing_ok slash rest :=
      ⟨fun e he => hok.1 e (List.mem_cons_of_mem _ he), hnd.2⟩
    rw [dir_walk_loop] at h1 ⊢
    obtain ⟨step, hstep, h1⟩ := Exec.bind_eq_ret h1
    rcases dir_walk_body_rel fs hstat slash rec1 rec2 root gd gde gf gfe flags1 flags2 swd sidd
      sidf sccd sccf off1 off2 P R y sz ent hent hP hs0 hroot hoff1 hoff2 hlen hrec step hstep
      with ⟨hleave, hrun2⟩ | ⟨y2, R2, a1, b1, hR2, hnext, hrun2, hshape⟩
    · rw [hrun2]
      subst hleave
      simp only [Exec.ret_bind, Exec.pure_eq, Exec.ret.injEq] at h1 ⊢
      subst h1
      exact ⟨[], [], [], y, R, Shape.nil P, by simp, rfl, rfl, rfl, by simp, by simp⟩
    · rw [hrun2]
      subst hnext
      simp only [Exec.ret_bind] at h1 ⊢
      obtain ⟨outr, hloop, h1⟩ := Exec.bind_eq_ret h1
      have hlen2 : (P ++ y2 :: R2).length < 2 ^ 32 := by
        simp only [List.length_append, List.length_cons] at hlen ⊢; omega
      obtain ⟨ns, a, b, y3, R3, hsh, hsub, hR3, hbuf, hret, hcalls, hrunr⟩ :=
        ih y2 R2 outr hokrest hlen2 hloop
      rw [hrunr]
      simp only [Exec.pure_eq, Exec.ret.injEq] at h1
      subst h1
      refine ⟨entry_name ent :: ns, a1 ++ a, b1 ++ b, y3, R3, ?_, ?_, by omega, hbuf, hret,
        ?_, ?_⟩
      · exact hshape ns a b (fun hmem => hnd.1 (hsub _ hmem)) hsh
      · intro n hn
        rcases List.mem_cons.1 hn with h | h
        · rw [h]; simp
        · exact List.mem_cons_of_mem _ (hsub n h)
      · simp only [hcalls]
        by_cases hdf : flags1 &&& DIR_WALK_DEPTH_FIRST ≠ 0
        · simp only [if_pos hdf, List.map_append]
        · simp only [if_neg hdf, List.map_append]
      · simp only [Exec.ret_bind, Exec.pure_eq, Exec.ret.injEq]
        by_cases hdf : flags2 &&& DIR_WALK_DEPTH_FIRST ≠ 0
        · simp only [if_pos hdf, List.map_append]
        · simp only [if_neg hdf, List.map_append]

theorem slash_by_flags_ne_nul (flags : Nat) : dir_walk_slash_by_flags flags ≠ NUL := by
  unfold dir_walk_slash_by_flags
  split
  · decide
  · split <;> decide

theorem slash_by_flags_is_sep (flags : Nat) :
    dir_walk_slash_by_flags flags = '/' ∨ dir_walk_slash_by_flags flags = '\\' := by
  unfold dir_walk_slash_by_flags
  split
  · exact Or.inl rfl
  · split
    · exact Or.inr rfl
    · exact Or.inl rfl

theorem offset_of_le (flags root : Nat) : offset_of flags root ≤ root + 1 := by
  unfold offset_of
  split
  · exact Nat.mod_le _ _
  · omega

theorem dir_walk_impl_rel (fs : filesystem) (root : Nat) (gd : Option (List Char))
    (gde : Option Nat) (gf : Option (List Char)) (gfe : Option Nat) (flags1 flags2 : Nat)
    (hsame : same_walk flags1 flags2) (htree : tree_ok fs (dir_walk_slash_by_flags flags1)) :
    ∀ fuel, rec_rel (dir_walk_slash_by_flags flags1) (dir_matched gd gde root) root flags1 flags2
      (offset_of flags1 root) (offset_of flags2 root)
      (dir_walk_impl fs root gd gde gf gfe flags1 fuel)
      (dir_walk_impl fs root gd gde gf gfe flags2 fuel) := by
  intro fuel
  induction fuel with
  | zero =>
    intro S R sz o1 _ _ _ h1
    simp [dir_walk_impl] at h1
  | succ fuel ih =>
    intro S R sz o1 hS hroot hlen h1
    obtain ⟨h_mask, h_single, h_idd, h_idf, h_of, h_od⟩ := hsame
    have hslash : dir_walk_slash_by_flags flags2 = dir_walk_slash_by_flags flags1 := by
      unfold dir_walk_slash_by_flags
      rw [h_mask]
    have hcs : c_string_at (S ++ NUL :: R) 0 = .ret S := by
      unfold c_string_at
      rw [List.drop_zero]
      exact c_string_go_cstr S R hS
    rw [dir_walk_impl] at h1 ⊢
    simp only [hcs, Exec.ret_bind] at h1 ⊢
    cases hod : fs.opendir S with
    | none =>
      rw [hod] at h1
      simp only [Exec.pure_eq, Exec.ret.injEq] at h1 ⊢
      subst h1
      exact ⟨[], [], [], R, Shape.nil S, rfl, rfl, by simp, by simp⟩
    | some entries =>
      rw [hod] at h1
      simp only at h1 ⊢
      obtain ⟨out, hloop, h1⟩ := Exec.bind_eq_ret h1
      obtain ⟨ns, a, b, y2, R2, hsh, _, hR2, hbuf, hret, hcalls, hrun2⟩ :=
        dir_walk_loop_rel fs htree.2 (dir_walk_slash_by_flags flags1)
          (dir_walk_impl fs root gd gde gf gfe flags1 fuel)
          (dir_walk_impl fs root gd gde gf gfe flags2 fuel) root gd gde gf gfe flags1 flags2
          _ _ _ _ _ (offset_of flags1 root) (offset_of flags2 root) S sz hS
          (slash_by_flags_ne_nul flags1) hroot (offset_of_le _ _) (offset_of_le _ _) ih entries
          NUL R out (htree.1 S entries hod) hlen hloop
      rw [hslash, ← h_single, ← h_idd, ← h_idf, ← h_of, ← h_od]
      have hrun2b := hrun2
      unfold offset_of at hrun2b
      rw [hrun2b]
      simp only [Exec.ret_bind, hret, Bool.false_eq_true, if_false] at h1 ⊢
      rw [hbuf, wr_append] at h1 ⊢
      simp only [Exec.ret_bind, Exec.pure_eq, Exec.ret.injEq] at h1 ⊢
      subst h1
      exact ⟨ns, a, b, R2, hsh, hR2, rfl, hcalls, rfl⟩

/-- Two runs of `dir_walkex` whose flags differ at most in the order and in the
root-relative paths: when the first returns, so does the second, with the same
result and the same entries, each in its order and from its offset on. -/
theorem dir_walkex_rel (fs : filesystem) (path : List Char) (flags1 flags2 : Nat)
    (gd gf : Option (List Char)) (pb : List Char) (res : dir_error) (evs : List walk_event)
    (hsame : same_walk flags1 flags2) (htree : tree_ok fs (dir_walk_slash_by_flags flags1))
    (hpb : pb.length < 2 ^ 32)
    (h1 : dir_walkex fs path flags1 gd gf pb = .ret (res, evs)) :
    (evs = [] ∧ dir_walkex fs path flags2 gd gf pb = .ret (res, [])) ∨
    ∃ root gde ns a b, tidied_root path flags1 pb = .ret root ∧ root ≠ [] ∧ NUL ∉ root ∧
      root.length < pb.length ∧ glob_end_of gd = .ret gde ∧
      Shape (dir_walk_slash_by_flags flags1) (dir_matched gd gde root.length) root ns a b ∧
      evs = (if flags1 &&& DIR_WALK_DEPTH_FIRST ≠ 0 then b else a).map
        (render (offset_of flags1 root.length)) ∧
      dir_walkex fs path flags2 gd gf pb
        = .ret (res, (if flags2 &&& DIR_WALK_DEPTH_FIRST ≠ 0 then b else a).map
            (render (offset_of flags2 root.length))) := by
  have hslash : dir_walk_slash_by_flags flags2 = dir_walk_slash_by_flags flags1 := by
    unfold dir_walk_slash_by_flags
    rw [hsame.1]
  unfold dir_walkex at h1 ⊢
  unfold tidied_root
  obtain ⟨path_len, hpl, h1⟩ := Exec.bind_eq_ret h1
  rw [hpl]
  simp only [Exec.ret_bind]
  by_cases hbig : path_len ≥ 4096 - 1
  · left
    simp only [if_pos hbig, Exec.pure_eq, Exec.ret.injEq, Prod.mk.injEq] at h1 ⊢
    exact ⟨h1.2.symm, h1.1, trivial⟩
  · simp only [if_neg hbig] at h1 ⊢
    obtain ⟨b1, hb1, h1⟩ := Exec.bind_eq_ret h1
    rw [hb1]
    simp only [Exec.ret_bind]
    obtain ⟨⟨b2, pl⟩, htidy, h1⟩ := Exec.bind_eq_ret h1
    rw [hslash, htidy]
    simp only [Exec.ret_bind] at h1 ⊢
    have hb1len := memcpy_length hb1
    obtain ⟨_, P, R, _, _, hP0, hb2, hplen, hb2len⟩ := dir_path_tidy_post b1 _ path_len b2 pl
      (slash_by_flags_ne_nul flags1) (by omega) htidy
    by_cases hz : pl = 0
    · left
      simp only [if_pos hz, Exec.pure_eq, Exec.ret.injEq, Prod.mk.injEq] at h1 ⊢
      exact ⟨h1.2.symm, h1.1, trivial⟩
    · right
      simp only [if_neg hz] at h1 ⊢
      obtain ⟨gde, hgde, h1⟩ := Exec.bind_eq_ret h1
      obtain ⟨gfe, hgfe, h1⟩ := Exec.bind_eq_ret h1
      obtain ⟨out, himpl, hfin⟩ := Exec.bind_eq_ret h1
      simp only [Exec.pure_eq, Exec.ret.injEq, Prod.mk.injEq] at hfin
      rw [hgde, hgfe]
      simp only [Exec.ret_bind]
      subst hb2
      subst hplen
      obtain ⟨ns, a, b, R2, hsh, _, _, hcalls, hrun2⟩ :=
        dir_walk_impl_rel fs P.length gd gde gf gfe flags1 flags2 hsame htree 4096 P R
          (4096 - P.length) out hP0 (Nat.le_refl _) (by omega) himpl
      rw [hrun2]
      have hcs : c_string_at (P ++ NUL :: R) 0 = .ret P := by
        unfold c_string_at
        rw [List.drop_zero]
        exact c_string_go_cstr P R hP0
      refine ⟨P, gde, ns, a, b, hcs, ?_, hP0, ?_, rfl, hsh, ?_, ?_⟩
      · intro h; apply hz; rw [h]; rfl
      · simp only [List.length_append, List.length_cons] at hb2len; omega
      · rw [← hfin.2, hcalls]
      · simp only [Exec.ret_bind, Exec.pure_eq, Exec.ret.injEq, Prod.mk.injEq]
        exact ⟨hfin.1, trivial⟩

/-! ## What a walk passes to the callback -/

theorem Shape.perm {slash : Char} {good : List Char → Prop} {P : List Char}
    {ns : List (List Char)} {a b : List (List Char × dir_item_type)}
    (h : Shape slash good P ns a b) : a.Perm b := by
  induction h with
  | nil P => exact List.Perm.refl _
  | skip P n ns a b _ _ _ _ ih => exact ih
  | file P n ns a b _ _ _ _ ih => exact List.Perm.cons _ ih
  | dir P n ns a b ns2 a2 b2 own _ _ _ _ _ _ _ ih2 ih =>
    refine List.Perm.append ?_ ih
    exact List.perm_append_comm.trans (List.Perm.append_right own ih2)

theorem Shape.names {slash : Char} {good : List Char → Prop} {P : List Char}
    {ns : List (List Char)} {a b : List (List Char × dir_item_type)}
    (h : Shape slash good P ns a b) : ∀ n ∈ ns, n ≠ [] ∧ slash ∉ n := by
  induction h with
  | nil P => intro n hn; cases hn
  | skip P n ns a b h1 h2 _ _ ih =>
    intro m hm
    rcases List.mem_cons.1 hm with h | h
    · rw [h]; exact ⟨h1, h2⟩
    · exact ih m h
  | file P n ns a b h1 h2 _ _ ih =>
    intro m hm
    rcases List.mem_cons.1 hm with h | h
    · rw [h]; exact ⟨h1, h2⟩
    · exact ih m h
  | dir P n ns a b ns2 a2 b2 own h1 h2 _ _ _ _ _ _ ih =>
    intro m hm
    rcases List.mem_cons.1 hm with h | h
    · rw [h]; exact ⟨h1, h2⟩
    · exact ih m h

/-- Every entry passed on lies in the walked directory: its path is the path of
the directory, a separator, a name of the listing, and then nothing or a
separator and more. -/
theorem Shape.form {slash : Char} {good : List Char → Prop} {P : List Char}
    {ns : List (List Char)} {a b : List (List Char × dir_item_type)}
    (h : Shape slash good P ns a b) :
    ∀ e ∈ a, ∃ n ∈ ns, ∃ r, e.1 = P ++ slash :: n ++ r ∧ (r = [] ∨ ∃ r2, r = slash :: r2) := by
  induction h with
  | nil P => intro e he; cases he
  | skip P n ns a b _ _ _ _ ih =>
    intro e he
    obtain ⟨m, hm, r, h1, h2⟩ := ih e he
    exact ⟨m, List.mem_cons_of_mem _ hm, r, h1, h2⟩
  | file P n ns a b _ _ _ _ ih =>
    intro e he
    rcases List.mem_cons.1 he with h | h
    · exact ⟨n, List.mem_cons_self _ _, [], by rw [h]; simp, Or.inl rfl⟩
    · obtain ⟨m, hm, r, h1, h2⟩ := ih e h
      exact ⟨m, List.mem_cons_of_mem _ hm, r, h1, h2⟩
  | dir P n ns a b ns2 a2 b2 own _ _ _ _ hown _ _ ih2 ih =>
    intro e he
    rcases List.mem_append.1 he with h | h
    · rcases List.mem_append.1 h with h | h
      · rcases hown with ho | ho
        · rw [ho] at h; cases h
        · rw [ho] at h
          simp only [List.mem_singleton] at h
          exact ⟨n, List.mem_cons_self _ _, [], by rw [h]; simp, Or.inl rfl⟩
      · obtain ⟨m, _, r, h1, _⟩ := ih2 e h
        exact ⟨n, List.mem_cons_self _ _, slash :: m ++ r, by rw [h1]; simp, Or.inr ⟨_, rfl⟩⟩
    · obtain ⟨m, hm, r, h1, h2⟩ := ih e h
      exact ⟨m, List.mem_cons_of_mem _ hm, r, h1, h2⟩

theorem seg_inj (slash : Char) :
    ∀ (n1 n2 r1 r2 : List Char), slash ∉ n1 → slash ∉ n2 →
      (r1 = [] ∨ ∃ r, r1 = slash :: r) → (r2 = [] ∨ ∃ r, r2 = slash :: r) →
      n1 ++ r1 = n2 ++ r2 → n1 = n2 ∧ r1 = r2 := by
  intro n1
  induction n1 with
  | nil =>
    intro n2 r1 r2 _ h2 hr1 _ h
    cases n2 with
    | nil => exact ⟨rfl, by simpa using h⟩
    | cons c n2 =>
      exfalso
      simp only [List.nil_append, List.cons_append] at h
      rcases hr1 with hr | ⟨r, hr⟩
      · rw [hr] at h; cases h
      · rw [hr] at h
        injection h with hc _
        exact h2 (by rw [hc]; simp)
  | cons c n1 ih =>
    intro n2 r1 r2 h1 h2 hr1 hr2 h
    cases n2 with
    | nil =>
      exfalso
      simp only [List.nil_append, List.cons_append] at h
      rcases hr2 with hr | ⟨r, hr⟩
      · rw [hr] at h; cases h
      · rw [hr] at h
        injection h with hc _
        exact h1 (by rw [hc]; simp)
    | cons c2 n2 =>
      simp only [List.cons_append] at h
      injection h with hc ht
      obtain ⟨e1, e2⟩ := ih n2 r1 r2 (fun hm => h1 (List.mem_cons_of_mem _ hm))
        (fun hm => h2 (List.mem_cons_of_mem _ hm)) hr1 hr2 ht
      exact ⟨by rw [hc, e1], e2⟩

theorem seg_split (slash : Char) :
    ∀ (n q r tail : List Char), slash ∉ n → n ++ slash :: q = r ++ tail →
      (tail = [] ∨ ∃ rest, tail = slash :: rest) →
      (r = n ∧ tail = slash :: q) ∨ ∃ r2, r = n ++ slash :: r2 ∧ q = r2 ++ tail := by
  intro n
  induction n with
  | nil =>
    intro q r tail _ h _
    cases r with
    | nil => exact Or.inl ⟨rfl, by simpa using h.symm⟩
    | cons c r =>
      simp only [List.nil_append, List.cons_append] at h
      injection h with hc ht
      exact Or.inr ⟨r, by rw [hc]; rfl, ht⟩
  | cons c n ih =>
    intro q r tail hn h htail
    cases r with
    | nil =>
      exfalso
      simp only [List.nil_append, List.cons_append] at h
      rcases htail with ht | ⟨rest, ht⟩
      · rw [ht] at h; cases h
      · rw [ht] at h
        injection h with hc _
        exact hn (by rw [hc]; simp)
    | cons c2 r =>
      simp only [List.cons_append] at h
      injection h with hc ht
      rcases ih q r tail (fun hm => hn (List.mem_cons_of_mem _ hm)) ht htail with
        ⟨e1, e2⟩ | ⟨r2, e1, e2⟩
      · exact Or.inl ⟨by rw [hc, e1], e2⟩
      · exact Or.inr ⟨r2, by rw [hc, e1]; rfl, e2⟩

/-- Two paths in one directory that start with different names are different. -/
theorem path_ne_of_name_ne (slash : Char) (P n1 n2 r1 r2 : List Char) (h1 : slash ∉ n1)
    (h2 : slash ∉ n2) (hr1 : r1 = [] ∨ ∃ r, r1 = slash :: r) (hr2 : r2 = [] ∨ ∃ r, r2 = slash :: r)
    (h : P ++ slash :: n1 ++ r1 = P ++ slash :: n2 ++ r2) : n1 = n2 ∧ r1 = r2 := by
  simp only [List.append_assoc, List.cons_append, List.append_cancel_left_eq,
    List.cons.injEq, true_and] at h
  exact seg_inj slash n1 n2 r1 r2 h1 h2 hr1 hr2 h

theorem Shape.nodup {slash : Char} {good : List Char → Prop} {P : List Char}
    {ns : List (List Char)} {a b : List (List Char × dir_item_type)}
    (h : Shape slash good P ns a b) : (a.map Prod.fst).Nodup := by
  induction h with
  | nil P => simp
  | skip P n ns a b _ _ _ _ ih => exact ih
  | file P n ns a b _ h2 h3 hsh ih =>
    rw [List.map_cons, List.nodup_cons]
    refine ⟨?_, ih⟩
    intro hmem
    obtain ⟨e, he, hp⟩ := List.mem_map.1 hmem
    obtain ⟨m, hm, r, h1, hr⟩ := hsh.form e he
    rw [h1] at hp
    have := path_ne_of_name_ne slash P m n r [] (hsh.names m hm).2 h2 hr (Or.inl rfl)
      (by simpa using hp)
    exact h3 (this.1 ▸ hm)
  | dir P n ns a b ns2 a2 b2 own _ h2 h3 _ hown hsh2 hsh ih2 ih =>
    rw [List.map_append, List.nodup_append]
    refine ⟨?_, ih, ?_⟩
    · rw [List.map_append, List.nodup_append]
      refine ⟨?_, ih2, ?_⟩
      · rcases hown with ho | ho <;> rw [ho] <;> simp
      · intro x hx1 hx2
        rcases hown with ho | ho
        · rw [ho] at hx1; cases hx1
        · rw [ho] at hx1
          simp only [List.map_cons, List.map_nil, List.mem_singleton] at hx1
          obtain ⟨e, he, hp⟩ := List.mem_map.1 hx2
          obtain ⟨m, _, r, h1, _⟩ := hsh2.form e he
          rw [h1, hx1] at hp
          have := congrArg List.length hp
          simp at this
    · intro x hx1 hx2
      obtain ⟨e2, he2, hp2⟩ := List.mem_map.1 hx2
      obtain ⟨m, hm, r, hform, hr⟩ := hsh.form e2 he2
      have hx : ∃ r1, x = P ++ slash :: n ++ r1 ∧ (r1 = [] ∨ ∃ r, r1 = slash :: r) := by
        rw [List.map_append] at hx1
        rcases List.mem_append.1 hx1 with hx | hx
        · rcases hown with ho | ho
          · rw [ho] at hx; cases hx
          · rw [ho] at hx
            simp only [List.map_cons, List.map_nil, List.mem_singleton] at hx
            exact ⟨[], by rw [hx]; simp, Or.inl rfl⟩
        · obtain ⟨e, he, hp⟩ := List.mem_map.1 hx
          obtain ⟨m2, _, r2, h1, _⟩ := hsh2.form e he
          exact ⟨slash :: m2 ++ r2, by rw [← hp, h1]; simp, Or.inr ⟨_, rfl⟩⟩
      obtain ⟨r1, hx, hr1⟩ := hx
      rw [hform, hx] at hp2
      have := path_ne_of_name_ne slash P m n r r1 (hsh.names m hm).2 h2 hr hr1 hp2
      exact h3 (this.1 ▸ hm)

theorem before_cons {α : Type} {x y : α} {l : List α} (z : α) (h : before x y l) :
    before x y (z :: l) := by
  obtain ⟨l1, l2, l3, h⟩ := h
  exact ⟨z :: l1, l2, l3, by rw [h]; simp⟩

theorem before_append_left {α : Type} {x y : α} {l : List α} (p : List α) (h : before x y l) :
    before x y (p ++ l) := by
  obtain ⟨l1, l2, l3, h⟩ := h
  exact ⟨p ++ l1, l2, l3, by rw [h]; simp⟩

theorem before_append_right {α : Type} {x y : α} {l : List α} (s : List α) (h : before x y l) :
    before x y (l ++ s) := by
  obtain ⟨l1, l2, l3, h⟩ := h
  exact ⟨l1, l2, l3 ++ s, by rw [h]; simp⟩

theorem before_of_mem {α : Type} {x y : α} {l1 l2 : List α} (hx : x ∈ l1) (hy : y ∈ l2) :
    before x y (l1 ++ l2) := by
  obtain ⟨s1, t1, h1⟩ := List.append_of_mem hx
  obtain ⟨s2, t2, h2⟩ := List.append_of_mem hy
  exact ⟨s1, t1 ++ s2, t2, by rw [h1, h2]; simp⟩

/-- An entry beneath a directory starts with the same name as the directory. -/
theorem same_first_name (slash : Char) (P n1 n2 r1 r2 d e rest : List Char) (h1 : slash ∉ n1)
    (h2 : slash ∉ n2) (hr1 : r1 = [] ∨ ∃ r, r1 = slash :: r) (hr2 : r2 = [] ∨ ∃ r, r2 = slash :: r)
    (hd : d = P ++ slash :: n1 ++ r1) (he : e = P ++ slash :: n2 ++ r2)
    (hde : e = d ++ slash :: rest) : n1 = n2 ∧ r2 = r1 ++ slash :: rest := by
  have hr : r1 ++ slash :: rest = [] ∨ ∃ r, r1 ++ slash :: rest = slash :: r := by
    right
    rcases hr1 with h | ⟨r, h⟩
    · exact ⟨rest, by rw [h]; rfl⟩
    · exact ⟨r ++ slash :: rest, by rw [h]; rfl⟩
  have := path_ne_of_name_ne slash P n1 n2 (r1 ++ slash :: rest) r2 h1 h2 hr hr2
    (by rw [← he, hde, hd]; simp)
  exact ⟨this.1, this.2.symm⟩

/-- A directory that was passed to the callback comes before everything beneath
it in the list `a` and after it in the list `b`. -/
theorem Shape.order {slash : Char} {good : List Char → Prop} {P : List Char}
    {ns : List (List Char)} {a b : List (List Char × dir_item_type)}
    (h : Shape slash good P ns a b) :
    ∀ (d e : List Char) (ty : dir_item_type) (rest : List Char),
      (d, DIR_ITEM_DIR) ∈ a → (e, ty) ∈ a → e = d ++ slash :: rest →
      before (d, DIR_ITEM_DIR) (e, ty) a ∧ before (e, ty) (d, DIR_ITEM_DIR) b := by
  induction h with
  | nil P => intro d e ty rest hd; cases hd
  | skip P n ns a b _ _ _ _ ih => exact ih
  | file P n ns a b _ h2 h3 hsh ih =>
    intro d e ty rest hd he hde
    rcases List.mem_cons.1 hd with hd | hd
    · cases hd
    · rcases List.mem_cons.1 he with he | he
      · exfalso
        obtain ⟨m, hm, r, hform, hr⟩ := hsh.form _ hd
        have := same_first_name slash P m n r [] d e rest (hsh.names m hm).2 h2 hr (Or.inl rfl)
          hform (by rw [(Prod.mk.inj he).1]; simp) hde
        have h4 := this.2
        cases r <;> cases h4
      · obtain ⟨i1, i2⟩ := ih d e ty rest hd he hde
        exact ⟨before_cons _ i1, before_cons _ i2⟩
  | dir P n ns a b ns2 a2 b2 own _ h2 h3 _ hown hsh2 hsh ih2 ih =>
    intro d e ty rest hd he hde
    have hfirst : ∀ x ∈ own ++ a2, ∃ r1, x.1 = P ++ slash :: n ++ r1 ∧
        (r1 = [] ∨ ∃ r, r1 = slash :: r) := by
      intro x hx
      rcases List.mem_append.1 hx with hx | hx
      · rcases hown with ho | ho
        · rw [ho] at hx; cases hx
        · rw [ho] at hx
          simp only [List.mem_singleton] at hx
          exact ⟨[], by rw [hx]; simp, Or.inl rfl⟩
      · obtain ⟨m2, _, r2, h1, _⟩ := hsh2.form x hx
        exact ⟨slash :: m2 ++ r2, by rw [h1]; simp, Or.inr ⟨_, rfl⟩⟩
    rcases List.mem_append.1 hd with hd | hd
    · obtain ⟨rd1, hdform, hrd⟩ := hfirst _ hd
      rcases List.mem_append.1 he with he | he
      · rcases List.mem_append.1 hd with hd | hd
        · rcases List.mem_append.1 he with he | he
          · exfalso
            rcases hown with ho | ho
            · rw [ho] at hd; cases hd
            · rw [ho] at hd he
              simp only [List.mem_singleton, Prod.mk.injEq] at hd he
              have := congrArg List.length hde
              rw [hd.1, he.1] at this
              simp at this
          · refine ⟨before_append_right _ (before_of_mem hd he), ?_⟩
            exact before_append_right _ (before_of_mem (hsh2.perm.subset he) hd)
        · rcases List.mem_append.1 he with he | he
          · exfalso
            rcases hown with ho | ho
            · rw [ho] at he; cases he
            · rw [ho] at he
              simp only [List.mem_singleton, Prod.mk.injEq] at he
              obtain ⟨m2, _, r2, h1, _⟩ := hsh2.form _ hd
              have := congrArg List.length hde
              simp only at h1
              rw [h1, he.1] at this
              simp at this
          · obtain ⟨i1, i2⟩ := ih2 d e ty rest hd he hde
            refine ⟨before_append_right _ (before_append_left _ i1), ?_⟩
            exact before_append_right _ (before_append_right _ i2)
      · exfalso
        obtain ⟨m, hm, r, hform, hr⟩ := hsh.form _ he
        have := same_first_name slash P n m rd1 r d e rest h2 (hsh.names m hm).2 hrd hr
          hdform hform hde
        exact h3 (this.1 ▸ hm)
    · obtain ⟨m, hm, r, hform, hr⟩ := hsh.form _ hd
      rcases List.mem_append.1 he with he | he
      · exfalso
        obtain ⟨re1, heform, hre⟩ := hfirst _ he
        have := same_first_name slash P m n r re1 d e rest (hsh.names m hm).2 h2 hr hre
          hform heform hde
        exact h3 (this.1.symm ▸ hm)
      · obtain ⟨i1, i2⟩ := ih d e ty rest hd he hde
        exact ⟨before_append_left _ i1, before_append_left _ i2⟩

/-- Every directory on the path of an entry that was passed to the callback,
the entry itself included when it is a directory, has passed the test `good`. -/
theorem Shape.ancestors {slash : Char} {good : List Char → Prop} {P : List Char}
    {ns : List (List Char)} {a b : List (List Char × dir_item_type)}
    (h : Shape slash good P ns a b) :
    ∀ e ∈ a, ∀ (r tail : List Char), e.1 = P ++ slash :: r ++ tail →
      ((∃ rest, tail = slash :: rest) ∨ (tail = [] ∧ e.2 = DIR_ITEM_DIR)) →
      good (P ++ slash :: r) := by
  induction h with
  | nil P => intro e he; cases he
  | skip P n ns a b _ _ _ _ ih => exact ih
  | file P n ns a b _ h2 _ _ ih =>
    intro e he r tail hpath htail
    rcases List.mem_cons.1 he with he | he
    · exfalso
      rw [he] at hpath htail
      simp only [List.append_assoc, List.cons_append, List.append_cancel_left_eq,
        List.cons.injEq, true_and] at hpath
      rcases htail with ⟨rest, ht⟩ | ⟨_, ht⟩
      · rw [ht] at hpath
        exact h2 (by rw [hpath]; simp)
      · cases ht
    · exact ih e he r tail hpath htail
  | dir P n ns a b ns2 a2 b2 own _ h2 _ hgood hown hsh2 _ ih2 ih =>
    intro e he r tail hpath htail
    rcases List.mem_append.1 he with he | he
    · rcases List.mem_append.1 he with he | he
      · rcases hown with ho | ho
        · rw [ho] at he; cases he
        · rw [ho] at he
          simp only [List.mem_singleton] at he
          rw [he] at hpath
          simp only [List.append_assoc, List.cons_append, List.append_cancel_left_eq,
            List.cons.injEq, true_and] at hpath
          rcases htail with ⟨rest, ht⟩ | ⟨ht, _⟩
          · exfalso
            rw [ht] at hpath
            exact h2 (by rw [hpath]; simp)
          · rw [ht, List.append_nil] at hpath
            rw [← hpath]
            exact hgood
      · obtain ⟨m2, _, r2, h1, _⟩ := hsh2.form e he
        have hsplit : n ++ slash :: (m2 ++ r2) = r ++ tail := by
          have := h1.symm.trans hpath
          simpa using this
        have htl : tail = [] ∨ ∃ rest, tail = slash :: rest := by
          rcases htail with ⟨rest, ht⟩ | ⟨ht, _⟩
          · exact Or.inr ⟨rest, ht⟩
          · exact Or.inl ht
        rcases seg_split slash n (m2 ++ r2) r tail h2 hsplit htl with ⟨e1, _⟩ | ⟨r3, e1, e2⟩
        · rw [e1]; exact hgood
        · have := ih2 e he r3 tail (by rw [h1]; simp [e2]) htail
          rw [e1]
          simpa using this
    · exact ih e he r tail hpath htail

/-! ## The flags -/

theorem same_walk_refl (f : Nat) : same_walk f f := ⟨rfl, rfl, rfl, rfl, rfl, rfl⟩

theorem xor_depth_first_and (f m : Nat) (h : DIR_WALK_DEPTH_FIRST &&& m = 0) :
    (f ^^^ DIR_WALK_DEPTH_FIRST) &&& m = f &&& m := by
  rw [Nat.and_xor_distrib_right, h, Nat.xor_zero]

theorem or_root_relative_and (f m : Nat) (h : DIR_WALK_ROOT_RELATIVE_PATHS &&& m = 0) :
    (f ||| DIR_WALK_ROOT_RELATIVE_PATHS) &&& m = f &&& m := by
  rw [Nat.and_distrib_right, h, Nat.or_zero]

theorem same_walk_toggle_depth_first (f : Nat) : same_walk f (f ^^^ DIR_WALK_DEPTH_FIRST) := by
  refine ⟨?_, ?_, ?_, ?_, ?_, ?_⟩ <;> rw [xor_depth_first_and _ _ (by decide)]

theorem same_walk_root_relative (f : Nat) :
    same_walk f (f ||| DIR_WALK_ROOT_RELATIVE_PATHS) := by
  refine ⟨?_, ?_, ?_, ?_, ?_, ?_⟩ <;> rw [or_root_relative_and _ _ (by decide)]

theorem offset_of_toggle_depth_first (f root : Nat) :
    offset_of (f ^^^ DIR_WALK_DEPTH_FIRST) root = offset_of f root := by
  unfold offset_of
  rw [xor_depth_first_and _ _ (by decide)]

theorem offset_of_root_relative (f root : Nat) (h : root + 1 < 2 ^ 32) :
    offset_of (f ||| DIR_WALK_ROOT_RELATIVE_PATHS) root = root + 1 := by
  unfold offset_of
  have : (f ||| DIR_WALK_ROOT_RELATIVE_PATHS) &&& DIR_WALK_ROOT_RELATIVE_PATHS ≠ 0 := by
    rw [Nat.and_distrib_right, Nat.and_self]
    intro h0
    have h7 := congrArg (fun x => Nat.testBit x 7) h0
    simp only [Nat.testBit_or, Nat.zero_testBit, Bool.or_eq_false_iff] at h7
    exact absurd h7.2 (by decide)
  rw [if_pos this, u32_of_lt h]

theorem offset_of_absolute (f root : Nat) (h : f &&& DIR_WALK_ROOT_RELATIVE_PATHS = 0) :
    offset_of f root = 0 := by
  unfold offset_of
  rw [if_neg (by simp [h])]

theorem depth_first_root_relative (f : Nat) :
    (f ||| DIR_WALK_ROOT_RELATIVE_PATHS) &&& DIR_WALK_DEPTH_FIRST = f &&& DIR_WALK_DEPTH_FIRST :=
  or_root_relative_and f _ (by decide)

/-! ## Paths from an offset on -/

theorem drop_eq_of_common_start (Q x2 y2 t : List Char) (off : Nat) (hoff : off ≤ Q.length)
    (h : (Q ++ x2).drop off = (Q ++ y2).drop off ++ t) : Q ++ x2 = Q ++ y2 ++ t := by
  rw [List.drop_append_of_le_length hoff, List.drop_append_of_le_length hoff,
    List.append_assoc] at h
  have := List.append_cancel_left h
  rw [this, List.append_assoc]

theorem before_map {α β : Type} (f : α → β) {x y : α} {l : List α} (h : before x y l) :
    before (f x) (f y) (l.map f) := by
  obtain ⟨l1, l2, l3, h⟩ := h
  exact ⟨l1.map f, l2.map f, l3.map f, by rw [h]; simp⟩

theorem render_zero (e : List Char × dir_item_type) : render 0 e = ⟨e.1, e.1.length, e.2⟩ := by
  simp [render]

/-- The paths that a walk hands out are pairwise different, from whatever offset
inside the root and its separator they are handed out. -/
theorem Shape.nodup_render {slash : Char} {good : List Char → Prop} {P : List Char}
    {ns : List (List Char)} {a b : List (List Char × dir_item_type)}
    (h : Shape slash good P ns a b) (off : Nat) (hoff : off ≤ P.length + 1)
    (l : List (List Char × dir_item_type)) (hl : l.Perm a) :
    ((l.map (render off)).map walk_event.path).Nodup := by
  have hnd : (l.map Prod.fst).Nodup := (hl.map Prod.fst).nodup_iff.2 h.nodup
  have e : (l.map (render off)).map walk_event.path = (l.map Prod.fst).map (List.drop off) := by
    simp [render, List.map_map, Function.comp_def]
  rw [e]
  refine List.Nodup.map_on ?_ hnd
  intro x hx y hy hxy
  obtain ⟨ex, hex, rfl⟩ := List.mem_map.1 hx
  obtain ⟨ey, hey, rfl⟩ := List.mem_map.1 hy
  obtain ⟨n1, _, r1, h1, _⟩ := h.form ex (hl.subset hex)
  obtain ⟨n2, _, r2, h2, _⟩ := h.form ey (hl.subset hey)
  have e1 : ex.1 = (P ++ [slash]) ++ (n1 ++ r1) := by rw [h1]; simp
  have e2 : ey.1 = (P ++ [slash]) ++ (n2 ++ r2) := by rw [h2]; simp
  rw [e1, e2] at hxy ⊢
  have := drop_eq_of_common_start (P ++ [slash]) (n1 ++ r1) (n2 ++ r2) [] off (by simpa using hoff)
    (by simpa using hxy)
  simpa using this

/-! ## The pattern tests of the walk and `dir_glob_match` -/

theorem matches_pattern_glob (g X : List Char) (gde : Option Nat) (hg : g.length < 2 ^ 32)
    (hgde : glob_end_of (some g) = .ret gde)
    (h : matches_pattern (some g) gde X = .ret true) :
    dir_glob_match g X = .ret DIR_GLOB_MATCH := by
  unfold glob_end_of at hgde
  obtain ⟨c, hc, hgde⟩ := Exec.bind_eq_ret hgde
  unfold matches_pattern at h
  obtain ⟨r, hr, h⟩ := Exec.bind_eq_ret h
  simp only [Exec.pure_eq, Exec.ret.injEq, decide_eq_true_eq] at h
  subst h
  by_cases hc0 : c ≠ NUL
  · rw [if_pos hc0] at hgde
    obtain ⟨n, hn, hgde⟩ := Exec.bind_eq_ret hgde
    simp only [Exec.pure_eq, Exec.ret.injEq] at hgde
    subst hgde
    unfold dir_glob_match dir_strlen32
    rw [hn]
    have hn2 : n < 2 ^ 32 := by
      unfold strlen at hn
      obtain ⟨s, tail, h1, _, h3⟩ := strlen_go_ret hn
      have := congrArg List.length h1
      simp at this
      omega
    simp only [Exec.ret_bind, Exec.pure_eq, Nat.mod_eq_of_lt hn2]
    exact hr
  · exfalso
    rw [if_neg hc0] at hgde
    simp only [Exec.pure_eq, Exec.ret.injEq] at hgde
    subst hgde
    have hc1 : c = NUL := by
      by_contra h
      exact hc0 h
    subst hc1
    rw [dir_glob_match_impl] at hr
    simp [hc] at hr

/-! ## File systems given by a table -/

theorem lookup_mem {α β : Type} [BEq α] [LawfulBEq α] (p : α) (l : β) :
    ∀ (table : List (α × β)), table.lookup p = some l → (p, l) ∈ table := by
  intro table
  induction table with
  | nil => intro h; cases h
  | cons x t ih =>
    intro h
    obtain ⟨k, v⟩ := x
    by_cases hk : p == k
    · rw [List.lookup_cons, hk] at h
      simp only [Option.some.injEq] at h
      have hk2 : p = k := by simpa using hk
      rw [hk2, h]
      exact List.mem_cons_self _ _
    · have hk3 : (p == k) = false := by simpa using hk
      rw [List.lookup_cons, hk3] at h
      exact List.mem_cons_of_mem _ (ih h)

theorem tree_ok_of_table (table : List (List Char × List dirent)) (slash : Char)
    (h : ∀ x ∈ table, listing_ok slash x.2) : tree_ok (fs_of_table table) slash := by
  refine ⟨?_, ?_⟩
  · intro p l hl
    exact h (p, l) (lookup_mem p l table hl)
  · intro p hp
    cases hp

theorem dir_walk_append_forward (slash y : Char) (P R n slack : List Char)
    (hlen : (P ++ y :: R).length < 2 ^ 32) (hn : n.length + 1 < 2 ^ 32)
    (hroom : n.length + 1 ≤ R.length) :
    dir_walk_append slash (P ++ y :: R) P.length (n ++ NUL :: slack) n.length
      = .ret ((P ++ slash :: n) ++ NUL :: R.drop (n.length + 1)) := by
  unfold dir_walk_append
  rw [wr_append]
  simp only [Exec.ret_bind]
  simp only [List.length_append, List.length_cons] at hlen
  rw [u32_of_lt (show P.length + 1 < 2 ^ 32 by omega), u32_of_lt hn]
  have e1 : P ++ slash :: R = (P ++ [slash]) ++ R.take (n.length + 1) ++ R.drop (n.length + 1) := by
    simp
  have e2 : n ++ NUL :: slack = [] ++ (n ++ [NUL]) ++ slack := by simp
  have e3 : P.length + 1 = (P ++ [slash]).length := by simp
  have e4 : n.length + 1 = (n ++ [NUL]).length := by simp
  have hm := memcpy_append (P ++ [slash]) (R.take (n.length + 1)) (R.drop (n.length + 1)) []
    (n ++ [NUL]) slack (by simp; omega)
  rw [← e1, ← e2, ← e3, ← e4] at hm
  simp only [List.length_nil] at hm
  rw [hm]
  simp

theorem split_at_cell (m : List Char) (i : Nat) (h : i < m.length) :
    ∃ P y R, m = P ++ y :: R ∧ P.length = i ∧ R.length + i + 1 = m.length := by
  refine ⟨m.take i, m[i], m.drop (i + 1), ?_, ?_, ?_⟩
  · rw [← List.drop_eq_getElem_cons h, List.take_append_drop]
  · simp; omega
  · simp; omega

theorem dir_walk_append_length {slash : Char} {pb : List Char} {pl : Nat} {item_name : List Char}
    {item_len : Nat} {b2 : List Char}
    (h : dir_walk_append slash pb pl item_name item_len = .ret b2) : b2.length = pb.length := by
  unfold dir_walk_append at h
  obtain ⟨b1, h1, h2⟩ := Exec.bind_eq_ret h
  rw [memcpy_length h2, wr_length h1]

/-- The recursive call is the only use that `dir_walk_visit` makes of `recurse`,
with the buffer it was handed and the new `path_len` and `path_buffer_size`. -/
theorem dir_walk_visit_congr (rec1 rec2 : List Char → Nat → Nat → Exec walk_out) (root : Nat)
    (gd : Option (List Char)) (gde : Option Nat) (gf : Option (List Char)) (gfe : Option Nat)
    (flags : Nat) (swd sccd sccf : Bool) (off pl sz : Nat) (item_name : List Char)
    (item_len : Nat) (is_dir : Bool) (b2 : List Char)
    (h : rec1 b2 (u32 (u32 (pl + item_len) + 1)) (usub (usub sz item_len) 1)
      = rec2 b2 (u32 (u32 (pl + item_len) + 1)) (usub (usub sz item_len) 1)) :
    dir_walk_visit rec1 root gd gde gf gfe flags swd sccd sccf off pl sz item_name item_len
        is_dir b2
      = dir_walk_visit rec2 root gd gde gf gfe flags swd sccd sccf off pl sz item_name item_len
        is_dir b2 := by
  unfold dir_walk_visit
  simp only [h]

theorem in_buffer_step (pl sz il : Nat) (hsum : pl + sz = 4096) (hil : il + 2 ≤ sz) :
    u32 (u32 (pl + il) + 1) = pl + il + 1 ∧ usub (usub sz il) 1 = sz - il - 1 ∧
      u32 (il + 2) = il + 2 ∧ pl + il + 1 < 4096 := by
  have h1 : u32 (pl + il) = pl + il := u32_of_lt (by omega)
  have h2 : u32 (pl + il + 1) = pl + il + 1 := u32_of_lt (by omega)
  have h3 : usub sz il = sz - il := usub_of_le (by omega) (by omega)
  have h4 : usub (sz - il) 1 = sz - il - 1 := usub_of_le (by omega) (by omega)
  have h5 : u32 (il + 2) = il + 2 := u32_of_lt (by omega)
  rw [h1, h2, h3, h4, h5]
  exact ⟨rfl, rfl, rfl, by omega⟩

/-- The first call: `dir_walkex` calls `dir_walk_impl` with the tidied buffer,
`path_len` and `sizeof( path_buffer ) - path_len`, which are within the
invariant. -/
theorem dir_walkex_first_call (path : List Char) (slash : Char) (pb b1 b2 : List Char)
    (len pl : Nat) (hpb : pb.length = 4096) (hs : slash ≠ NUL)
    (hmem : memcpy pb 0 path 0 (u32 (len + 1)) = .ret b1)
    (htidy : dir_path_tidy b1 slash len = .ret (b2, pl)) :
    in_buffer b2 pl (4096 - pl) ∧ NUL ∈ b2.drop pl := by
  have hb1 := memcpy_length hmem
  obtain ⟨_, P, R, _, _, _, hb2, hpl, hb2len⟩ := dir_path_tidy_post b1 slash len b2 pl hs
    (by omega) htidy
  have h1 : b2.length = 4096 := by omega
  have h2 : pl < 4096 := by
    rw [hb2] at h1
    simp only [List.length_append, List.length_cons] at h1
    omega
  refine ⟨⟨h1, by omega, by omega⟩, ?_⟩
  rw [hb2, hpl, List.drop_left]
  exact List.mem_cons_self _ _

theorem dir_walk_visit_length (recurse : List Char → Nat → Nat → Exec walk_out)
    (hrec : ∀ b p s o, recurse b p s = .ret o → o.path_buffer.length = b.length) (root : Nat)
    (gd : Option (List Char)) (gde : Option Nat) (gf : Option (List Char)) (gfe : Option Nat)
    (flags : Nat) (swd sccd sccf : Bool) (off pl sz : Nat) (item_name : List Char)
    (item_len : Nat) (is_dir : Bool) (b2 b3 : List Char) (calls : List walk_event)
    (h : dir_walk_visit recurse root gd gde gf gfe flags swd sccd sccf off pl sz item_name
      item_len is_dir b2 = .ret (b3, calls)) : b3.length = b2.length := by
  have hsub : ∀ sub : walk_out,
      (if swd = true then
          recurse b2 (u32 (u32 (pl + item_len) + 1)) (usub (usub sz item_len) 1)
        else pure ⟨DIR_ERROR_OK, false, b2, []⟩) = Exec.ret sub →
      sub.path_buffer.length = b2.length := by
    intro sub hs
    split at hs
    · exact hrec _ _ _ _ hs
    · simp only [Exec.pure_eq, Exec.ret.injEq] at hs
      rw [← hs]
  unfold dir_walk_visit at h
  simp only at h
  split at h
  · obtain ⟨m, _, h⟩ := Exec.bind_eq_ret h
    split at h
    · simp only [Exec.pure_eq, Exec.ret.injEq, Prod.mk.injEq] at h
      rw [← h.1]
    · split at h
      · obtain ⟨sub, hs, h⟩ := Exec.bind_eq_ret h
        obtain ⟨own, _, h⟩ := Exec.bind_eq_ret h
        simp only [Exec.pure_eq, Exec.ret.injEq, Prod.mk.injEq] at h
        rw [← h.1]
        exact hsub sub hs
      · obtain ⟨own, _, h⟩ := Exec.bind_eq_ret h
        obtain ⟨sub, hs, h⟩ := Exec.bind_eq_ret h
        simp only [Exec.pure_eq, Exec.ret.injEq, Prod.mk.injEq] at h
        rw [← h.1]
        exact hsub sub hs
  · split at h
    · obtain ⟨m, _, h⟩ := Exec.bind_eq_ret h
      split at h
      · simp only [Exec.pure_eq, Exec.ret.injEq, Prod.mk.injEq] at h
        rw [← h.1]
      · obtain ⟨e, _, h⟩ := Exec.bind_eq_ret h
        simp only [Exec.pure_eq, Exec.ret.injEq, Prod.mk.injEq] at h
        rw [← h.1]
    · simp only [Exec.pure_eq, Exec.ret.injEq, Prod.mk.injEq] at h
      rw [← h.1]

theorem dir_walk_body_length (fs : filesystem)
    (recurse : List Char → Nat → Nat → Exec walk_out)
    (hrec : ∀ b p s o, recurse b p s = .ret o → o.path_buffer.length = b.length) (root : Nat)
    (gd : Option (List Char)) (gde : Option Nat) (gf : Option (List Char)) (gfe : Option Nat)
    (flags : Nat) (slash : Char) (swd sidd sidf sccd sccf : Bool) (off pl sz : Nat)
    (ent : dirent) (pb : List Char) (bo : body_out)
    (h : dir_walk_body fs recurse root gd gde gf gfe flags slash swd sidd sidf sccd sccf off pl
      sz ent pb = .ret bo) :
    (∀ b calls, bo = .next b calls → b.length = pb.length) ∧
      (∀ out, bo = .leave out → out.path_buffer.length = pb.length) := by
  unfold dir_walk_body at h
  simp only at h
  obtain ⟨probe, _, h⟩ := Exec.bind_eq_ret h
  cases probe with
  | none =>
    simp only [Exec.pure_eq, Exec.ret.injEq] at h
    subst h
    exact ⟨fun b calls hb => (by cases hb), fun out ho => (by cases ho; rfl)⟩
  | some is_dir =>
    simp only at h
    obtain ⟨skip, _, h⟩ := Exec.bind_eq_ret h
    split at h
    · simp only [Exec.pure_eq, Exec.ret.injEq] at h
      subst h
      exact ⟨fun b calls hb => (by cases hb; rfl), fun out ho => (by cases ho)⟩
    · obtain ⟨item_len, _, h⟩ := Exec.bind_eq_ret h
      split at h
      · simp only [Exec.pure_eq, Exec.ret.injEq] at h
        subst h
        exact ⟨fun b calls hb => (by cases hb), fun out ho => (by cases ho; rfl)⟩
      · obtain ⟨b2, hb2, h⟩ := Exec.bind_eq_ret h
        obtain ⟨⟨b3, calls⟩, hv, h⟩ := Exec.bind_eq_ret h
        simp only [Exec.pure_eq, Exec.ret.injEq] at h
        subst h
        refine ⟨fun b calls hb => ?_, fun out ho => (by cases ho)⟩
        cases hb
        rw [dir_walk_visit_length recurse hrec _ _ _ _ _ _ _ _ _ _ _ _ _ _ _ _ _ _ hv,
          dir_walk_append_length hb2]

theorem dir_walk_loop_length (body : dirent → List Char → Exec body_out)
    (hbody : ∀ ent pb bo, body ent pb = .ret bo →
      (∀ b calls, bo = .next b calls → b.length = pb.length) ∧
        (∀ out, bo = .leave out → out.path_buffer.length = pb.length)) :
    ∀ (entries : List dirent) (pb : List Char) (out : walk_out),
      dir_walk_loop body entries pb = .ret out → out.path_buffer.length = pb.length := by
  intro entries
  induction entries with
  | nil =>
    intro pb out h
    simp only [dir_walk_loop, Exec.ret.injEq] at h
    rw [← h]
  | cons ent rest ih =>
    intro pb out h
    rw [dir_walk_loop] at h
    obtain ⟨step, hstep, h⟩ := Exec.bind_eq_ret h
    have hb := hbody ent pb step hstep
    cases step with
    | leave o =>
      simp only [Exec.pure_eq, Exec.ret.injEq] at h
      rw [← h]
      exact hb.2 o rfl
    | next b calls =>
      simp only at h
      obtain ⟨o2, hl, h⟩ := Exec.bind_eq_ret h
      simp only [Exec.pure_eq, Exec.ret.injEq] at h
      rw [← h]
      simp only
      rw [ih b o2 hl, hb.1 b calls rfl]

/-- A call of `dir_walk_impl` returns the path buffer with as many cells as it
got. -/
theorem dir_walk_impl_length (fs : filesystem) (root : Nat) (gd : Option (List Char))
    (gde : Option Nat) (gf : Option (List Char)) (gfe : Option Nat) (flags : Nat) :
    ∀ (fuel : Nat) (pb : List Char) (pl sz : Nat) (out : walk_out),
      dir_walk_impl fs root gd gde gf gfe flags fuel pb pl sz = .ret out →
      out.path_buffer.length = pb.length := by
  intro fuel
  induction fuel with
  | zero =>
    intro pb pl sz out h
    simp [dir_walk_impl] at h
  | succ fuel ih =>
    intro pb pl sz out h
    rw [dir_walk_impl] at h
    obtain ⟨name, _, h⟩ := Exec.bind_eq_ret h
    cases hod : fs.opendir name with
    | none =>
      rw [hod] at h
      simp only [Exec.pure_eq, Exec.ret.injEq] at h
      rw [← h]
    | some entries =>
      rw [hod] at h
      simp only at h
      obtain ⟨o, hloop, h⟩ := Exec.bind_eq_ret h
      have hl := dir_walk_loop_length _
        (fun ent b bo hb => dir_walk_body_length fs _ ih _ _ _ _ _ _ _ _ _ _ _ _ _ _ _ ent b bo hb)
        entries pb o hloop
      split at h
      · simp only [Exec.pure_eq, Exec.ret.injEq] at h
        rw [← h]
        exact hl
      · obtain ⟨b, hw, h⟩ := Exec.bind_eq_ret h
        simp only [Exec.pure_eq, Exec.ret.injEq] at h
        rw [← h]
        simp only
        rw [wr_length hw, hl]

/-! ## The walk returns -/

theorem mem_drop_of_le {x : Char} {l : List Char} {i j : Nat} (hij : i ≤ j)
    (h : x ∈ l.drop j) : x ∈ l.drop i := by
  have : l.drop j = (l.drop i).drop (j - i) := by
    rw [List.drop_drop]
    congr 1
    omega
  rw [this] at h
  exact List.mem_of_mem_drop h

theorem c_string_go_returns (cells : List Char) (h : NUL ∈ cells) :
    ∃ s, c_string_go cells = .ret s := by
  induction cells with
  | nil => cases h
  | cons x xs ih =>
    rw [c_string_go]
    by_cases hx : x = NUL
    · exact ⟨[], by rw [if_pos hx]⟩
    · rw [if_neg hx]
      have hxs : NUL ∈ xs := by
        rcases List.mem_cons.1 h with h | h
        · exact absurd h.symm hx
        · exact h
      obtain ⟨s, hs⟩ := ih hxs
      exact ⟨x :: s, by rw [hs]; rfl⟩

theorem c_string_at_returns (m : List Char) (i : Nat) (h : NUL ∈ m.drop i) :
    ∃ s, c_string_at m i = .ret s :=
  c_string_go_returns _ h

theorem rd_returns (m : List Char) (i : Nat) (h : i < m.length) : ∃ c, rd m i = .ret c := by
  obtain ⟨P, y, R, hm, hP, _⟩ := split_at_cell m i h
  exact ⟨y, by rw [hm, ← hP]; exact rd_append P y R⟩

theorem wr_returns (m : List Char) (i : Nat) (c : Char) (h : i < m.length) :
    ∃ m2, wr m i c = .ret m2 := by
  obtain ⟨P, y, R, hm, hP, _⟩ := split_at_cell m i h
  exact ⟨P ++ c :: R, by rw [hm, ← hP]; exact wr_append P y c R⟩

theorem lt_length_of_mem_drop {x : Char} {l : List Char} {i : Nat} (h : x ∈ l.drop i) :
    i < l.length := by
  by_contra hc
  rw [List.drop_of_length_le (by omega)] at h
  cases h

theorem strcmp_go_returns (a : List Char) :
    ∀ (ys : List Char) (i : Nat), NUL ∈ a.drop i → ys.getLast? = some NUL →
      ∃ r, strcmp_go a i ys = .ret r := by
  intro ys
  induction ys with
  | nil => intro i _ h; cases h
  | cons y ys ih =>
    intro i ha hy
    obtain ⟨x, hx⟩ := rd_returns a i (lt_length_of_mem_drop ha)
    rw [strcmp_go, hx]
    simp only [Exec.ret_bind]
    by_cases hxy : x ≠ y
    · rw [if_pos hxy]
      exact ⟨_, rfl⟩
    · rw [if_neg hxy]
      by_cases hx0 : x = NUL
      · rw [if_pos hx0]
        exact ⟨_, rfl⟩
      · rw [if_neg hx0]
        have hys : ys.getLast? = some NUL := by
          cases ys with
          | nil =>
            exfalso
            simp only [List.getLast?_singleton, Option.some.injEq] at hy
            have : x = y := by
              by_contra h
              exact hxy h
            exact hx0 (this.trans hy)
          | cons y2 ys2 =>
            rw [List.getLast?_cons_cons] at hy
            exact hy
        refine ih (i + 1) ?_ hys
        obtain ⟨P, R, hm, hP⟩ := rd_ret hx
        subst hP
        rw [hm, List.drop_left] at ha
        have e : P ++ x :: R = (P ++ [x]) ++ R := by simp
        have e2 : P.length + 1 = (P ++ [x]).length := by simp
        rw [hm, e, e2, List.drop_left]
        rcases List.mem_cons.1 ha with h | h
        · exact absurd h.symm hx0
        · exact h

theorem dir_walk_skips_returns (sidd sidf : Bool) (item_name : List Char) (is_dir : Bool)
    (h : NUL ∈ item_name) : ∃ b, dir_walk_skips sidd sidf item_name is_dir = .ret b := by
  have h0 : NUL ∈ item_name.drop 0 := by rw [List.drop_zero]; exact h
  obtain ⟨c1, hc1⟩ := strcmp_go_returns item_name ['.', NUL] 0 h0 rfl
  obtain ⟨c2, hc2⟩ := strcmp_go_returns item_name ['.', '.', NUL] 0 h0 rfl
  obtain ⟨first, hfirst⟩ := rd_returns item_name 0 (lt_length_of_mem_drop h0)
  unfold dir_walk_skips strcmp
  rw [hc1]
  simp only [Exec.ret_bind]
  by_cases hz : c1 = 0
  · rw [if_pos hz]
    simp only [Exec.pure_eq, Exec.ret_bind, hz, true_or, if_true]
    exact ⟨_, rfl⟩
  · rw [if_neg hz, hc2]
    simp only [Exec.ret_bind]
    split
    · exact ⟨_, rfl⟩
    · rw [hfirst]
      simp only [Exec.ret_bind]
      split
      · exact ⟨_, rfl⟩
      · split <;> exact ⟨_, rfl⟩

theorem dir_walk_is_dir_returns (fs : filesystem) (ent : dirent) (pb : List Char)
    (h : NUL ∈ pb) : ∃ probe, dir_walk_is_dir fs ent pb = .ret probe := by
  unfold dir_walk_is_dir
  split
  · obtain ⟨s, hs⟩ := c_string_at_returns pb 0 (by rw [List.drop_zero]; exact h)
    rw [hs]
    exact ⟨_, rfl⟩
  · exact ⟨_, rfl⟩

theorem callback_returns (pb : List Char) (off cur : Nat) (type : dir_item_type)
    (h : NUL ∈ pb.drop off) : ∃ e, callback pb off cur type = .ret e := by
  unfold callback
  obtain ⟨s, hs⟩ := c_string_at_returns pb off h
  rw [hs]
  exact ⟨_, rfl⟩

/-- The visit of an entry returns, with the string in the buffer not shorter
than before, when the pattern tests and the recursive call do. -/
theorem dir_walk_visit_returns (recurse : List Char → Nat → Nat → Exec walk_out) (root : Nat)
    (gd : Option (List Char)) (gde : Option Nat) (gf : Option (List Char)) (gfe : Option Nat)
    (flags : Nat) (swd sccd sccf : Bool) (off pl sz : Nat) (item_name : List Char)
    (item_len : Nat) (is_dir : Bool) (b2 : List Char) (cur : Nat)
    (hgd : ∀ X, ∃ r, matches_pattern gd gde X = .ret r)
    (hgf : ∀ X, ∃ r, matches_pattern gf gfe X = .ret r)
    (hcur : u32 (u32 (pl + item_len) + 1) = cur) (hoff : off ≤ cur)
    (hnul : NUL ∈ b2.drop cur)
    (hrec : ∃ o, recurse b2 cur (usub (usub sz item_len) 1) = .ret o ∧
      o.path_buffer.length = b2.length ∧ NUL ∈ o.path_buffer.drop cur) :
    ∃ b3 calls, dir_walk_visit recurse root gd gde gf gfe flags swd sccd sccf off pl sz
        item_name item_len is_dir b2 = .ret (b3, calls) ∧
      b3.length = b2.length ∧ NUL ∈ b3.drop cur := by
  have hsub : ∃ sub : walk_out,
      (if swd = true then
          recurse b2 (u32 (u32 (pl + item_len) + 1)) (usub (usub sz item_len) 1)
        else pure ⟨DIR_ERROR_OK, false, b2, []⟩) = Exec.ret sub ∧
      sub.path_buffer.length = b2.length ∧ NUL ∈ sub.path_buffer.drop cur := by
    split
    · rw [hcur]; exact hrec
    · exact ⟨_, rfl, rfl, hnul⟩
  obtain ⟨sub, hs, hsl, hsn⟩ := hsub
  have hown : ∀ b : List Char, NUL ∈ b.drop cur → ∃ own : List walk_event,
      (if sccd = true then do
          let e ← callback b off (u32 (u32 (pl + item_len) + 1)) DIR_ITEM_DIR
          pure [e]
        else pure []) = Exec.ret own := by
    intro b hb
    split
    · obtain ⟨e, he⟩ := callback_returns b off (u32 (u32 (pl + item_len) + 1)) DIR_ITEM_DIR
        (mem_drop_of_le hoff hb)
      rw [he]
      exact ⟨_, rfl⟩
    · exact ⟨_, rfl⟩
  unfold dir_walk_visit
  simp only
  split
  · obtain ⟨m, hm⟩ := hgd (b2.drop (u32 (root + 1)))
    rw [hm]
    simp only [Exec.ret_bind]
    split
    · exact ⟨_, _, rfl, rfl, hnul⟩
    · split
      · rw [hs]
        simp only [Exec.ret_bind]
        obtain ⟨own, ho⟩ := hown sub.path_buffer hsn
        rw [ho]
        exact ⟨_, _, rfl, hsl, hsn⟩
      · obtain ⟨own, ho⟩ := hown b2 hnul
        rw [ho]
        simp only [Exec.ret_bind]
        rw [hs]
        exact ⟨_, _, rfl, hsl, hsn⟩
  · split
    · obtain ⟨m, hm⟩ := hgf item_name
      rw [hm]
      simp only [Exec.ret_bind]
      split
      · exact ⟨_, _, rfl, rfl, hnul⟩
      · obtain ⟨e, he⟩ := callback_returns b2 off (u32 (u32 (pl + item_len) + 1)) DIR_ITEM_FILE
          (mem_drop_of_le hoff hnul)
        rw [he]
        exact ⟨_, _, rfl, rfl, hnul⟩
    · exact ⟨_, _, rfl, rfl, hnul⟩

theorem dir_walk_body_returns (fs : filesystem)
    (recurse : List Char → Nat → Nat → Exec walk_out) (root : Nat)
    (gd : Option (List Char)) (gde : Option Nat) (gf : Option (List Char)) (gfe : Option Nat)
    (flags : Nat) (slash : Char) (swd sidd sidf sccd sccf : Bool) (off pl sz : Nat)
    (ent : dirent) (pb : List Char)
    (hin : in_buffer pb pl sz) (hnul : NUL ∈ pb.drop pl)
    (hent : NUL ∈ ent.d_name ∧ ent.d_name.length ≤ 256) (hoff : off ≤ pl + 1)
    (hgd : ∀ X, ∃ r, matches_pattern gd gde X = .ret r)
    (hgf : ∀ X, ∃ r, matches_pattern gf gfe X = .ret r)
    (hrec : ∀ b p s, in_buffer b p s → s < sz → pl < p → NUL ∈ b.drop p →
      ∃ o, recurse b p s = .ret o ∧ o.path_buffer.length = b.length ∧
        NUL ∈ o.path_buffer.drop p) :
    ∃ bo, dir_walk_body fs recurse root gd gde gf gfe flags slash swd sidd sidf sccd sccf off
        pl sz ent pb = .ret bo ∧
      ((∃ b calls, bo = .next b calls ∧ b.length = pb.length ∧ NUL ∈ b.drop pl) ∨
        ∃ out, bo = .leave out ∧ out.path_buffer = pb) := by
  obtain ⟨hlen, hsum, hsz1⟩ := hin
  obtain ⟨hnulname, hd256⟩ := hent
  obtain ⟨probe, hprobe⟩ := dir_walk_is_dir_returns fs ent pb (List.mem_of_mem_drop hnul)
  unfold dir_walk_body
  simp only [hprobe, Exec.ret_bind]
  cases probe with
  | none => exact ⟨_, rfl, Or.inr ⟨_, rfl, rfl⟩⟩
  | some is_dir =>
    simp only
    obtain ⟨skip, hskip⟩ := dir_walk_skips_returns sidd sidf ent.d_name is_dir hnulname
    rw [hskip]
    simp only [Exec.ret_bind]
    cases skip with
    | true => exact ⟨_, rfl, Or.inl ⟨_, _, rfl, rfl, hnul⟩⟩
    | false =>
      obtain ⟨slack, hdn, hn0⟩ := entry_decomp ent.d_name hnulname
      generalize hname : ent.d_name.takeWhile (fun c => decide (c ≠ NUL)) = n at hdn hn0
      have hnlen : n.length + 1 ≤ 256 := by
        have := congrArg List.length hdn
        simp only [List.length_append, List.length_cons] at this
        omega
      have hsl : dir_strlen32 ent.d_name 0 = .ret n.length := by
        rw [hdn]
        exact dir_strlen32_cstr n slack hn0 (by omega)
      rw [hsl]
      simp only [Exec.ret_bind, Bool.false_eq_true, if_false]
      by_cases hsz : sz < n.length + 2
      · rw [u32_of_lt (show n.length + 2 < 2 ^ 32 by omega), if_pos hsz]
        exact ⟨_, rfl, Or.inr ⟨_, rfl, rfl⟩⟩
      · have hil : n.length + 2 ≤ sz := by omega
        obtain ⟨e1, e2, e3, e4⟩ := in_buffer_step pl sz n.length hsum hil
        rw [e3, if_neg hsz]
        obtain ⟨P, y, R, hpb, hP, hR⟩ := split_at_cell pb pl (by omega)
        have happ : dir_walk_append slash pb pl ent.d_name n.length
            = .ret ((P ++ slash :: n) ++ NUL :: R.drop (n.length + 1)) := by
          rw [hpb, ← hP, hdn]
          exact dir_walk_append_forward slash y P R n slack (by rw [← hpb]; omega) (by omega)
            (by omega)
        have hb2 := dir_walk_append_length happ
        rw [happ]
        simp only [Exec.ret_bind]
        have hcurlen : (P ++ slash :: n).length = pl + n.length + 1 := by
          simp; omega
        have hnul2 : NUL ∈ ((P ++ slash :: n) ++ NUL :: R.drop (n.length + 1)).drop
            (pl + n.length + 1) := by
          rw [← hcurlen, List.drop_left]
          exact List.mem_cons_self _ _
        obtain ⟨o, ho, hol, hon⟩ := hrec ((P ++ slash :: n) ++ NUL :: R.drop (n.length + 1))
          (pl + n.length + 1) (sz - n.length - 1) ⟨by rw [hb2]; exact hlen, by omega, by omega⟩
          (by omega) (by omega) hnul2
        obtain ⟨b3, calls, hv, hb3, hn3⟩ := dir_walk_visit_returns recurse root gd gde gf gfe
          flags swd sccd sccf off pl sz ent.d_name n.length is_dir
          ((P ++ slash :: n) ++ NUL :: R.drop (n.length + 1)) (pl + n.length + 1) hgd hgf e1
          (by omega) hnul2 ⟨o, by rw [e2]; exact ho, hol, hon⟩
        rw [hv]
        refine ⟨_, rfl, Or.inl ⟨b3, calls, rfl, ?_, ?_⟩⟩
        · rw [hb3, hb2]
        · exact mem_drop_of_le (by omega) hn3

theorem dir_walk_loop_returns (body : dirent → List Char → Exec body_out) (pl len : Nat)
    (entries : List dirent)
    (hbody : ∀ ent ∈ entries, ∀ pb, pb.length = len → NUL ∈ pb.drop pl →
      ∃ bo, body ent pb = .ret bo ∧
        ((∃ b calls, bo = .next b calls ∧ b.length = pb.length ∧ NUL ∈ b.drop pl) ∨
          ∃ out, bo = .leave out ∧ out.path_buffer = pb)) :
    ∀ pb, pb.length = len → NUL ∈ pb.drop pl →
      ∃ out, dir_walk_loop body entries pb = .ret out ∧ out.path_buffer.length = len ∧
        NUL ∈ out.path_buffer.drop pl := by
  induction entries with
  | nil =>
    intro pb hl hn
    exact ⟨_, rfl, hl, hn⟩
  | cons ent rest ih =>
    intro pb hl hn
    obtain ⟨bo, hbo, hcase⟩ := hbody ent (List.mem_cons_self _ _) pb hl hn
    rw [dir_walk_loop, hbo]
    simp only [Exec.ret_bind]
    rcases hcase with ⟨b, calls, e, hbl, hbn⟩ | ⟨out, e, hout⟩
    · subst e
      simp only
      obtain ⟨o2, ho2, hl2, hn2⟩ := ih (fun e he => hbody e (List.mem_cons_of_mem _ he)) b
        (by rw [hbl, hl]) hbn
      rw [ho2]
      exact ⟨_, rfl, hl2, hn2⟩
    · subst e
      simp only
      refine ⟨_, rfl, ?_, ?_⟩
      · rw [hout]; exact hl
      · rw [hout]; exact hn

/-- A call of `dir_walk_impl` within the invariant, on a buffer that holds a
string of at least `path_len` characters, returns: no read or write leaves an
array and the recursion is never deeper than `path_buffer_size`, when the
entries hold strings and the pattern tests return. -/
theorem dir_walk_impl_returns (fs : filesystem) (root : Nat) (gd : Option (List Char))
    (gde : Option Nat) (gf : Option (List Char)) (gfe : Option Nat) (flags : Nat)
    (hfs : ∀ p l, fs.opendir p = some l →
      ∀ ent ∈ l, NUL ∈ ent.d_name ∧ ent.d_name.length ≤ 256)
    (hgd : ∀ X, ∃ r, matches_pattern gd gde X = .ret r)
    (hgf : ∀ X, ∃ r, matches_pattern gf gfe X = .ret r) :
    ∀ (fuel : Nat) (pb : List Char) (pl sz : Nat), in_buffer pb pl sz → sz ≤ fuel →
      root ≤ pl → NUL ∈ pb.drop pl →
      ∃ out, dir_walk_impl fs root gd gde gf gfe flags fuel pb pl sz = .ret out ∧
        out.path_buffer.length = pb.length ∧ NUL ∈ out.path_buffer.drop pl := by
  intro fuel
  induction fuel with
  | zero =>
    intro pb pl sz hin hf _ _
    have := hin.2.2
    omega
  | succ fuel ih =>
    intro pb pl sz hin hf hroot hnul
    obtain ⟨name, hname⟩ := c_string_at_returns pb 0
      (by rw [List.drop_zero]; exact List.mem_of_mem_drop hnul)
    rw [dir_walk_impl]
    simp only [hname, Exec.ret_bind]
    cases hod : fs.opendir name with
    | none => exact ⟨_, rfl, rfl, hnul⟩
    | some entries =>
      simp only
      have hoff : (if flags &&& DIR_WALK_ROOT_RELATIVE_PATHS ≠ 0 then u32 (root + 1) else 0)
          ≤ pl + 1 := by
        have := offset_of_le flags root
        unfold offset_of at this
        omega
      obtain ⟨out, hloop, hl, hn⟩ := dir_walk_loop_returns _ pl pb.length entries
        (fun ent he b hb hbn => dir_walk_body_returns fs _ root gd gde gf gfe flags _ _ _ _ _ _
          _ pl sz ent b ⟨by rw [hb]; exact hin.1, hin.2.1, hin.2.2⟩ hbn (hfs name entries hod ent he)
          hoff hgd hgf
          (fun b2 p s hin2 hs hp hn2 => ih b2 p s hin2 (by omega) (by omega) hn2))
        pb rfl hnul
      rw [hloop]
      simp only [Exec.ret_bind]
      split
      · exact ⟨_, rfl, hl, hn⟩
      · obtain ⟨b, hb⟩ := wr_returns out.path_buffer pl NUL (by
          have := hin.1
          have := hin.2.1
          have := hin.2.2
          omega)
        rw [hb]
        refine ⟨_, rfl, ?_, ?_⟩
        · simp only
          rw [wr_length hb, hl]
        · simp only
          obtain ⟨a, y, t, h1, h2, h3⟩ := wr_ret hb
          rw [h3, ← h2, List.drop_left]
          exact List.mem_cons_self _ _

/-- The walk as a whole returns: once `dir_path_tidy` has returned, no read or
write of `dir_walkex` leaves an array and the recursion of `dir_walk_impl` ends,
for every tree whose entries hold strings and for patterns whose tests return. -/
theorem dir_walkex_returns (fs : filesystem) (path : List Char) (flags : Nat)
    (gd gf : Option (List Char)) (pb : List Char) (len : Nat) (hpb : pb.length = 4096)
    (hfs : ∀ p l, fs.opendir p = some l →
      ∀ ent ∈ l, NUL ∈ ent.d_name ∧ ent.d_name.length ≤ 256)
    (hgd : ∃ gde, glob_end_of gd = .ret gde ∧ ∀ X, ∃ r, matches_pattern gd gde X = .ret r)
    (hgf : ∃ gfe, glob_end_of gf = .ret gfe ∧ ∀ X, ∃ r, matches_pattern gf gfe X = .ret r)
    (hlen : dir_strlen32 path 0 = .ret len)
    (htidy : len < 4096 - 1 → ∃ root, tidied_root path flags pb = .ret root) :
    ∃ res evs, dir_walkex fs path flags gd gf pb = .ret (res, evs) := by
  unfold dir_walkex
  rw [hlen]
  simp only [Exec.ret_bind]
  by_cases hbig : len ≥ 4096 - 1
  · rw [if_pos hbig]
    exact ⟨_, _, rfl⟩
  · rw [if_neg hbig]
    obtain ⟨r0, hr0⟩ := htidy (by omega)
    unfold tidied_root at hr0
    rw [hlen] at hr0
    simp only [Exec.ret_bind] at hr0
    obtain ⟨b1, hb1, hr1⟩ := Exec.bind_eq_ret hr0
    obtain ⟨⟨b2, pl⟩, hb2, _⟩ := Exec.bind_eq_ret hr1
    rw [hb1]
    simp only [Exec.ret_bind]
    rw [hb2]
    simp only [Exec.ret_bind]
    obtain ⟨hin, hnul⟩ := dir_walkex_first_call path (dir_walk_slash_by_flags flags) pb b1 b2 len
      pl hpb (slash_by_flags_ne_nul flags) hb1 hb2
    by_cases hz : pl = 0
    · rw [if_pos hz]
      exact ⟨_, _, rfl⟩
    · rw [if_neg hz]
      obtain ⟨gde, hgde, hgdm⟩ := hgd
      obtain ⟨gfe, hgfe, hgfm⟩ := hgf
      rw [hgde, hgfe]
      simp only [Exec.ret_bind]
      obtain ⟨out, hout, _, _⟩ := dir_walk_impl_returns fs pl gd gde gf gfe flags hfs hgdm hgfm
        4096 b2 pl (4096 - pl) hin (by omega) (Nat.le_refl _) hnul
      rw [hout]
      exact ⟨_, _, rfl⟩

theorem no_pattern_returns :
    ∃ ge, glob_end_of none = .ret ge ∧ ∀ X, ∃ r, matches_pattern none ge X = .ret r :=
  ⟨none, rfl, fun _ => ⟨true, rfl⟩⟩

/-! ## The path buffer after a call, and the probe -/

/-- When no probe fails, a call of `dir_walk_impl` returns with the string of the
call in the buffer again. -/
theorem dir_walk_impl_restores (fs : filesystem) (root : Nat) (gd : Option (List Char))
    (gde : Option Nat) (gf : Option (List Char)) (gfe : Option Nat) (flags : Nat)
    (htree : tree_ok fs (dir_walk_slash_by_flags flags)) (fuel : Nat) (S R : List Char)
    (sz : Nat) (out : walk_out) (hS : NUL ∉ S) (hroot : root ≤ S.length)
    (hlen : (S ++ NUL :: R).length < 2 ^ 32)
    (h : dir_walk_impl fs root gd gde gf gfe flags fuel (S ++ NUL :: R) S.length sz = .ret out) :
    ∃ R2, R2.length = R.length ∧ out.path_buffer = S ++ NUL :: R2 ∧
      c_string_at out.path_buffer 0 = .ret S := by
  obtain ⟨_, _, _, R2, _, hR2, hbuf, _, _⟩ := dir_walk_impl_rel fs root gd gde gf gfe flags flags
    (same_walk_refl flags) htree fuel S R sz out hS hroot hlen h
  refine ⟨R2, hR2, hbuf, ?_⟩
  rw [hbuf]
  unfold c_string_at
  rw [List.drop_zero]
  exact c_string_go_cstr S R2 hS

/-- The probe of an entry of unknown type is the probe of the string that the
buffer holds when the loop body starts, whatever the name of the entry is. -/
theorem dir_walk_is_dir_unknown (fs : filesystem) (ent : dirent) (pb s : List Char)
    (hty : ent.d_type = d_type_t.DT_UNKNOWN) (hs : c_string_at pb 0 = .ret s) :
    dir_walk_is_dir fs ent pb = .ret (fs.stat s) := by
  unfold dir_walk_is_dir
  rw [if_pos hty, hs]
  rfl

/-! ## The watched walk is the walk -/

theorem Exec.bind_congr {α β : Type} {x : Exec α} {f g : α → Exec β}
    (h : ∀ a, x = .ret a → f a = g a) : (x >>= f) = (x >>= g) := by
  cases x with
  | ret a => exact h a rfl
  | oob => rfl
  | nofuel => rfl

theorem dir_strlen32_lt {m : List Char} {s n : Nat} (h : dir_strlen32 m s = .ret n) :
    n < 2 ^ 32 := by
  unfold dir_strlen32 at h
  obtain ⟨k, _, h⟩ := Exec.bind_eq_ret h
  simp only [Exec.pure_eq, Exec.ret.injEq] at h
  rw [← h]
  exact Nat.mod_lt _ (by norm_num)

/-- When the two writes of `dir_walk_append` return, they were inside the array:
the cell `path_len`, and the cells of the name and its terminator unless the
count `item_len + 1` is `0` as an `unsigned int`. -/
theorem dir_walk_append_bound {slash : Char} {pb : List Char} {pl : Nat} {item_name : List Char}
    {item_len : Nat} {b2 : List Char}
    (h : dir_walk_append slash pb pl item_name item_len = .ret b2) :
    pl < pb.length ∧ (u32 (item_len + 1) = 0 ∨ u32 (pl + 1) + u32 (item_len + 1) ≤ pb.length) := by
  unfold dir_walk_append at h
  obtain ⟨b1, h1, h2⟩ := Exec.bind_eq_ret h
  refine ⟨wr_lt h1, ?_⟩
  cases hk : u32 (item_len + 1) with
  | zero => exact Or.inl rfl
  | succ k =>
    right
    rw [hk] at h2
    have := memcpy_ret_bound h2
    rw [wr_length h1] at this
    exact this

/-- Within the invariant, a pass of the loop body calls `dir_walk_impl` only
within the invariant: two functions that agree there are the same to it. -/
theorem dir_walk_body_congr (fs : filesystem)
    (rec1 rec2 : List Char → Nat → Nat → Exec walk_out) (root : Nat) (gd : Option (List Char))
    (gde : Option Nat) (gf : Option (List Char)) (gfe : Option Nat) (flags : Nat) (slash : Char)
    (swd sidd sidf sccd sccf : Bool) (off : Nat) (pb : List Char) (pl sz : Nat) (ent : dirent)
    (hin : in_buffer pb pl sz)
    (hrec : ∀ b p s, in_buffer b p s → rec1 b p s = rec2 b p s) :
    dir_walk_body fs rec1 root gd gde gf gfe flags slash swd sidd sidf sccd sccf off pl sz ent pb
      = dir_walk_body fs rec2 root gd gde gf gfe flags slash swd sidd sidf sccd sccf off pl sz
          ent pb := by
  obtain ⟨hlen, hsum, hsz1⟩ := hin
  unfold dir_walk_body
  simp only
  refine Exec.bind_congr (fun probe _ => ?_)
  cases probe with
  | none => rfl
  | some is_dir =>
    simp only
    refine Exec.bind_congr (fun skip _ => ?_)
    split
    · rfl
    · refine Exec.bind_congr (fun item_len hil => ?_)
      have hlt := dir_strlen32_lt hil
      split
      · rfl
      · rename_i hsz
        refine Exec.bind_congr (fun b2 hb2 => ?_)
        have hb2len := dir_walk_append_length hb2
        obtain ⟨h1, h2⟩ := dir_walk_append_bound hb2
        rw [dir_walk_visit_congr rec1 rec2]
        apply hrec
        unfold in_buffer
        unfold u32 at h2 hsz ⊢
        unfold usub
        refine ⟨by omega, ?_, ?_⟩ <;> omega

theorem dir_walk_loop_congr (body1 body2 : dirent → List Char → Exec body_out) (n : Nat)
    (hb : ∀ ent pb, pb.length = n → body1 ent pb = body2 ent pb)
    (hlen : ∀ ent pb bo, body2 ent pb = .ret bo →
      ∀ b calls, bo = .next b calls → b.length = pb.length) :
    ∀ (entries : List dirent) (pb : List Char), pb.length = n →
      dir_walk_loop body1 entries pb = dir_walk_loop body2 entries pb := by
  intro entries
  induction entries with
  | nil => intro pb _; rfl
  | cons ent rest ih =>
    intro pb hpb
    rw [dir_walk_loop, dir_walk_loop, hb ent pb hpb]
    refine Exec.bind_congr (fun step hstep => ?_)
    cases step with
    | leave o => rfl
    | next b calls =>
      simp only
      rw [ih b (by rw [hlen ent pb _ hstep b calls rfl, hpb])]

/-- Within the invariant the watched `dir_walk_impl` is `dir_walk_impl`: no call
that it makes, at any depth, is outside the invariant. -/
theorem dir_walk_impl_within_eq (other : List Char → Nat → Nat → Exec walk_out)
    (fs : filesystem) (root : Nat) (gd : Option (List Char)) (gde : Option Nat)
    (gf : Option (List Char)) (gfe : Option Nat) (flags : Nat) :
    ∀ (fuel : Nat) (pb : List Char) (pl sz : Nat), in_buffer pb pl sz →
      dir_walk_impl_within other fs root gd gde gf gfe flags fuel pb pl sz
        = dir_walk_impl fs root gd gde gf gfe flags fuel pb pl sz := by
  intro fuel
  induction fuel with
  | zero => intro pb pl sz _; rfl
  | succ fuel ih =>
    intro pb pl sz hin
    rw [dir_walk_impl_within, dir_walk_impl, if_pos hin]
    simp only
    refine Exec.bind_congr (fun name _ => ?_)
    cases fs.opendir name with
    | none => rfl
    | some entries =>
      simp only
      rw [dir_walk_loop_congr _ _ 4096
        (fun ent b hb => dir_walk_body_congr fs _ _ root gd gde gf gfe flags _ _ _ _ _ _ _ b pl
          sz ent ⟨hb, hin.2.1, hin.2.2⟩ ih)
        (fun ent b bo hbo => (dir_walk_body_length fs _
          (dir_walk_impl_length fs root gd gde gf gfe flags fuel) _ _ _ _ _ _ _ _ _ _ _ _ _ _ _
          ent b bo hbo).1) entries pb hin.1]

/-- The watched walk is the walk: `dir_walkex` makes no call of `dir_walk_impl`
outside the invariant. -/
theorem dir_walkex_within_eq (other : List Char → Nat → Nat → Exec walk_out)
    (fs : filesystem) (path : List Char) (flags : Nat) (gd gf : Option (List Char))
    (pb : List Char) (hpb : pb.length = 4096) :
    dir_walkex_within other fs path flags gd gf pb = dir_walkex fs path flags gd gf pb := by
  unfold dir_walkex_within dir_walkex
  refine Exec.bind_congr (fun len _ => ?_)
  split
  · rfl
  · refine Exec.bind_congr (fun b1 hb1 => ?_)
    refine Exec.bind_congr (fun r hr => ?_)
    obtain ⟨b2, pl⟩ := r
    simp only
    split
    · rfl
    · refine Exec.bind_congr (fun gde _ => ?_)
      refine Exec.bind_congr (fun gfe _ => ?_)
      rw [dir_walk_impl_within_eq other fs pl gd gde gf gfe flags 4096 b2 pl (4096 - pl)
        (dir_walkex_first_call path _ pb b1 b2 len pl hpb (slash_by_flags_ne_nul flags) hb1 hr).1]

/-! ## The walk with a file pattern against the walk without one -/

theorem items_ok_no_nul {s : List Char} (h : items_ok s) : NUL ∉ s := by
  induction h with
  | nil => simp
  | char c rest h0 _ _ _ _ ih =>
    intro hm
    rcases List.mem_cons.1 hm with h | h
    · exact h0 h.symm
    · exact ih h
  | star c rest _ _ _ _ ih =>
    intro hm
    rcases List.mem_cons.1 hm with h | h
    · revert h; decide
    · exact ih h
  | star_sep rest _ ih =>
    intro hm
    simp only [List.mem_cons] at hm
    rcases hm with h | h | h
    · revert h; decide
    · revert h; decide
    · exact ih h
  | double_star_sep rest _ ih =>
    intro hm
    simp only [List.mem_cons] at hm
    rcases hm with h | h | h | h
    · revert h; decide
    · revert h; decide
    · revert h; decide
    · exact ih h
  | set bang items rest hok _ _ ih =>
    intro hm
    rcases List.mem_cons.1 hm with h | h
    · revert h; decide
    · rcases List.mem_append.1 h with h | h
      · rcases List.mem_append.1 h with h | h
        · cases bang
          · simp at h
          · simp only [if_true, List.mem_singleton] at h; revert h; decide
        · exact (set_text_no_close items hok NUL h).2 rfl
      · rcases List.mem_cons.1 h with h | h
        · revert h; decide
        · exact ih h
  | group alts rest hok _ ih =>
    intro hm
    rcases List.mem_cons.1 hm with h | h
    · revert h; decide
    · rcases List.mem_append.1 h with h | h
      · exact (alts_text_no_close alts hok NUL h).2 rfl
      · rcases List.mem_cons.1 h with h | h
        · revert h; decide
        · exact ih h

/-- Where the scan of the `*` case stops: at the terminator, at the character
searched for, or at a separator. -/
theorem star_next_go_stop (g1 : Char) :
    ∀ (cells : List Char) (n next : Nat), star_next_go g1 cells n = .ret next →
      ∃ k x rest, next = n + k ∧ cells.drop k = x :: rest ∧
        (x = NUL ∨ x = g1 ∨ DIR_IS_SEP x = true) := by
  intro cells
  induction cells with
  | nil => intro n next h; simp [star_next_go] at h
  | cons y ys ih =>
    intro n next h
    rw [star_next_go] at h
    split at h
    · obtain ⟨k, x, rest, h1, h2, h3⟩ := ih (n + 1) next h
      exact ⟨k + 1, x, rest, by omega, h2, h3⟩
    · rename_i hc
      injection h with h
      refine ⟨0, y, ys, by omega, rfl, ?_⟩
      by_contra hno
      apply hc
      refine ⟨fun e => hno (Or.inl e), fun e => hno (Or.inr (Or.inl e)), ?_⟩
      cases hs : DIR_IS_SEP y
      · rfl
      · exact absurd (Or.inr (Or.inr hs)) hno

theorem star_next_go_read (g1 : Char) (p : List Char) (u next : Nat) (c : Char)
    (h : star_next_go g1 (p.drop u) u = .ret next) (hc : rd p next = .ret c) :
    c = NUL ∨ c = g1 ∨ DIR_IS_SEP c = true := by
  obtain ⟨k, x, rest, h1, h2, h3⟩ := star_next_go_stop g1 _ _ _ h
  rw [List.drop_drop] at h2
  have : rd p next = .ret x := by
    rw [h1]
    exact rd_of_drop (by rw [Nat.add_comm] at h2; rw [Nat.add_comm]; exact h2)
  rw [this] at hc
  injection hc with hc
  rw [← hc]
  exact h3

/-- The comparison `strncmp( match_this, item_start, item_len )` reads the
pattern array only inside the alternative. -/
theorem strncmp_agree (p : List Char) (mA mB : List Char) :
    ∀ (n : Nat) (a rA rB : List Char) (u i : Nat), n ≤ a.length →
      mA.drop i = a ++ rA → mB.drop i = a ++ rB →
      strncmp p u mA i n = strncmp p u mB i n := by
  intro n
  induction n with
  | zero => intro a rA rB u i _ _ _; rfl
  | succ n ih =>
    intro a rA rB u i hn hA hB
    cases a with
    | nil => simp at hn
    | cons x a =>
      simp only [List.length_cons] at hn
      have hA2 : mA.drop i = x :: (a ++ rA) := hA
      have hB2 : mB.drop i = x :: (a ++ rB) := hB
      rw [strncmp, strncmp, rd_of_drop hA2, rd_of_drop hB2]
      refine Exec.bind_congr (fun c _ => ?_)
      simp only [Exec.ret_bind]
      split
      · rfl
      · split
        · rfl
        · exact ih a rA rB (u + 1) (i + 1) (by omega) (drop_succ_of_drop hA2)
            (drop_succ_of_drop hB2)

/-- The loop of `dir_glob_match_groups` reads the pattern array only between
the braces: on two arrays that hold the same group it returns the same. -/
theorem groups_loop_agree (mA mB p : List Char) (u : Nat) (alts : List (List Char)) :
    ∀ (fA fB is ge : Nat) (rA rB : List Char), alts_ok alts →
      mA.drop is = alts_text alts ++ '}' :: rA → mB.drop is = alts_text alts ++ '}' :: rB →
      ge + 1 = is + (alts_text alts).length → alts.length < fA → alts.length < fB →
      dir_glob_match_groups_loop mA ge p u fA is = dir_glob_match_groups_loop mB ge p u fB is := by
  induction alts with
  | nil =>
    intro fA fB is ge rA rB _ _ _ hge hfA hfB
    obtain ⟨f, rfl⟩ : ∃ f, fA = f + 1 := ⟨fA - 1, by simp at hfA; omega⟩
    obtain ⟨f2, rfl⟩ : ∃ f, fB = f + 1 := ⟨fB - 1, by simp at hfB; omega⟩
    simp only [alts_text, List.length_nil, Nat.add_zero] at hge
    rw [dir_glob_match_groups_loop, dir_glob_match_groups_loop, if_neg (by omega),
      if_neg (by omega)]
  | cons a alts ih =>
    intro fA fB is ge rA rB hok hA hB hge hfA hfB
    obtain ⟨f, rfl⟩ : ∃ f, fA = f + 1 := ⟨fA - 1, by simp at hfA; omega⟩
    obtain ⟨f2, rfl⟩ : ∃ f, fB = f + 1 := ⟨fB - 1, by simp at hfB; omega⟩
    obtain ⟨hane, hach⟩ := hok a (by simp)
    have halen : 1 ≤ a.length := by
      cases a with
      | nil => exact absurd rfl hane
      | cons _ _ => simp
    cases alts with
    | nil =>
      simp only [alts_text] at hA hB hge
      rw [dir_glob_match_groups_loop, dir_glob_match_groups_loop]
      by_cases h2 : 2 ≤ a.length
      · rw [if_pos (by omega), if_pos (by omega), hA, hB,
          item_end_go_spec ge a '}' rA is (fun x hx => (hach x hx).1) (by omega)
            (Or.inr (by omega)),
          item_end_go_spec ge a '}' rB is (fun x hx => (hach x hx).1) (by omega)
            (Or.inr (by omega))]
        simp only [Exec.ret_bind, Nat.add_sub_cancel_left]
        rw [strncmp_agree p mA mB _ a ('}' :: rA) ('}' :: rB) u is (Nat.mod_le _ _) hA hB]
        refine Exec.bind_congr (fun z _ => ?_)
        split
        · rfl
        · obtain ⟨f3, rfl⟩ : ∃ f3, f = f3 + 1 := ⟨f - 1, by simp at hfA; omega⟩
          obtain ⟨f4, rfl⟩ : ∃ f4, f2 = f4 + 1 := ⟨f2 - 1, by simp at hfB; omega⟩
          rw [dir_glob_match_groups_loop, dir_glob_match_groups_loop, if_neg (by omega),
            if_neg (by omega)]
      · rw [if_neg (by omega), if_neg (by omega)]
    | cons b alts =>
      have hok2 : alts_ok (b :: alts) := fun c hc => hok c (by simp [hc])
      have htl := alts_text_length (b :: alts) hok2
      simp only [List.length_cons] at htl hfA hfB
      have hA2 : mA.drop is = a ++ ',' :: (alts_text (b :: alts) ++ '}' :: rA) := by
        rw [hA]; simp [alts_text]
      have hB2 : mB.drop is = a ++ ',' :: (alts_text (b :: alts) ++ '}' :: rB) := by
        rw [hB]; simp [alts_text]
      have hge2 : ge + 1 = is + a.length + 1 + (alts_text (b :: alts)).length := by
        rw [hge]; simp [alts_text]; omega
      rw [dir_glob_match_groups_loop, dir_glob_match_groups_loop, if_pos (by omega),
        if_pos (by omega), hA2, hB2,
        item_end_go_spec ge a ',' _ is (fun x hx => (hach x hx).1) (by omega) (Or.inl rfl),
        item_end_go_spec ge a ',' _ is (fun x hx => (hach x hx).1) (by omega) (Or.inl rfl)]
      simp only [Exec.ret_bind, Nat.add_sub_cancel_left]
      rw [strncmp_agree p mA mB _ a _ _ u is (Nat.mod_le _ _) hA2 hB2]
      refine Exec.bind_congr (fun z _ => ?_)
      split
      · rfl
      · exact ih f f2 (is + a.length + 1) ge rA rB hok2
          (drop_succ_of_drop (drop_add_of_drop a hA2)) (drop_succ_of_drop (drop_add_of_drop a hB2))
          (by omega) (by simp only [List.length_cons]; omega)
          (by simp only [List.length_cons]; omega)

/-- The membership test of a bracket set whose text is well formed, on any array
that holds the set. -/
theorem range_of_set (m : List Char) (gp : Nat) (items : List set_item) (bang : Bool)
    (c : Char) (rest : List Char) (hok : set_ok items)
    (hbang : bang = false → (set_text items).head? ≠ some '!')
    (hm : m.drop (gp + 1) = ((if bang then ['!'] else []) ++ set_text items) ++ ']' :: rest) :
    dir_glob_match_range m (gp + 1)
        (gp + 1 + ((if bang then ['!'] else []) ++ set_text items).length - 1) c
      = .ret (if set_has items c then !bang else bang) := by
  have hfuel : items.length < m.length + 1 := by
    have h1 : items.length ≤ (set_text items).length := by
      clear hbang hm hok
      induction items with
      | nil => simp
      | cons it its ih => cases it <;> simp [set_text, set_item.text] <;> omega
    have h2 := congrArg List.length hm
    simp only [List.length_drop, List.length_append, List.length_cons] at h2
    have h3 : (if bang = true then ['!'] else []).length + (set_text items).length + 1
        ≤ m.length := by omega
    omega
  cases bang with
  | false =>
    simp only [Bool.false_eq_true, if_false, List.nil_append] at hm ⊢
    obtain ⟨x, t, hxt, _⟩ := set_text_head items rest hok
    have hx : x ≠ '!' := by
      intro hx
      cases items with
      | nil => simp [set_text] at hxt; rw [← hxt.1] at hx; revert hx; decide
      | cons it its =>
        apply hbang rfl
        have : (set_text (it :: its) ++ ']' :: rest).head? = some x := by rw [hxt]; rfl
        cases hst : set_text (it :: its) with
        | nil => cases it <;> simp [set_text, set_item.text] at hst
        | cons y ys => rw [hst] at this; simp at this; simp [this, hx]
    have hm1x := hm
    rw [hxt] at hm1x
    rw [dir_glob_match_range, rd_of_drop hm1x]
    simp only [Exec.ret_bind, if_neg hx]
    rw [range_loop_spec _ c true rest items _ (gp + 1) _ hok hm (by omega) hfuel]
    simp
  | true =>
    simp only [if_true, List.singleton_append, List.cons_append, List.nil_append,
      List.length_cons] at hm ⊢
    have hm2 := drop_succ_of_drop hm
    rw [dir_glob_match_range, rd_of_drop hm]
    simp only [Exec.ret_bind, if_true]
    rw [range_loop_spec _ c false rest items _ (gp + 1 + 1) _ hok hm2 (by omega) hfuel]
    simp

theorem sub_search_loop_sync (attA attB : Nat → Exec dir_glob_result) (p : List Char)
    (hatt : ∀ s r, attA s = .ret r →
      (r = DIR_GLOB_MATCH ∧ attB s = .ret DIR_GLOB_INVALID_PATTERN) ∨
      (r = DIR_GLOB_NO_MATCH ∧ attB s = .ret DIR_GLOB_NO_MATCH)) :
    ∀ (fuel s : Nat) (r : dir_glob_result), sub_search_loop attA p fuel s = .ret r →
      (r = DIR_GLOB_MATCH ∧ sub_search_loop attB p fuel s = .ret DIR_GLOB_INVALID_PATTERN) ∨
      (r = DIR_GLOB_NO_MATCH ∧ sub_search_loop attB p fuel s = .ret DIR_GLOB_NO_MATCH) := by
  intro fuel
  induction fuel with
  | zero => intro s r h; simp [sub_search_loop] at h
  | succ fuel ih =>
    intro s r h
    rw [sub_search_loop] at h ⊢
    obtain ⟨res, hres, h⟩ := Exec.bind_eq_ret h
    rcases hatt s res hres with ⟨e1, e2⟩ | ⟨e1, e2⟩
    · subst e1
      rw [e2]
      simp only [Exec.ret_bind, ne_eq, if_pos (show ¬ DIR_GLOB_MATCH = DIR_GLOB_NO_MATCH by decide),
        Exec.pure_eq, Exec.ret.injEq] at h
      left
      refine ⟨h.symm, ?_⟩
      simp
    · subst e1
      rw [e2]
      simp only [Exec.ret_bind, ne_eq, not_true_eq_false, if_false] at h ⊢
      obtain ⟨nxt, hnxt, h⟩ := Exec.bind_eq_ret h
      rw [hnxt]
      simp only [Exec.ret_bind]
      cases nxt with
      | none =>
        simp only [Exec.pure_eq, Exec.ret.injEq] at h ⊢
        exact Or.inr ⟨h.symm, trivial⟩
      | some s2 =>
        simp only at h ⊢
        exact ih _ _ h

theorem lt_length_of_drop {m : List Char} {i : Nat} {c : Char} {t : List Char}
    (h : m.drop i = c :: t) : i < m.length := by
  by_contra hn
  rw [List.drop_eq_nil_of_le (by omega)] at h
  cases h

/-- The matcher on two pattern arrays that hold the same well-formed items `s`
and then `**`, the first with the terminator behind the stars and the second
with another character `x` that is not `/`: where the first returns, it returns
`DIR_GLOB_MATCH` and the second `DIR_GLOB_INVALID_PATTERN`, or both return
`DIR_GLOB_NO_MATCH`. -/
theorem malformed_sync (mA mB p : List Char) (eA eB : Nat) (x : Char) (hx : x ≠ '/')
    (hx0 : x ≠ NUL) :
    ∀ s, items_ok s → ∀ (gp : Nat) (tA tB : List Char) (fA fB u : Nat) (r : dir_glob_result),
      mA.drop gp = s ++ '*' :: '*' :: NUL :: tA → mB.drop gp = s ++ '*' :: '*' :: x :: tB →
      gp + s.length < eA → gp + s.length < eB → mB.length + 1 ≤ gp + fB →
      dir_glob_match_impl mA p (some eA) fA gp u = .ret r →
      (r = DIR_GLOB_MATCH ∧
        dir_glob_match_impl mB p (some eB) fB gp u = .ret DIR_GLOB_INVALID_PATTERN) ∨
      (r = DIR_GLOB_NO_MATCH ∧
        dir_glob_match_impl mB p (some eB) fB gp u = .ret DIR_GLOB_NO_MATCH) := by
  intro s hs
  induction hs with
  | nil =>
    intro gp tA tB fA fB u r hA hB heA heB hfB h
    simp only [List.nil_append] at hA hB
    have hlt := lt_length_of_drop hB
    obtain ⟨fA, rfl⟩ : ∃ f, fA = f + 1 := by
      cases fA with
      | zero => simp [dir_glob_match_impl] at h
      | succ f => exact ⟨f, rfl⟩
    obtain ⟨fB, rfl⟩ : ∃ f, fB = f + 1 := ⟨fB - 1, by omega⟩
    have hA1 := drop_succ_of_drop hA
    have hA2 := drop_succ_of_drop hA1
    have hB1 := drop_succ_of_drop hB
    have hB2 := drop_succ_of_drop hB1
    rw [impl_star_star_end _ _ _ _ _ _ (rd_of_drop hA) (rd_of_drop hA1) (rd_of_drop hA2)
      (by simp; omega)] at h
    injection h with h
    exact Or.inl ⟨h.symm, impl_star_star_invalid _ _ _ _ _ _ x (rd_of_drop hB) (rd_of_drop hB1)
      (rd_of_drop hB2) hx hx0 (by simp; omega)⟩
  | char c rest h0 h1 h2 h3 _ ih =>
    intro gp tA tB fA fB u r hA hB heA heB hfB h
    simp only [List.cons_append, List.length_cons] at hA hB heA heB
    have hlt := lt_length_of_drop hB
    obtain ⟨fA, rfl⟩ : ∃ f, fA = f + 1 := by
      cases fA with
      | zero => simp [dir_glob_match_impl] at h
      | succ f => exact ⟨f, rfl⟩
    obtain ⟨fB, rfl⟩ : ∃ f, fB = f + 1 := ⟨fB - 1, by omega⟩
    have hA1 := drop_succ_of_drop hA
    have hB1 := drop_succ_of_drop hB
    by_cases hq : c = '?'
    · subst hq
      rw [impl_question _ _ _ _ _ _ (rd_of_drop hA) (by simp; omega)] at h
      rw [impl_question _ _ _ _ _ _ (rd_of_drop hB) (by simp; omega)]
      obtain ⟨ch, hch, h⟩ := Exec.bind_eq_ret h
      rw [hch]
      simp only [Exec.ret_bind]
      split at h
      · rename_i hsep
        rw [if_pos hsep]
        injection h with h
        exact Or.inr ⟨h.symm, rfl⟩
      · rename_i hsep
        rw [if_neg hsep]
        exact ih (gp + 1) tA tB fA fB (u + 1) r hA1 hB1 (by omega) (by omega) (by omega) h
    · have hlit : literal c := ⟨h0, h1, hq, h2, h3⟩
      rw [impl_literal_step _ _ _ _ _ _ c (rd_of_drop hA) hlit (by simp; omega)] at h
      rw [impl_literal_step _ _ _ _ _ _ c (rd_of_drop hB) hlit (by simp; omega)]
      obtain ⟨ch, hch, h⟩ := Exec.bind_eq_ret h
      rw [hch]
      simp only [Exec.ret_bind]
      split at h
      · rename_i hne
        rw [if_pos hne]
        injection h with h
        exact Or.inr ⟨h.symm, rfl⟩
      · rename_i hne
        rw [if_neg hne]
        exact ih (gp + 1) tA tB fA fB (u + 1) r hA1 hB1 (by omega) (by omega) (by omega) h
  | star c rest h0 h1 h2 _ ih =>
    intro gp tA tB fA fB u r hA hB heA heB hfB h
    simp only [List.cons_append, List.length_cons] at hA hB heA heB
    have hlt := lt_length_of_drop hB
    obtain ⟨fA, rfl⟩ : ∃ f, fA = f + 1 := by
      cases fA with
      | zero => simp [dir_glob_match_impl] at h
      | succ f => exact ⟨f, rfl⟩
    obtain ⟨fB, rfl⟩ : ∃ f, fB = f + 1 := ⟨fB - 1, by omega⟩
    have hA1 := drop_succ_of_drop hA
    have hB1 := drop_succ_of_drop hB
    rw [impl_star_other _ _ _ _ _ _ c (rd_of_drop hA) (rd_of_drop hA1) h0 h1 (by simp; omega)] at h
    rw [impl_star_other _ _ _ _ _ _ c (rd_of_drop hB) (rd_of_drop hB1) h0 h1 (by simp; omega)]
    obtain ⟨next, hnext, h⟩ := Exec.bind_eq_ret h
    obtain ⟨n, hn, h⟩ := Exec.bind_eq_ret h
    rw [hnext]
    simp only [Exec.ret_bind]
    rw [hn]
    simp only [Exec.ret_bind]
    by_cases hc : n = NUL
    · simp only [if_pos hc] at h ⊢
      injection h with h
      exact Or.inr ⟨h.symm, trivial⟩
    · simp only [if_neg hc] at h ⊢
      by_cases hsep : n = '\\' ∨ n = '/'
      · simp only [if_pos hsep, if_neg h2] at h ⊢
        injection h with h
        exact Or.inr ⟨h.symm, trivial⟩
      · simp only [if_neg hsep] at h ⊢
        exact ih (gp + 1) tA tB fA fB next r (by simpa using hA1) (by simpa using hB1)
          (by simp only [List.length_cons]; omega) (by simp only [List.length_cons]; omega)
          (by omega) h
  | star_sep rest _ ih =>
    intro gp tA tB fA fB u r hA hB heA heB hfB h
    simp only [List.cons_append, List.length_cons] at hA hB heA heB
    have hlt := lt_length_of_drop hB
    obtain ⟨fA, rfl⟩ : ∃ f, fA = f + 1 := by
      cases fA with
      | zero => simp [dir_glob_match_impl] at h
      | succ f => exact ⟨f, rfl⟩
    obtain ⟨fB, rfl⟩ : ∃ f, fB = f + 1 := ⟨fB - 1, by omega⟩
    have hA1 := drop_succ_of_drop hA
    have hB1 := drop_succ_of_drop hB
    have hA2 := drop_succ_of_drop hA1
    have hB2 := drop_succ_of_drop hB1
    have hsn : ('/' : Char) ≠ NUL := by decide
    have hss : ('/' : Char) ≠ '*' := by decide
    rw [impl_star_other _ _ _ _ _ _ '/' (rd_of_drop hA) (rd_of_drop hA1) hsn hss
      (by simp; omega)] at h
    rw [impl_star_other _ _ _ _ _ _ '/' (rd_of_drop hB) (rd_of_drop hB1) hsn hss
      (by simp; omega)]
    obtain ⟨next, hnext, h⟩ := Exec.bind_eq_ret h
    obtain ⟨n, hn, h⟩ := Exec.bind_eq_ret h
    rw [hnext]
    simp only [Exec.ret_bind]
    rw [hn]
    simp only [Exec.ret_bind]
    by_cases hc : n = NUL
    · simp only [if_pos hc] at h ⊢
      injection h with h
      exact Or.inr ⟨h.symm, trivial⟩
    · simp only [if_neg hc] at h ⊢
      by_cases hsep : n = '\\' ∨ n = '/'
      · simp only [if_pos hsep, if_true] at h ⊢
        obtain ⟨u2, hu2, h⟩ := Exec.bind_eq_ret h
        rw [hu2]
        simp only [Exec.ret_bind]
        exact ih (gp + 2) tA tB fA fB u2 r hA2 hB2 (by omega) (by omega) (by omega) h
      · exfalso
        rcases star_next_go_read '/' p u next n hnext hn with e | e | e
        · exact hc e
        · exact hsep (Or.inr e)
        · rw [sep_iff] at e
          exact hsep e
  | double_star_sep rest _ ih =>
    intro gp tA tB fA fB u r hA hB heA heB hfB h
    simp only [List.cons_append, List.length_cons] at hA hB heA heB
    have hlt := lt_length_of_drop hB
    obtain ⟨fA, rfl⟩ : ∃ f, fA = f + 1 := by
      cases fA with
      | zero => simp [dir_glob_match_impl] at h
      | succ f => exact ⟨f, rfl⟩
    obtain ⟨fB, rfl⟩ : ∃ f, fB = f + 1 := ⟨fB - 1, by omega⟩
    have hA1 := drop_succ_of_drop hA
    have hB1 := drop_succ_of_drop hB
    have hA2 := drop_succ_of_drop hA1
    have hB2 := drop_succ_of_drop hB1
    have hA3 := drop_succ_of_drop hA2
    have hB3 := drop_succ_of_drop hB2
    rw [impl_star_star_slash _ _ _ _ _ _ (rd_of_drop hA) (rd_of_drop hA1) (rd_of_drop hA2)
      (by simp; omega)] at h
    rw [impl_star_star_slash _ _ _ _ _ _ (rd_of_drop hB) (rd_of_drop hB1) (rd_of_drop hB2)
      (by simp; omega)]
    exact sub_search_loop_sync _ _ p
      (fun s2 r2 h2 => ih (gp + 3) tA tB fA fB s2 r2 hA3 hB3 (by omega) (by omega) (by omega) h2)
      _ _ r h
  | set bang items rest hok hbang _ ih =>
    intro gp tA tB fA fB u r hA hB heA heB hfB h
    generalize hbody : (if bang then ['!'] else []) ++ set_text items = body at *
    simp only [List.cons_append, List.length_cons, List.append_assoc, List.length_append]
      at hA hB heA heB
    have hlt := lt_length_of_drop hB
    obtain ⟨fA, rfl⟩ : ∃ f, fA = f + 1 := by
      cases fA with
      | zero => simp [dir_glob_match_impl] at h
      | succ f => exact ⟨f, rfl⟩
    obtain ⟨fB, rfl⟩ : ∃ f, fB = f + 1 := ⟨fB - 1, by omega⟩
    have hA1 := drop_succ_of_drop hA
    have hB1 := drop_succ_of_drop hB
    have hbno : ∀ z ∈ body, z ≠ ']' ∧ z ≠ NUL := by
      intro z hz
      rw [← hbody] at hz
      rcases List.mem_append.1 hz with hz | hz
      · cases bang
        · simp at hz
        · simp only [if_true, List.mem_singleton] at hz; subst hz; decide
      · exact set_text_no_close items hok z hz
    have hrA := range_of_set mA gp items bang
    have hrB := range_of_set mB gp items bang
    rw [hbody] at hrA hrB
    rw [impl_bracket _ _ _ _ _ _ (rd_of_drop hA) (by simp; omega)] at h
    rw [impl_bracket _ _ _ _ _ _ (rd_of_drop hB) (by simp; omega)]
    simp only [strchr, hA1, hB1, strchr_go_spec ']' body _ hbno, Exec.ret_bind] at h ⊢
    obtain ⟨ch, hch, h⟩ := Exec.bind_eq_ret h
    rw [hch]
    simp only [Exec.ret_bind]
    rw [hrA ch _ hok hbang hA1] at h
    rw [hrB ch _ hok hbang hB1]
    simp only [Exec.ret_bind] at h ⊢
    generalize (if set_has items ch = true then !bang else bang) = v at h ⊢
    cases v with
    | false =>
      simp only [if_true] at h ⊢
      injection h with h
      exact Or.inr ⟨h.symm, trivial⟩
    | true =>
      simp only [Bool.true_eq_false, if_false] at h ⊢
      have hA3 := drop_succ_of_drop (drop_add_of_drop body hA1)
      have hB3 := drop_succ_of_drop (drop_add_of_drop body hB1)
      exact ih (gp + 1 + body.length + 1) tA tB fA fB (u + 1) r hA3 hB3 (by omega) (by omega)
        (by omega) h
  | group alts rest hok _ ih =>
    intro gp tA tB fA fB u r hA hB heA heB hfB h
    simp only [List.cons_append, List.length_cons, List.append_assoc, List.length_append]
      at hA hB heA heB
    have hlt := lt_length_of_drop hB
    have hltA := lt_length_of_drop hA
    obtain ⟨fA, rfl⟩ : ∃ f, fA = f + 1 := by
      cases fA with
      | zero => simp [dir_glob_match_impl] at h
      | succ f => exact ⟨f, rfl⟩
    obtain ⟨fB, rfl⟩ : ∃ f, fB = f + 1 := ⟨fB - 1, by omega⟩
    have hA1 := drop_succ_of_drop hA
    have hB1 := drop_succ_of_drop hB
    have hno := alts_text_no_close alts hok
    have htl := alts_text_length alts hok
    have hlA : (alts_text alts).length < mA.length := by
      have := congrArg List.length hA1
      simp only [List.length_drop, List.length_append, List.length_cons] at this
      omega
    have hlB : (alts_text alts).length < mB.length := by
      have := congrArg List.length hB1
      simp only [List.length_drop, List.length_append, List.length_cons] at this
      omega
    rw [impl_brace _ _ _ _ _ _ (rd_of_drop hA) (by simp; omega)] at h
    rw [impl_brace _ _ _ _ _ _ (rd_of_drop hB) (by simp; omega)]
    rw [hA1, group_end_go_spec eA _ _ (fun z hz => (hno z hz).1) (gp + 1) (by omega)] at h
    rw [hB1, group_end_go_spec eB _ _ (fun z hz => (hno z hz).1) (gp + 1) (by omega)]
    simp only [Exec.ret_bind] at h ⊢
    unfold dir_glob_match_groups at h ⊢
    rw [groups_loop_agree mA mB p u alts (mA.length + 1) (mB.length + 1) (gp + 1) _ _ _ hok hA1
      hB1 (by omega) (by omega) (by omega)] at h
    obtain ⟨ml, hml, h⟩ := Exec.bind_eq_ret h
    rw [hml]
    simp only [Exec.ret_bind]
    split at h
    · rename_i hneg
      rw [if_pos hneg]
      injection h with h
      exact Or.inr ⟨h.symm, rfl⟩
    · rename_i hneg
      rw [if_neg hneg]
      have hA3 := drop_succ_of_drop (drop_add_of_drop (alts_text alts) hA1)
      have hB3 := drop_succ_of_drop (drop_add_of_drop (alts_text alts) hB1)
      exact ih (gp + 1 + (alts_text alts).length + 1) tA tB fA fB (u + ml.toNat) r hA3 hB3
        (by omega) (by omega) (by omega) h

/-! ## Further lemmas on patterns and on the walk -/

/-- After a literal prefix the malformed `**` is always reached. For a literal
prefix `q`, a character `x` other than `/` (and not the end of the pattern) and
any rest `r` of the pattern, `dir_glob_match (q ++ "**" ++ x ++ r) (q ++ s)`
returns `DIR_GLOB_INVALID_PATTERN` for every `s`. -/
theorem malformed_double_star_after_literals (q r s sp sc : List Char) (x : Char)
    (hq : ∀ c ∈ q, literal c) (hx : x ≠ '/') (hx0 : x ≠ NUL) (hr : NUL ∉ r)
    (hlen : (q ++ '*' :: '*' :: x :: r).length < 2 ^ 32) :
    dir_glob_match (cstr (q ++ '*' :: '*' :: x :: r) sp) (cstr (q ++ s) sc)
      = .ret DIR_GLOB_INVALID_PATTERN := by
  have h0 : NUL ∉ q ++ '*' :: '*' :: x :: r := by
    intro h
    simp only [List.mem_append, List.mem_cons] at h
    rcases h with h | h | h | h | h
    · exact (hq NUL h).1 rfl
    · revert h; decide
    · revert h; decide
    · exact hx0 h.symm
    · exact hr h
  rw [dir_glob_match_cstr _ sp _ h0 hlen]
  have hm : (cstr (q ++ '*' :: '*' :: x :: r) sp).drop 0
      = q ++ ('*' :: '*' :: x :: (r ++ NUL :: sp)) := by simp [cstr]
  have hp : (cstr (q ++ s) sc).drop 0 = q ++ (s ++ NUL :: sc) := by simp [cstr]
  have hf : (cstr (q ++ '*' :: '*' :: x :: r) sp).length + 1
      = (sp.length + r.length + 4 + 1) + q.length := by simp [cstr]; omega
  rw [hf, impl_literal_run _ _ _ q _ 0 0 _ _ hq hm hp (by simp)]
  have hm1 := drop_add_of_drop q hm
  have hm2 := drop_succ_of_drop hm1
  have hm3 := drop_succ_of_drop hm2
  exact impl_star_star_invalid _ _ _ _ _ _ x (rd_of_drop hm1) (rd_of_drop hm2) (rd_of_drop hm3)
    hx hx0 (by simp)

/-- The directory pattern is applied to root-relative paths as the path buffer
holds them. In a walk with the directory pattern `g`, for every entry passed to
the callback and every directory below the root on its path, the entry itself
included when it is a directory, `dir_glob_match` gives `DIR_GLOB_MATCH` for `g`
and the root-relative path `r` of that directory, read where the walk reads it,
in the path buffer (`slack` is what the buffer holds behind `r`). -/
theorem directory_glob_in_path_buffer (fs : filesystem) (path : List Char) (flags : Nat)
    (g : List Char) (gf : Option (List Char)) (path_buffer : List Char) (res : dir_error)
    (evs : List walk_event) (htree : tree_ok fs (dir_walk_slash_by_flags flags))
    (hpb : path_buffer.length = 4096) (hg : g.length < 2 ^ 32)
    (h : dir_walkex fs path flags (some g) gf path_buffer = .ret (res, evs))
    (e : walk_event) (he : e ∈ evs) (root r tail : List Char)
    (hroot : tidied_root path flags path_buffer = .ret root)
    (hpath : full_path flags root e = root ++ dir_walk_slash_by_flags flags :: r ++ tail)
    (htail : (∃ rest, tail = dir_walk_slash_by_flags flags :: rest) ∨
      (tail = [] ∧ e.type = DIR_ITEM_DIR)) :
    ∃ slack, dir_glob_match g (cstr r slack) = .ret DIR_GLOB_MATCH := by
  rcases dir_walkex_rel fs path flags flags (some g) gf path_buffer res evs
    (same_walk_refl flags) htree (by omega) h with
    ⟨hnil, _⟩ | ⟨root2, gde, ns, a, b, hroot2, _, _, hrl, hgde, hsh, hevs, _⟩
  · rw [hnil] at he; cases he
  · rw [hroot] at hroot2
    injection hroot2 with hroot2
    subst hroot2
    rw [hevs] at he
    obtain ⟨p, hp, hpe⟩ := List.mem_map.1 he
    have hpa : p ∈ a := by
      split at hp
      · exact hsh.perm.symm.subset hp
      · exact hp
    obtain ⟨n, hn, r1, hf, _⟩ := hsh.form p hpa
    have hfull : full_path flags root e = p.1 := by
      unfold full_path
      rw [← hpe]
      unfold offset_of render
      split
      · rw [u32_of_lt (by omega), hf]
        simp
      · simp
    rw [hfull] at hpath
    have htail2 : (∃ rest, tail = dir_walk_slash_by_flags flags :: rest) ∨
        (tail = [] ∧ p.2 = DIR_ITEM_DIR) := by
      rcases htail with ht | ⟨ht, hty⟩
      · exact Or.inl ht
      · exact Or.inr ⟨ht, by rw [← hpe] at hty; exact hty⟩
    obtain ⟨slack, hm⟩ := hsh.ancestors p hpa r tail hpath htail2
    refine ⟨slack, matches_pattern_glob g _ gde hg hgde ?_⟩
    have e1 : (root ++ dir_walk_slash_by_flags flags :: r).drop (root.length + 1) = r := by
      have : root ++ dir_walk_slash_by_flags flags :: r
          = (root ++ [dir_walk_slash_by_flags flags]) ++ r := by simp
      rw [this, List.drop_append_of_le_length (by simp)]
      simp
    rw [e1] at hm
    exact hm

set_option maxRecDepth 100000 in
theorem directory_glob_in_path_buffer_witness :
    ∃ slack, dir_glob_match (cstr "a*".toList []) (cstr "a".toList slack) = .ret DIR_GLOB_MATCH :=
  directory_glob_in_path_buffer fs_sample (cstr " root/ ".toList [])
    DIR_WALK_ROOT_RELATIVE_PATHS (cstr "a*".toList []) none stack_buffer DIR_ERROR_OK
    [⟨"a".toList, 1, DIR_ITEM_DIR⟩, ⟨"a/x.c".toList, 5, DIR_ITEM_FILE⟩,
      ⟨"f.txt".toList, 5, DIR_ITEM_FILE⟩]
    (tree_ok_of_table _ _ (by decide)) (List.length_replicate _ _) (by decide) (by decide)
    ⟨"a/x.c".toList, 5, DIR_ITEM_FILE⟩ (by decide) "root".toList "a".toList "/x.c".toList
    (by decide) (by decide) (Or.inl ⟨"x.c".toList, by decide⟩)

/-- A pass of the loop body of `dir_walk_impl` in a call within the invariant
(`path_buffer` has 4096 cells, `path_len + path_buffer_size = 4096`,
`path_buffer_size ≥ 1`) that comes to `item_len = dir_strlen32( item_name )`.
When `item_len + 2` exceeds `path_buffer_size`, the pass leaves the loop with
`DIR_ERROR_PATH_TOO_DEEP` and the buffer as it was. Otherwise the greatest index
written, `path_len + item_len + 1`, is below 4096, the two writes of
`dir_walk_append` stay inside the array, neither `path_len + item_len + 1` nor
`path_buffer_size - item_len - 1` wraps around, the buffer and these two values
are within the invariant again, and the pass calls `dir_walk_impl` only within
the invariant: two functions that agree there are the same to it. -/
theorem dir_walk_body_in_buffer (fs : filesystem) (root : Nat) (gd : Option (List Char))
    (gde : Option Nat) (gf : Option (List Char)) (gfe : Option Nat) (flags : Nat) (slash : Char)
    (swd sidd sidf sccd sccf : Bool) (off : Nat) (pb : List Char) (pl sz : Nat) (ent : dirent)
    (is_dir : Bool) (hin : in_buffer pb pl sz)
    (hent : NUL ∈ ent.d_name ∧ ent.d_name.length ≤ 256)
    (hprobe : dir_walk_is_dir fs ent pb = .ret (some is_dir))
    (hskip : dir_walk_skips sidd sidf ent.d_name is_dir = .ret false) :
    (sz < (entry_name ent).length + 2 ∧
      ∀ recurse : List Char → Nat → Nat → Exec walk_out,
        dir_walk_body fs recurse root gd gde gf gfe flags slash swd sidd sidf sccd sccf off
            pl sz ent pb
          = .ret (.leave ⟨DIR_ERROR_PATH_TOO_DEEP, false, pb, []⟩))
    ∨ ((entry_name ent).length + 2 ≤ sz ∧ pl + (entry_name ent).length + 1 < 4096 ∧
      u32 (u32 (pl + (entry_name ent).length) + 1) = pl + (entry_name ent).length + 1 ∧
      usub (usub sz (entry_name ent).length) 1 = sz - (entry_name ent).length - 1 ∧
      ∃ b2, dir_walk_append slash pb pl ent.d_name (entry_name ent).length = .ret b2 ∧
        in_buffer b2 (pl + (entry_name ent).length + 1) (sz - (entry_name ent).length - 1) ∧
        ∀ rec1 rec2 : List Char → Nat → Nat → Exec walk_out,
          (∀ b p s, in_buffer b p s → rec1 b p s = rec2 b p s) →
          dir_walk_body fs rec1 root gd gde gf gfe flags slash swd sidd sidf sccd sccf off
              pl sz ent pb
            = dir_walk_body fs rec2 root gd gde gf gfe flags slash swd sidd sidf sccd sccf off
              pl sz ent pb) := by
  obtain ⟨hlen, hsum, hsz1⟩ := hin
  obtain ⟨hnul, hd256⟩ := hent
  obtain ⟨slack, hdn, hn0⟩ := entry_decomp ent.d_name hnul
  have hnlen : (entry_name ent).length + 1 ≤ 256 := by
    have := congrArg List.length hdn
    unfold entry_name
    simp only [List.length_append, List.length_cons] at this
    omega
  generalize hname : entry_name ent = n at *
  have hdn2 : ent.d_name = n ++ NUL :: slack := by
    rw [← hname]; exact hdn
  have hn0b : NUL ∉ n := by rw [← hname]; exact hn0
  have hsl : dir_strlen32 ent.d_name 0 = .ret n.length := by
    rw [hdn2]
    exact dir_strlen32_cstr n slack hn0b (by omega)
  by_cases hsz : sz < n.length + 2
  · left
    refine ⟨hsz, fun recurse => ?_⟩
    unfold dir_walk_body
    simp only [hprobe, hskip, hsl, Exec.ret_bind, Bool.false_eq_true, if_false]
    rw [u32_of_lt (show n.length + 2 < 2 ^ 32 by omega), if_pos hsz]
    rfl
  · right
    have hil : n.length + 2 ≤ sz := by omega
    obtain ⟨e1, e2, e3, e4⟩ := in_buffer_step pl sz n.length hsum hil
    obtain ⟨P, y, R, hpb, hP, hR⟩ := split_at_cell pb pl (by omega)
    have happ : dir_walk_append slash pb pl ent.d_name n.length
        = .ret ((P ++ slash :: n) ++ NUL :: R.drop (n.length + 1)) := by
      rw [hpb, ← hP, hdn2]
      exact dir_walk_append_forward slash y P R n slack (by rw [← hpb]; omega) (by omega)
        (by omega)
    have hb2 := dir_walk_append_length happ
    refine ⟨hil, e4, e1, e2, _, happ, ⟨by rw [hb2]; exact hlen, by omega, by omega⟩, ?_⟩
    intro rec1 rec2 hagree
    unfold dir_walk_body
    simp only [hprobe, hskip, hsl, Exec.ret_bind, Bool.false_eq_true, if_false, e3,
      if_neg hsz, happ]
    rw [dir_walk_visit_congr rec1 rec2]
    rw [e1, e2]
    exact hagree _ _ _ ⟨by rw [hb2]; exact hlen, by omega, by omega⟩

/-! ## The claims -/

/-- C1: for a pattern made of literal characters only (none of `*`, `?`, `[`,
`{`) and any candidate path, `dir_glob_match` returns `DIR_GLOB_MATCH` when the
candidate equals the pattern byte for byte and `DIR_GLOB_NO_MATCH` otherwise,
whatever lies behind the two terminators. -/
theorem literal_pattern_exact (pat cand sp sc : List Char)
    (hpat : ∀ x ∈ pat, literal x)
    (hcand : NUL ∉ cand) (hlen : pat.length < 2 ^ 32) :
    dir_glob_match (cstr pat sp) (cstr cand sc)
      = .ret (if cand = pat then DIR_GLOB_MATCH else DIR_GLOB_NO_MATCH) := by
  have h0 : NUL ∉ pat := fun h => (hpat NUL h).1 rfl
  rw [dir_glob_match_cstr pat sp _ h0 hlen]
  exact impl_literal_tail _ _ _ pat _ 0 0 cand (NUL :: sp) sc hpat hcand rfl rfl (by simp)
    (by simp [cstr]; omega)

theorem literal_pattern_exact_witness :
    glob "a/b.txt" "a/b.txt" = .ret DIR_GLOB_MATCH ∧ glob "a/b.txt" "a/b.tx" = .ret DIR_GLOB_NO_MATCH := by
  constructor
  · exact literal_pattern_exact "a/b.txt".toList "a/b.txt".toList [] [] (by decide) (by decide) (by decide)
  · exact literal_pattern_exact "a/b.txt".toList "a/b.tx".toList [] [] (by decide) (by decide) (by decide)

/-- C2: the claim asks `dir_glob_match (q ++ "*" ++ t) (q ++ w ++ t)` to return
`DIR_GLOB_MATCH` for every separator-free `w`. The code stops the `*` at the
first occurrence of the character that follows it and never retries: with
`q` empty, `w = "a.b"` and `t = ".txt"` the pattern `*.txt` does not match the
path `a.b.txt`. -/
theorem star_stops_at_first_occurrence :
    (∀ x ∈ "a.b".toList, x ≠ NUL ∧ DIR_IS_SEP x = false)
      ∧ (∀ x ∈ ".txt".toList, literal x ∧ DIR_IS_SEP x = false)
      ∧ dir_glob_match (cstr ([] ++ '*' :: ".txt".toList) [])
          (cstr ([] ++ "a.b".toList ++ ".txt".toList) []) = .ret DIR_GLOB_NO_MATCH
      ∧ glob "*.txt" "a.b.txt" = .ret DIR_GLOB_NO_MATCH
      ∧ glob "*bc" "bbc" = .ret DIR_GLOB_NO_MATCH := by
  decide

/-- C3: `*` never crosses a path separator. For a literal prefix `q`, a literal
separator-free (possibly empty) text `t` behind the `*`, and a candidate remainder
`c` that holds a `/` or a backslash, `dir_glob_match (q ++ "*" ++ t) (q ++ c)`
returns `DIR_GLOB_NO_MATCH`. -/
theorem star_never_crosses_separator (q t c sp sc : List Char)
    (hq : ∀ x ∈ q, literal x) (ht : ∀ x ∈ t, literal x ∧ DIR_IS_SEP x = false)
    (hc : NUL ∉ c) (hsep : ∃ x ∈ c, DIR_IS_SEP x = true)
    (hlen : (q ++ '*' :: t).length < 2 ^ 32) :
    dir_glob_match (cstr (q ++ '*' :: t) sp) (cstr (q ++ c) sc) = .ret DIR_GLOB_NO_MATCH := by
  have h0 : NUL ∉ q ++ '*' :: t := by
    intro h
    rcases List.mem_append.1 h with h | h
    · exact (hq NUL h).1 rfl
    · rcases List.mem_cons.1 h with h | h
      · revert h; decide
      · exact (ht NUL h).1.1 rfl
  rw [dir_glob_match_cstr _ sp _ h0 hlen]
  have hm : (cstr (q ++ '*' :: t) sp).drop 0 = q ++ ('*' :: (t ++ NUL :: sp)) := by
    simp [cstr]
  have hp : (cstr (q ++ c) sc).drop 0 = q ++ (c ++ NUL :: sc) := by simp [cstr]
  have hf : (cstr (q ++ '*' :: t) sp).length + 1 = (sp.length + t.length + 2 + 1) + q.length := by
    simp [cstr]; omega
  rw [hf, impl_literal_run _ _ _ q _ 0 0 _ _ hq hm hp (by simp)]
  have hm1 := drop_add_of_drop q hm
  have hp1 := drop_add_of_drop q hp
  simp only [Nat.zero_add] at hm1 hp1 ⊢
  have hm2 := drop_succ_of_drop hm1
  have hne : some q.length ≠ some (q ++ '*' :: t).length := by simp
  cases t with
  | nil =>
    rw [impl_star_nul _ _ _ _ _ _ (rd_of_drop hm1) (rd_of_drop hm2) hne]
    obtain ⟨r, hr⟩ := dir_strchr2_go_found c sc hc hsep q.length
    rw [dir_strchr2, hp1, hr]; rfl
  | cons g1 t =>
    have hg1 := (ht g1 (by simp))
    have hg1s : g1 ≠ '\\' ∧ g1 ≠ '/' := (not_sep_iff g1).1 hg1.2
    rw [impl_star_other _ _ _ _ _ _ g1 (rd_of_drop hm1) (rd_of_drop hm2) hg1.1.1 hg1.1.2.1 hne]
    -- the scan stops inside `c`, at the first `g1` or separator
    obtain ⟨w, x, rest, hcw, hw, hx⟩ :=
      exists_first (fun y => y = NUL ∨ y = g1 ∨ DIR_IS_SEP y = true) c
        (by obtain ⟨y, hy, hys⟩ := hsep; exact ⟨y, hy, Or.inr (Or.inr hys)⟩)
    subst hcw
    have hp2 : (cstr (q ++ (w ++ x :: rest)) sc).drop q.length
        = w ++ x :: (rest ++ NUL :: sc) := by rw [hp1]; simp
    rw [hp2, star_next_go_spec g1 w x _ hw hx]
    have hp3 := drop_add_of_drop w hp2
    have hx0 : x ≠ NUL := fun h => hc (by simp [h])
    simp only [Exec.ret_bind, rd_of_drop hp3, if_neg hx0]
    by_cases hxs : x = '\\' ∨ x = '/'
    · rw [if_pos hxs, if_neg hg1s.2]
    · rw [if_neg hxs]
      have hxg : x = g1 := by
        rcases hx with h | h | h
        · exact absurd h hx0
        · exact h
        · exact absurd ((sep_iff x).1 h) hxs
      have hp4 : (cstr (q ++ (w ++ x :: rest)) sc).drop (q.length + w.length)
          = (x :: rest) ++ NUL :: sc := by rw [hp3]; simp
      rw [impl_literal_tail _ _ _ (g1 :: t) _ _ _ (x :: rest) (NUL :: sp) sc
        (fun y hy => (ht y hy).1) (fun h => hc (by
          rcases List.mem_cons.1 h with h | h
          · simp [← h]
          · simp [h])) hm2 hp4 (by simp; omega) (by simp; omega)]
      have hne2 : x :: rest ≠ g1 :: t := by
        intro he
        obtain ⟨y, hy, hys⟩ := hsep
        have hy2 : y ∈ x :: rest := by
          rcases List.mem_append.1 hy with h | h
          · exact absurd (Or.inr (Or.inr hys)) (hw y h)
          · exact h
        rw [he] at hy2
        have := (ht y hy2).2
        rw [hys] at this; cases this
      rw [if_neg hne2]

theorem star_never_crosses_separator_witness :
    glob "a/*.txt" "a/b/c.txt" = .ret DIR_GLOB_NO_MATCH :=
  star_never_crosses_separator "a/".toList ".txt".toList "b/c.txt".toList [] []
    (by decide) (by decide) (by decide) (by decide) (by decide)

/-- C4: a pattern that ends with `**` accepts any remainder once its literal
prefix has matched: `dir_glob_match (q ++ "**") (q ++ s)` returns
`DIR_GLOB_MATCH` for every `s`, separators and the empty string included. -/
theorem double_star_terminal (q s sp sc : List Char)
    (hq : ∀ x ∈ q, literal x) (hlen : (q ++ ['*', '*']).length < 2 ^ 32) :
    dir_glob_match (cstr (q ++ ['*', '*']) sp) (cstr (q ++ s) sc) = .ret DIR_GLOB_MATCH := by
  have h0 : NUL ∉ q ++ ['*', '*'] := by
    intro h
    rcases List.mem_append.1 h with h | h
    · exact (hq NUL h).1 rfl
    · revert h; decide
  rw [dir_glob_match_cstr _ sp _ h0 hlen]
  have hm : (cstr (q ++ ['*', '*']) sp).drop 0 = q ++ ('*' :: '*' :: NUL :: sp) := by
    simp [cstr]
  have hp : (cstr (q ++ s) sc).drop 0 = q ++ (s ++ NUL :: sc) := by simp [cstr]
  have hf : (cstr (q ++ ['*', '*']) sp).length + 1 = (sp.length + 3 + 1) + q.length := by
    simp [cstr]; omega
  rw [hf, impl_literal_run _ _ _ q _ 0 0 _ _ hq hm hp (by simp)]
  have hm1 := drop_add_of_drop q hm
  have hm2 := drop_succ_of_drop hm1
  have hm3 := drop_succ_of_drop hm2
  exact impl_star_star_end _ _ _ _ _ _ (rd_of_drop hm1) (rd_of_drop hm2) (rd_of_drop hm3)
    (by simp)

theorem double_star_terminal_witness :
    glob "a/**" "a/b/c/d.txt" = .ret DIR_GLOB_MATCH
      ∧ glob "a/b/c**" "a/b/c/d/e/file.txt" = .ret DIR_GLOB_MATCH :=
  ⟨double_star_terminal "a/".toList "b/c/d.txt".toList [] [] (by decide) (by decide),
   double_star_terminal "a/b/c".toList "/d/e/file.txt".toList [] [] (by decide) (by decide)⟩

/-- C5: `**/` matches zero or more whole path segments. For a literal prefix
`q`, non-empty separator-free segments `s1..sn` (possibly none) and a literal
separator-free name `f`, `dir_glob_match (q ++ "**/" ++ f) (q ++ s1/../sn/f)`
returns `DIR_GLOB_MATCH`; with no segment the candidate is `q ++ f`. -/
theorem double_star_slash_segments (q f sp sc : List Char) (segs : List (List Char))
    (hq : ∀ x ∈ q, literal x) (hf : ∀ x ∈ f, literal x ∧ DIR_IS_SEP x = false)
    (hs : ∀ s ∈ segs, s ≠ [] ∧ NUL ∉ s ∧ ∀ x ∈ s, DIR_IS_SEP x = false)
    (hlen : (q ++ '*' :: '*' :: '/' :: f).length < 2 ^ 32) :
    dir_glob_match (cstr (q ++ '*' :: '*' :: '/' :: f) sp) (cstr (q ++ join_segments segs f) sc)
      = .ret DIR_GLOB_MATCH := by
  have h0 : NUL ∉ q ++ '*' :: '*' :: '/' :: f := by
    intro h
    simp only [List.mem_append, List.mem_cons] at h
    rcases h with h | h | h | h | h
    · exact (hq NUL h).1 rfl
    · revert h; decide
    · revert h; decide
    · revert h; decide
    · exact (hf NUL h).1.1 rfl
  rw [dir_glob_match_cstr _ sp _ h0 hlen]
  have hm : (cstr (q ++ '*' :: '*' :: '/' :: f) sp).drop 0
      = q ++ ('*' :: '*' :: '/' :: (f ++ NUL :: sp)) := by simp [cstr]
  have hp : (cstr (q ++ join_segments segs f) sc).drop 0
      = q ++ (join_segments segs f ++ NUL :: sc) := by simp [cstr]
  have hfu : (cstr (q ++ '*' :: '*' :: '/' :: f) sp).length + 1
      = (sp.length + f.length + 4 + 1) + q.length := by simp [cstr]; omega
  rw [hfu, impl_literal_run _ _ _ q _ 0 0 _ _ hq hm hp (by simp)]
  have hm1 := drop_add_of_drop q hm
  have hp1 := drop_add_of_drop q hp
  simp only [Nat.zero_add] at hm1 hp1 ⊢
  have hm2 := drop_succ_of_drop hm1
  have hm3 := drop_succ_of_drop hm2
  have hm4 := drop_succ_of_drop hm3
  rw [impl_star_star_slash _ _ _ _ _ _ (rd_of_drop hm1) (rd_of_drop hm2) (rd_of_drop hm3)
    (by simp)]
  refine sub_search_loop_segments _ _ _ _ _ f sp sc hf hm4 (by simp; omega) (by omega) segs _ _ ?_
    hs hp1
  have := join_segments_length segs f
  simp [cstr]; omega

theorem double_star_slash_segments_witness :
    glob "a/**/d.txt" "a/d.txt" = .ret DIR_GLOB_MATCH
      ∧ glob "a/**/d.txt" "a/x/y/d.txt" = .ret DIR_GLOB_MATCH :=
  ⟨double_star_slash_segments "a/".toList "d.txt".toList [] [] []
      (by decide) (by decide) (by decide) (by decide),
   double_star_slash_segments "a/".toList "d.txt".toList [] [] ["x".toList, "y".toList]
      (by decide) (by decide) (by decide) (by decide)⟩

/-- C7: the claim asks that a bracket expression never matches a directory
separator. The code passes the separator to `dir_glob_match_range` like any other
character: a complemented set matches `/` and the backslash, and so does a plain
set that lists the separator. -/
theorem bracket_matches_separator :
    glob "[!0-9]" "/" = .ret DIR_GLOB_MATCH
      ∧ glob "[!0-9]" "\\" = .ret DIR_GLOB_MATCH
      ∧ glob "[a/]" "/" = .ret DIR_GLOB_MATCH := by
  decide

/-- C8: the claim asks that `?` does not match the empty candidate. The `?` case
only tests for a separator, steps over the terminator and reads the cell behind
it: with a zero byte behind the terminator the result is `DIR_GLOB_MATCH`, with
any other byte `DIR_GLOB_NO_MATCH`, and when the array ends at the terminator the
read is outside the array. -/
theorem question_mark_empty_path :
    dir_glob_match (cstr ['?'] []) (cstr [] [NUL]) = .ret DIR_GLOB_MATCH
      ∧ dir_glob_match (cstr ['?'] []) (cstr [] ['x']) = .ret DIR_GLOB_NO_MATCH
      ∧ glob "?" "" = .oob := by
  decide

/-- C9: the claim asks that an alternative that is a prefix of the candidate (and
has no earlier alternative that is one) gives `DIR_GLOB_MATCH`. The loop of
`dir_glob_match_groups` runs while `item_start < group_end`, where `group_end` is
the last character of the group, so a last alternative of one character is never
tried: `{a,b}` does not match `b` and `{a}` does not match `a`. -/
theorem brace_last_alternative_skipped :
    glob "\x7ba,b\x7d" "b" = .ret DIR_GLOB_NO_MATCH
      ∧ glob "\x7ba\x7d" "a" = .ret DIR_GLOB_NO_MATCH
      ∧ glob "\x7bfoo,b\x7d.txt" "b.txt" = .ret DIR_GLOB_NO_MATCH
      ∧ glob "\x7bb,a\x7d" "b" = .ret DIR_GLOB_MATCH := by
  decide

/-- C10: the claim asks that paths which agree after every run of `/` and
backslash is collapsed to one `/` get the same result. A literal `/` of the
pattern is compared like any other character: `a/b` matches the path `a/b` but
neither `a\b` nor `a//b`. -/
theorem literal_slash_is_exact :
    glob "a/b" "a/b" = .ret DIR_GLOB_MATCH
      ∧ glob "a/b" "a\\b" = .ret DIR_GLOB_NO_MATCH
      ∧ glob "a/b" "a//b" = .ret DIR_GLOB_NO_MATCH := by
  decide

/-- C11 as stated fails when the candidate stops matching before the `**`: the
pattern `a**b` holds a `**` that is followed by `b`, yet against the path `x` the
result is `DIR_GLOB_NO_MATCH`; and a `**` inside a bracket set is two literal
characters. -/
theorem malformed_double_star_not_reached :
    glob "a**b" "x" = .ret DIR_GLOB_NO_MATCH ∧ glob "[**]" "*" = .ret DIR_GLOB_MATCH := by
  decide

/-- C11 (amended): a malformed `**` makes the pattern invalid when the match gets
as far as it. For a pattern `q ++ "**" ++ x ++ r`, where `q` is a sequence of
well-formed items, `x` is a character other than `/` (and not the end of the
pattern) and `r` is any rest, and for every path array: when `dir_glob_match`
with the pattern cut off behind the two stars, `q ++ "**"`, returns
`DIR_GLOB_MATCH` (the path matches as far as the stars), `dir_glob_match` with
the whole pattern returns `DIR_GLOB_INVALID_PATTERN`; when the former returns
`DIR_GLOB_NO_MATCH`, so does the latter; and the former returns nothing else. -/
theorem malformed_double_star_reached (q r sa sp p : List Char) (x : Char)
    (res : dir_glob_result) (hq : items_ok q) (hx : x ≠ '/') (hx0 : x ≠ NUL) (hr : NUL ∉ r)
    (hlen : (q ++ '*' :: '*' :: x :: r).length < 2 ^ 32)
    (h : dir_glob_match (cstr (q ++ ['*', '*']) sa) p = .ret res) :
    dir_glob_match (cstr (q ++ '*' :: '*' :: x :: r) sp) p
        = .ret (if res = DIR_GLOB_MATCH then DIR_GLOB_INVALID_PATTERN else DIR_GLOB_NO_MATCH)
      ∧ res ≠ DIR_GLOB_INVALID_PATTERN := by
  have hq0 := items_ok_no_nul hq
  have hs0 : ('*' : Char) ≠ NUL := by decide
  have hA0 : NUL ∉ q ++ ['*', '*'] := by
    intro hm
    simp only [List.mem_append, List.mem_cons, List.mem_singleton, List.not_mem_nil,
      or_false] at hm
    rcases hm with hm | hm | hm
    · exact hq0 hm
    · exact hs0 hm.symm
    · exact hs0 hm.symm
  have hB0 : NUL ∉ q ++ '*' :: '*' :: x :: r := by
    intro hm
    simp only [List.mem_append, List.mem_cons] at hm
    rcases hm with hm | hm | hm | hm | hm
    · exact hq0 hm
    · exact hs0 hm.symm
    · exact hs0 hm.symm
    · exact hx0 hm.symm
    · exact hr hm
  have hlenA : (q ++ ['*', '*']).length < 2 ^ 32 := by
    simp only [List.length_append, List.length_cons, List.length_nil] at hlen ⊢
    omega
  rw [dir_glob_match_cstr _ sa _ hA0 hlenA] at h
  rw [dir_glob_match_cstr _ sp _ hB0 hlen]
  have hmA : (cstr (q ++ ['*', '*']) sa).drop 0 = q ++ '*' :: '*' :: NUL :: sa := by
    simp [cstr]
  have hmB : (cstr (q ++ '*' :: '*' :: x :: r) sp).drop 0
      = q ++ '*' :: '*' :: x :: (r ++ NUL :: sp) := by
    simp [cstr]
  rcases malformed_sync (cstr (q ++ ['*', '*']) sa) (cstr (q ++ '*' :: '*' :: x :: r) sp) p
    (q ++ ['*', '*']).length (q ++ '*' :: '*' :: x :: r).length x hx hx0 q hq 0 sa
    (r ++ NUL :: sp) ((cstr (q ++ ['*', '*']) sa).length + 1)
    ((cstr (q ++ '*' :: '*' :: x :: r) sp).length + 1) 0 res hmA hmB
    (by simp) (by simp) (by omega) h with ⟨e1, e2⟩ | ⟨e1, e2⟩
  · rw [e2, e1]
    exact ⟨rfl, by decide⟩
  · rw [e2, e1]
    exact ⟨rfl, by decide⟩

theorem malformed_double_star_reached_witness :
    glob "a**b" "ax" = .ret DIR_GLOB_INVALID_PATTERN
      ∧ glob "?**b" "xy" = .ret DIR_GLOB_INVALID_PATTERN
      ∧ glob "[a]**b" "a" = .ret DIR_GLOB_INVALID_PATTERN
      ∧ glob "**/a**b" "x/ay" = .ret DIR_GLOB_INVALID_PATTERN
      ∧ glob "{ab,cd}*/**x" "cdz/q" = .ret DIR_GLOB_INVALID_PATTERN
      ∧ glob "*.c**b" "x/y.c" = .ret DIR_GLOB_NO_MATCH :=
  ⟨(malformed_double_star_reached "a".toList [] [] [] (cstr "ax".toList []) 'b' DIR_GLOB_MATCH
      (items_ok.char 'a' [] (by decide) (by decide) (by decide) (by decide) items_ok.nil)
      (by decide) (by decide) (by decide) (by decide) (by decide)).1,
   (malformed_double_star_reached "?".toList [] [] [] (cstr "xy".toList []) 'b' DIR_GLOB_MATCH
      (items_ok.char '?' [] (by decide) (by decide) (by decide) (by decide) items_ok.nil)
      (by decide) (by decide) (by decide) (by decide) (by decide)).1,
   (malformed_double_star_reached "[a]".toList [] [] [] (cstr "a".toList []) 'b' DIR_GLOB_MATCH
      (items_ok.set false [set_item.single 'a'] [] (by decide) (by decide) items_ok.nil)
      (by decide) (by decide) (by decide) (by decide) (by decide)).1,
   (malformed_double_star_reached "**/a".toList [] [] [] (cstr "x/ay".toList []) 'b'
      DIR_GLOB_MATCH
      (items_ok.double_star_sep _ (items_ok.char 'a' [] (by decide) (by decide) (by decide)
        (by decide) items_ok.nil))
      (by decide) (by decide) (by decide) (by decide) (by decide)).1,
   (malformed_double_star_reached "{ab,cd}*/".toList [] [] [] (cstr "cdz/q".toList []) 'x'
      DIR_GLOB_MATCH
      (items_ok.group ["ab".toList, "cd".toList] _ (by decide)
        (items_ok.star_sep _ items_ok.nil))
      (by decide) (by decide) (by decide) (by decide) (by decide)).1,
   (malformed_double_star_reached "*.c".toList [] [] [] (cstr "x/y.c".toList []) 'b'
      DIR_GLOB_NO_MATCH
      (items_ok.star '.' _ (by decide) (by decide) (by decide)
        (items_ok.char '.' _ (by decide) (by decide) (by decide) (by decide)
          (items_ok.char 'c' [] (by decide) (by decide) (by decide) (by decide) items_ok.nil)))
      (by decide) (by decide) (by decide) (by decide) (by decide)).1⟩

/-- C12: the visited set does not depend on the ordering flag. In a directory
tree (every listing well formed, no probe error), when `dir_walkex` with `flags`
returns, `dir_walkex` with `DIR_WALK_DEPTH_FIRST` toggled returns the same
result and calls the callback on the same collection of (path, path_len, type)
triples, and no run passes a path to the callback twice. -/
theorem visited_set_independent_of_order (fs : filesystem) (path : List Char) (flags : Nat)
    (gd gf : Option (List Char)) (path_buffer : List Char) (res : dir_error)
    (evs : List walk_event) (htree : tree_ok fs (dir_walk_slash_by_flags flags))
    (hpb : path_buffer.length = 4096)
    (h : dir_walkex fs path flags gd gf path_buffer = .ret (res, evs)) :
    ∃ evs2, dir_walkex fs path (flags ^^^ DIR_WALK_DEPTH_FIRST) gd gf path_buffer
        = .ret (res, evs2) ∧
      evs.Perm evs2 ∧ (evs.map walk_event.path).Nodup ∧ (evs2.map walk_event.path).Nodup := by
  rcases dir_walkex_rel fs path flags (flags ^^^ DIR_WALK_DEPTH_FIRST) gd gf path_buffer res evs
    (same_walk_toggle_depth_first flags) htree (by omega) h with
    ⟨he, h2⟩ | ⟨root, gde, ns, a, b, _, _, _, _, _, hsh, he, h2⟩
  · exact ⟨[], h2, by rw [he], by rw [he]; simp, by simp⟩
  · refine ⟨_, h2, ?_, ?_, ?_⟩
    · rw [he, offset_of_toggle_depth_first]
      refine List.Perm.map _ ?_
      split <;> split
      · exact List.Perm.refl _
      · exact hsh.perm.symm
      · exact hsh.perm
      · exact List.Perm.refl _
    · rw [he]
      refine hsh.nodup_render _ (offset_of_le _ _) _ ?_
      split
      · exact hsh.perm.symm
      · exact List.Perm.refl _
    · refine hsh.nodup_render _ (offset_of_le _ _) _ ?_
      split
      · exact hsh.perm.symm
      · exact List.Perm.refl _

set_option maxRecDepth 100000 in
theorem visited_set_independent_of_order_witness :
    ∃ evs2, dir_walkex fs_sample (cstr " root/ ".toList []) (0 ^^^ DIR_WALK_DEPTH_FIRST) none
        (some (cstr "*.c".toList [])) stack_buffer = .ret (DIR_ERROR_OK, evs2) ∧
      [(⟨"root/a".toList, 6, DIR_ITEM_DIR⟩ : walk_event),
        ⟨"root/a/x.c".toList, 10, DIR_ITEM_FILE⟩, ⟨"root/a/sub".toList, 10, DIR_ITEM_DIR⟩,
        ⟨"root/a/sub/y.c".toList, 14, DIR_ITEM_FILE⟩, ⟨"root/b".toList, 6, DIR_ITEM_DIR⟩].Perm
        evs2 ∧
      ([(⟨"root/a".toList, 6, DIR_ITEM_DIR⟩ : walk_event),
        ⟨"root/a/x.c".toList, 10, DIR_ITEM_FILE⟩, ⟨"root/a/sub".toList, 10, DIR_ITEM_DIR⟩,
        ⟨"root/a/sub/y.c".toList, 14, DIR_ITEM_FILE⟩, ⟨"root/b".toList, 6, DIR_ITEM_DIR⟩].map
        walk_event.path).Nodup ∧
      (evs2.map walk_event.path).Nodup :=
  visited_set_independent_of_order fs_sample (cstr " root/ ".toList []) 0 none
    (some (cstr "*.c".toList [])) stack_buffer DIR_ERROR_OK _
    (tree_ok_of_table _ _ (by decide)) (List.length_replicate _ _) (by decide)

/-- C13: a directory against its contents. In a directory tree, when a
directory `d` and an entry `e` beneath it (the path of `e` is the path of `d`, a
separator and more) are both passed to the callback, the call for `e` comes
before the call for `d` when `DIR_WALK_DEPTH_FIRST` is set and after it when it
is not. -/
theorem directory_against_contents (fs : filesystem) (path : List Char) (flags : Nat)
    (gd gf : Option (List Char)) (path_buffer : List Char) (res : dir_error)
    (evs : List walk_event) (htree : tree_ok fs (dir_walk_slash_by_flags flags))
    (hpb : path_buffer.length = 4096)
    (h : dir_walkex fs path flags gd gf path_buffer = .ret (res, evs))
    (d e : walk_event) (rest : List Char) (hd : d ∈ evs) (he : e ∈ evs)
    (hdir : d.type = DIR_ITEM_DIR)
    (hbeneath : e.path = d.path ++ dir_walk_slash_by_flags flags :: rest) :
    if flags &&& DIR_WALK_DEPTH_FIRST ≠ 0 then before e d evs else before d e evs := by
  rcases dir_walkex_rel fs path flags flags gd gf path_buffer res evs
    (same_walk_refl flags) htree (by omega) h with
    ⟨hnil, _⟩ | ⟨root, gde, ns, a, b, _, _, _, _, _, hsh, hevs, _⟩
  · rw [hnil] at hd; cases hd
  · have hmem : ∀ x ∈ evs, ∃ p, p ∈ a ∧ x = render (offset_of flags root.length) p := by
      intro x hx
      rw [hevs] at hx
      obtain ⟨p, hp, hpx⟩ := List.mem_map.1 hx
      refine ⟨p, ?_, hpx.symm⟩
      split at hp
      · exact hsh.perm.symm.subset hp
      · exact hp
    obtain ⟨⟨dp, dty⟩, hda, hdr⟩ := hmem d hd
    obtain ⟨⟨ep, ety⟩, hea, her⟩ := hmem e he
    have hdty : dty = DIR_ITEM_DIR := by rw [hdr] at hdir; exact hdir
    subst hdty
    obtain ⟨n1, _, r1, hf1, _⟩ := hsh.form _ hda
    obtain ⟨n2, _, r2, hf2, _⟩ := hsh.form _ hea
    simp only at hf1 hf2
    have hep : ep = dp ++ dir_walk_slash_by_flags flags :: rest := by
      have e1 : dp = (root ++ [dir_walk_slash_by_flags flags]) ++ (n1 ++ r1) := by
        rw [hf1]; simp
      have e2 : ep = (root ++ [dir_walk_slash_by_flags flags]) ++ (n2 ++ r2) := by
        rw [hf2]; simp
      rw [hdr, her] at hbeneath
      simp only [render] at hbeneath
      rw [e1, e2] at hbeneath ⊢
      exact drop_eq_of_common_start _ _ _ _ _
        (by have := offset_of_le flags root.length; simpa using this) hbeneath
    obtain ⟨o1, o2⟩ := hsh.order dp ep ety rest hda hea hep
    rw [hevs, hdr, her]
    split
    · exact before_map _ o2
    · exact before_map _ o1

set_option maxRecDepth 100000 in
theorem directory_against_contents_witness :
    if DIR_WALK_DEPTH_FIRST &&& DIR_WALK_DEPTH_FIRST ≠ 0 then
      before (⟨"root/a/sub/y.c".toList, 14, DIR_ITEM_FILE⟩ : walk_event)
        ⟨"root/a".toList, 6, DIR_ITEM_DIR⟩
        [⟨"root/a/x.c".toList, 10, DIR_ITEM_FILE⟩, ⟨"root/a/sub/y.c".toList, 14, DIR_ITEM_FILE⟩,
          ⟨"root/a/sub".toList, 10, DIR_ITEM_DIR⟩, ⟨"root/a".toList, 6, DIR_ITEM_DIR⟩,
          ⟨"root/f.txt".toList, 10, DIR_ITEM_FILE⟩, ⟨"root/b".toList, 6, DIR_ITEM_DIR⟩]
    else
      before (⟨"root/a".toList, 6, DIR_ITEM_DIR⟩ : walk_event)
        ⟨"root/a/sub/y.c".toList, 14, DIR_ITEM_FILE⟩
        [⟨"root/a/x.c".toList, 10, DIR_ITEM_FILE⟩, ⟨"root/a/sub/y.c".toList, 14, DIR_ITEM_FILE⟩,
          ⟨"root/a/sub".toList, 10, DIR_ITEM_DIR⟩, ⟨"root/a".toList, 6, DIR_ITEM_DIR⟩,
          ⟨"root/f.txt".toList, 10, DIR_ITEM_FILE⟩, ⟨"root/b".toList, 6, DIR_ITEM_DIR⟩] :=
  directory_against_contents fs_sample (cstr "root".toList []) DIR_WALK_DEPTH_FIRST none none
    stack_buffer DIR_ERROR_OK _ (tree_ok_of_table _ _ (by decide)) (List.length_replicate _ _)
    (by decide) ⟨"root/a".toList, 6, DIR_ITEM_DIR⟩ ⟨"root/a/sub/y.c".toList, 14, DIR_ITEM_FILE⟩
    "sub/y.c".toList (by decide) (by decide) rfl (by decide)

/-- C14: root-relative and absolute paths. When `dir_walkex` returns for `flags`
without `DIR_WALK_ROOT_RELATIVE_PATHS`, it returns the same result with that
flag, and its calls are the calls for `flags` with `root.length + 1` characters
removed from every path and `path_len` reduced by as much; every path passed for
`flags` is the tidied root, one separator and a text that is not empty, which is
the root-relative path. -/
theorem root_relative_strips_root (fs : filesystem) (path : List Char) (flags : Nat)
    (gd gf : Option (List Char)) (path_buffer : List Char) (res : dir_error)
    (evs : List walk_event) (htree : tree_ok fs (dir_walk_slash_by_flags flags))
    (hpb : path_buffer.length = 4096) (hrr : flags &&& DIR_WALK_ROOT_RELATIVE_PATHS = 0)
    (h : dir_walkex fs path flags gd gf path_buffer = .ret (res, evs)) :
    ∃ root, dir_walkex fs path (flags ||| DIR_WALK_ROOT_RELATIVE_PATHS) gd gf path_buffer
        = .ret (res, evs.map (fun e =>
            ⟨e.path.drop (root.length + 1), e.path_len - (root.length + 1), e.type⟩)) ∧
      ∀ e ∈ evs, tidied_root path flags path_buffer = .ret root ∧
        ∃ r, r ≠ [] ∧ e.path = root ++ dir_walk_slash_by_flags flags :: r ∧
          e.path_len = e.path.length ∧ e.path.drop (root.length + 1) = r := by
  rcases dir_walkex_rel fs path flags (flags ||| DIR_WALK_ROOT_RELATIVE_PATHS) gd gf path_buffer
    res evs (same_walk_root_relative flags) htree (by omega) h with
    ⟨he, h2⟩ | ⟨root, gde, ns, a, b, hroot, _, _, hrl, _, hsh, he, h2⟩
  · refine ⟨[], ?_, ?_⟩
    · rw [h2, he]; rfl
    · intro e hmem; rw [he] at hmem; cases hmem
  · rw [offset_of_absolute flags _ hrr] at he
    rw [offset_of_root_relative flags _ (by omega), depth_first_root_relative] at h2
    refine ⟨root, ?_, ?_⟩
    · rw [h2, he, List.map_map]
      congr 2
    · intro e hmem
      rw [he] at hmem
      obtain ⟨p, hp, hpe⟩ := List.mem_map.1 hmem
      have hpa : p ∈ a := by
        split at hp
        · exact hsh.perm.symm.subset hp
        · exact hp
      obtain ⟨n, hn, r, hf, _⟩ := hsh.form p hpa
      refine ⟨hroot, n ++ r, ?_, ?_, ?_, ?_⟩
      · intro h0
        exact (hsh.names n hn).1 (List.append_eq_nil.1 h0).1
      · rw [← hpe, render_zero, hf]; simp
      · rw [← hpe, render_zero]
      · rw [← hpe, render_zero, hf]
        simp

set_option maxRecDepth 100000 in
theorem root_relative_strips_root_witness :
    ∃ root, dir_walkex fs_sample (cstr "root".toList []) (0 ||| DIR_WALK_ROOT_RELATIVE_PATHS)
        (some (cstr "a".toList [])) none stack_buffer
        = .ret (DIR_ERROR_OK, [(⟨"root/a".toList, 6, DIR_ITEM_DIR⟩ : walk_event),
            ⟨"root/a/x.c".toList, 10, DIR_ITEM_FILE⟩,
            ⟨"root/f.txt".toList, 10, DIR_ITEM_FILE⟩].map (fun e =>
            ⟨e.path.drop (root.length + 1), e.path_len - (root.length + 1), e.type⟩)) ∧
      ∀ e ∈ [(⟨"root/a".toList, 6, DIR_ITEM_DIR⟩ : walk_event),
            ⟨"root/a/x.c".toList, 10, DIR_ITEM_FILE⟩, ⟨"root/f.txt".toList, 10, DIR_ITEM_FILE⟩],
        tidied_root (cstr "root".toList []) 0 stack_buffer = .ret root ∧
        ∃ r, r ≠ [] ∧ e.path = root ++ dir_walk_slash_by_flags 0 :: r ∧
          e.path_len = e.path.length ∧ e.path.drop (root.length + 1) = r :=
  root_relative_strips_root fs_sample (cstr "root".toList []) 0 (some (cstr "a".toList [])) none
    stack_buffer DIR_ERROR_OK _ (tree_ok_of_table _ _ (by decide)) (List.length_replicate _ _)
    (by decide) (by decide)

set_option maxRecDepth 100000 in
/-- C15: the claim asks that every directory passed to the callback or gone into
has a root-relative path `r` with `dir_glob_match(g, r) = DIR_GLOB_MATCH`, and
that a directory whose relative path does not match is neither passed nor gone
into. The case `?` of `dir_glob_match_impl` tests only `DIR_IS_SEP`, so it steps
over the terminator of the relative path, and the verdict is read from the cell
behind it, which holds what an earlier entry left in the path buffer. With the
directory pattern `a?` and `root` listing `ab` and then `a`, the directory
`root/a` is passed and gone into: the cell behind its terminator is the
terminator of `ab`. With `a` listed first, the same directory is neither passed
nor gone into. On the relative path `a` by itself `dir_glob_match` reads outside
the string, and its result is `DIR_GLOB_NO_MATCH` or `DIR_GLOB_MATCH` with what
lies behind the terminator. -/
theorem stale_cell_lets_directory_pass :
    dir_walkex fs_short_after_long (cstr "root".toList []) 0 (some (cstr "a?".toList [])) none
        stack_buffer
      = .ret (DIR_ERROR_OK, [⟨"root/ab".toList, 7, DIR_ITEM_DIR⟩,
          ⟨"root/a".toList, 6, DIR_ITEM_DIR⟩, ⟨"root/a/f".toList, 8, DIR_ITEM_FILE⟩])
      ∧ dir_walkex fs_long_after_short (cstr "root".toList []) 0 (some (cstr "a?".toList []))
        none stack_buffer
      = .ret (DIR_ERROR_OK, [⟨"root/ab".toList, 7, DIR_ITEM_DIR⟩])
      ∧ glob "a?" "a" = .oob
      ∧ dir_glob_match (cstr "a?".toList []) (cstr "a".toList ['b', NUL]) = .ret DIR_GLOB_NO_MATCH
      ∧ dir_glob_match (cstr "a?".toList []) (cstr "a".toList [NUL]) = .ret DIR_GLOB_MATCH
      ∧ glob "?" "" = .oob := by
  decide

set_option maxRecDepth 8000 in
/-- C17: the claim asks that an error in a subdirectory reaches the caller. The
recursive call of `dir_walk_impl` is a statement whose value is dropped: when
`root/sub` cannot be opened (`DIR_ERROR_PATH_DO_NOT_EXIST` for that call), or
when a probe fails inside it (`DIR_ERROR_FAILED`), `dir_walkex` still returns
`DIR_ERROR_OK`; only an error of the root directory itself is returned. -/
theorem subdirectory_error_is_dropped :
    dir_walkex fs_closed_sub (cstr "root".toList []) 0 none none stack_buffer
        = .ret (DIR_ERROR_OK, [⟨"root/sub".toList, 8, DIR_ITEM_DIR⟩])
      ∧ dir_walkex fs_failing_probe (cstr "root".toList []) 0 none none stack_buffer
        = .ret (DIR_ERROR_OK, [⟨"root/sub".toList, 8, DIR_ITEM_DIR⟩])
      ∧ dir_walkex fs_closed_sub (cstr "nowhere".toList []) 0 none none stack_buffer
        = .ret (DIR_ERROR_PATH_DO_NOT_EXIST, []) := by
  decide

/-- C18: on the empty path, and on a path of white space or quotes only,
`dir_path_tidy` leaves no string at all: `dir_walk_path_trimwhite_unquote` comes
to `path_len = 0` and then reads `path_buffer[path_len - 1]`, a cell outside the
array. -/
theorem tidy_of_empty_path_leaves_the_array :
    dir_path_tidy (cstr [] []) '/' 0 = .oob
      ∧ dir_path_tidy (cstr " ".toList []) '/' 0 = .oob
      ∧ dir_path_tidy (cstr "\"".toList []) '\\' 1 = .oob
      ∧ dir_path_tidy (cstr " \t".toList "xyz".toList) '\\' 2 = .oob := by
  decide

/-- C19, as stated, fails: the separator at the end is removed after the
trimming, so the path `a /` becomes `a `, which ends with a space. -/
theorem tidy_result_ends_with_space :
    dir_path_tidy (cstr "a /".toList []) '/' 0 = .ret ("a ".toList ++ [NUL, NUL], 2)
      ∧ "a ".toList.getLast? = some ' ' ∧ dir_walk_iswhite ' ' = true := by
  decide

/-- C19, amended: for a path `leading ++ core ++ trailing`, where `leading` and
`trailing` hold white space and double quotes only and `core` begins with `z1`
and ends with `z2`, neither of them such a character, `dir_path_tidy` returns
and leaves a string `P` of the returned length that does not begin with white
space or a double quote, and that does not end with one when `z2` is not a
separator. -/
theorem tidy_trims_around_the_core (leading mid trailing slack : List Char) (z1 z2 : Char)
    (core : List Char) (hcore : core = z1 :: mid ∧ core.getLast? = some z2) (hc0 : NUL ∉ core)
    (hz1 : ¬ trimmed_char z1) (hz2 : ¬ trimmed_char z2)
    (hl : ∀ x ∈ leading, trimmed_char x) (ht : ∀ x ∈ trailing, trimmed_char x)
    (hlen : (leading ++ core ++ trailing).length < 2 ^ 32) (slash : Char)
    (hslash : slash = '/' ∨ slash = '\\') (len : Nat)
    (hlen2 : len = 0 ∨ len = (leading ++ core ++ trailing).length) :
    ∃ P R, dir_path_tidy (cstr (leading ++ core ++ trailing) slack) slash len
        = .ret (P ++ NUL :: R, P.length) ∧ NUL ∉ P
      ∧ (∀ y, P.head? = some y → ¬ trimmed_char y)
      ∧ (¬ DIR_IS_SEP z2 = true → ∀ y, P.getLast? = some y → ¬ trimmed_char y) := by
  obtain ⟨R, hR⟩ := dir_path_tidy_spec leading mid trailing slack z1 z2 core hcore hc0 hz1 hz2
    hl ht hlen slash len hlen2
  have hs0 : slash ≠ NUL := by rcases hslash with h | h <;> rw [h] <;> decide
  have hst : ¬ trimmed_char slash := by rcases hslash with h | h <;> rw [h] <;> decide
  refine ⟨_, R, hR, ?_, ?_, ?_⟩
  · intro h
    exact convert_spec_no_nul slash hs0 core hc0 ((strip_last_sep_initial _).subset h)
  · intro y hy
    have h1 := strip_last_sep_head _ y hy
    rw [hcore.1, convert_spec_head] at h1
    simp only [Option.some.injEq] at h1
    rw [← h1]
    split
    · exact hst
    · exact hz1
  · intro hz2s y hy
    have h1 := convert_spec_getLast slash z2 hz2s core hcore.2
    rw [strip_last_sep_of_plain _ z2 h1 hz2s, h1] at hy
    simp only [Option.some.injEq] at hy
    rw [← hy]
    exact hz2

theorem tidy_trims_around_the_core_witness :
    ∃ P R, dir_path_tidy (cstr (" \"".toList ++ "a b//c".toList ++ "\" ".toList) []) '\\' 0
        = .ret (P ++ NUL :: R, P.length) ∧ NUL ∉ P
      ∧ (∀ y, P.head? = some y → ¬ trimmed_char y)
      ∧ (¬ DIR_IS_SEP 'c' = true → ∀ y, P.getLast? = some y → ¬ trimmed_char y) :=
  tidy_trims_around_the_core " \"".toList " b//c".toList "\" ".toList [] 'a' 'c'
    "a b//c".toList (by decide) (by decide) (by decide) (by decide) (by decide) (by decide)
    (by decide) '\\' (Or.inr rfl) 0 (Or.inl rfl)

/-- C20: the claim asks for a null pointer and length `0` when the final segment
holds no `.`. For `dir/file` the scan stops at the separator and the code only
tests that the character before it is no separator: it returns `path + 4`
(`file`) with length `4`; a path without a separator (`file`) gives the null
pointer. -/
theorem extension_of_path_without_dot :
    dir_path_extension (cstr "dir/file".toList []) 8 = .ret (some 4, 4)
      ∧ dir_path_extension (cstr "a/b".toList []) 3 = .ret (some 2, 1)
      ∧ dir_path_extension (cstr "file".toList []) 4 = .ret (none, 0)
      ∧ dir_path_extension (cstr "dir/file.txt".toList []) 12 = .ret (some 9, 3) := by
  decide

/-- C21: the claim asks for an attempt at every suffix behind a run of
separators and for `DIR_GLOB_NO_MATCH` only when every attempt fails. The loop
of the `**/` case looks for the next run from `sub_search + 1` on: a single
separator at the start of the candidate is stepped over (`**/a` does not match
`/a`, though `a` matches `a` and `**/a` matches `//a`), and after a failed
attempt at an empty rest the search starts behind the terminator (`**/a` against
the empty path reads outside the array, and matches when the bytes behind the
terminator are `/a`). -/
theorem double_star_slash_misses_boundary :
    glob "**/a" "/a" = .ret DIR_GLOB_NO_MATCH
      ∧ glob "a" "a" = .ret DIR_GLOB_MATCH
      ∧ glob "**/a" "//a" = .ret DIR_GLOB_MATCH
      ∧ glob "**/a" "" = .oob
      ∧ glob "**/a" "x/" = .oob
      ∧ glob "a" "" = .ret DIR_GLOB_NO_MATCH
      ∧ dir_glob_match (cstr "**/a".toList []) (cstr [] ("/a".toList ++ [NUL]))
          = .ret DIR_GLOB_MATCH := by
  decide

set_option maxRecDepth 100000 in
/-- C22: the claim asks that the buffer holds the path of the call again on
every exit. When the probe of an entry fails, `dir_walk_impl` leaves by
`return DIR_ERROR_FAILED` from inside the loop and the terminator is not put
back: called for `root/sub`, it returns with `root/sub/x` in the buffer (`x` is
the entry before the one whose probe failed). With `DIR_WALK_DEPTH_FIRST` the
caller then passes the directory `root/sub` to the callback under the path
`root/sub/x`. -/
theorem failed_probe_leaves_entry_in_buffer :
    (dir_walk_impl fs_probe_after_entry 4 none none none none 0 4096
        (cstr "root/sub".toList (List.replicate 4087 'x')) 8 4088 >>= fun out =>
          c_string_at out.path_buffer 0 >>= fun s => pure (out.result, s))
        = .ret (DIR_ERROR_FAILED, "root/sub/x".toList)
      ∧ c_string_at (cstr "root/sub".toList (List.replicate 4087 'x')) 0
        = .ret "root/sub".toList
      ∧ dir_walkex fs_probe_after_entry (cstr "root".toList []) DIR_WALK_DEPTH_FIRST none none
          stack_buffer
        = .ret (DIR_ERROR_OK, [⟨"root/sub/x".toList, 10, DIR_ITEM_FILE⟩,
            ⟨"root/sub/x".toList, 8, DIR_ITEM_DIR⟩]) := by
  decide

set_option maxRecDepth 100000 in
/-- C23: the claim asks that an entry of unknown type is classified by the probe
of its own path. `stat( path_buffer )` runs before the name is put behind the
path, so it probes what the buffer holds from before: in `root`, the file `f` is
classified by the probe of `root` (a directory) and the directory `d` by the
probe of `root/f` (not a directory). The callback gets `root/f` as a directory
and `root/d` as a file, and `root/d` is not walked. -/
theorem unknown_type_probes_the_wrong_path :
    dir_walkex fs_unknown_types (cstr "root".toList []) 0 none none stack_buffer
        = .ret (DIR_ERROR_OK, [⟨"root/f".toList, 6, DIR_ITEM_DIR⟩,
            ⟨"root/d".toList, 6, DIR_ITEM_FILE⟩])
      ∧ fs_unknown_types.stat "root/f".toList = some false
      ∧ fs_unknown_types.stat "root/d".toList = some true
      ∧ fs_unknown_types.stat "root".toList = some true := by
  decide

set_option maxRecDepth 100000 in
/-- C25: the claim asks that the trimming never reads `path_buffer[path_len - 1]`
with `path_len` equal to `0`. The first loop of `dir_walk_path_trimwhite_unquote`
tests `path_buffer[path_len - 1] == '"'` whenever the test for white space
fails, also with `path_len == 0`: for the empty path, and for a path of white
space only, the read is outside the array, and so it is in `dir_walkex`. -/
theorem trimming_reads_before_the_buffer :
    dir_walk_path_trimwhite_unquote (cstr [] []) 0 = .oob
      ∧ dir_walk_path_trimwhite_unquote (cstr " ".toList []) 1 = .oob
      ∧ dir_walk_path_trimwhite_unquote (cstr " \t".toList "xyz".toList) 2 = .oob
      ∧ trim_tail_loop (cstr [] []) 1 0 = rd (cstr [] []) (usub 0 1) >>= (fun _ => .nofuel)
      ∧ usub 0 1 = 4294967295
      ∧ dir_walkex fs_sample (cstr [] []) 0 none none stack_buffer = .oob
      ∧ dir_walkex fs_sample (cstr " ".toList []) 0 none none stack_buffer = .oob := by
  decide

/-- C24: the walk never writes outside its path buffer of 4096 cells. Every call
of `dir_walk_impl` that `dir_walkex` makes, the first one and every recursive one
at any depth, is within the invariant `in_buffer` (the buffer has its 4096
cells, `path_len + path_buffer_size = 4096`, `path_buffer_size ≥ 1`): the walk in
which a call outside the invariant is not run but answered by an arbitrary
`other` is the same walk, whatever `other` is. And in every call within the
invariant: `path_len` is below 4096 and the restoring write
`path_buffer[path_len] = 0` is inside the array; the call gives the buffer back
with its 4096 cells; and for a pass of the loop body that comes to
`item_len = dir_strlen32( item_name )`: when `item_len + 2` exceeds
`path_buffer_size`, the pass leaves the loop with `DIR_ERROR_PATH_TOO_DEEP` and
the buffer as it was; otherwise the greatest index written,
`path_len + item_len + 1`, is below 4096, the two writes of `dir_walk_append`
stay inside the array, neither `path_len + item_len + 1` nor
`path_buffer_size - item_len - 1` wraps around, and the buffer and these two
values, with which `dir_walk_impl` is called, are within the invariant again. -/
theorem walk_stays_in_buffer (fs : filesystem) (path : List Char) (flags : Nat)
    (gd gf : Option (List Char)) (path_buffer : List Char) (hpb : path_buffer.length = 4096) :
    (∀ other : List Char → Nat → Nat → Exec walk_out,
        dir_walkex_within other fs path flags gd gf path_buffer
          = dir_walkex fs path flags gd gf path_buffer)
    ∧ ∀ (pb : List Char) (pl sz : Nat), in_buffer pb pl sz →
      pl < 4096
      ∧ (∀ b : List Char, b.length = 4096 → ∃ b2, wr b pl NUL = .ret b2)
      ∧ (∀ (root : Nat) (gde gfe : Option Nat) (fuel : Nat) (out : walk_out),
          dir_walk_impl fs root gd gde gf gfe flags fuel pb pl sz = .ret out →
          out.path_buffer.length = 4096)
      ∧ ∀ (root : Nat) (gde gfe : Option Nat) (slash : Char) (swd sidd sidf sccd sccf : Bool)
          (off : Nat) (ent : dirent) (is_dir : Bool),
        (NUL ∈ ent.d_name ∧ ent.d_name.length ≤ 256) →
        dir_walk_is_dir fs ent pb = .ret (some is_dir) →
        dir_walk_skips sidd sidf ent.d_name is_dir = .ret false →
        (sz < (entry_name ent).length + 2 ∧
          ∀ recurse : List Char → Nat → Nat → Exec walk_out,
            dir_walk_body fs recurse root gd gde gf gfe flags slash swd sidd sidf sccd sccf off
                pl sz ent pb
              = .ret (.leave ⟨DIR_ERROR_PATH_TOO_DEEP, false, pb, []⟩))
        ∨ ((entry_name ent).length + 2 ≤ sz ∧ pl + (entry_name ent).length + 1 < 4096 ∧
          u32 (u32 (pl + (entry_name ent).length) + 1) = pl + (entry_name ent).length + 1 ∧
          usub (usub sz (entry_name ent).length) 1 = sz - (entry_name ent).length - 1 ∧
          ∃ b2, dir_walk_append slash pb pl ent.d_name (entry_name ent).length = .ret b2 ∧
            in_buffer b2 (pl + (entry_name ent).length + 1)
              (sz - (entry_name ent).length - 1) ∧
            ∀ rec1 rec2 : List Char → Nat → Nat → Exec walk_out,
              (∀ b p s, in_buffer b p s → rec1 b p s = rec2 b p s) →
              dir_walk_body fs rec1 root gd gde gf gfe flags slash swd sidd sidf sccd sccf off
                  pl sz ent pb
                = dir_walk_body fs rec2 root gd gde gf gfe flags slash swd sidd sidf sccd sccf
                  off pl sz ent pb) := by
  refine ⟨fun other => dir_walkex_within_eq other fs path flags gd gf path_buffer hpb, ?_⟩
  intro pb pl sz hin
  refine ⟨?_, ?_, ?_, ?_⟩
  · have h1 := hin.2.1
    have h2 := hin.2.2
    omega
  · intro b hb
    have h1 := hin.2.1
    have h2 := hin.2.2
    exact wr_returns b pl NUL (by omega)
  · intro root gde gfe fuel out h
    rw [dir_walk_impl_length fs root gd gde gf gfe flags fuel pb pl sz out h]
    exact hin.1
  · intro root gde gfe slash swd sidd sidf sccd sccf off ent is_dir hent hprobe hskip
    exact dir_walk_body_in_buffer fs root gd gde gf gfe flags slash swd sidd sidf sccd sccf off
      pb pl sz ent is_dir hin hent hprobe hskip

set_option maxRecDepth 100000 in
theorem walk_stays_in_buffer_witness :
    stack_buffer.length = 4096
      ∧ dir_walkex fs_sample (cstr "root".toList []) 0 none none stack_buffer
        = .ret (DIR_ERROR_OK, [⟨"root/a".toList, 6, DIR_ITEM_DIR⟩,
            ⟨"root/a/x.c".toList, 10, DIR_ITEM_FILE⟩, ⟨"root/a/sub".toList, 10, DIR_ITEM_DIR⟩,
            ⟨"root/a/sub/y.c".toList, 14, DIR_ITEM_FILE⟩,
            ⟨"root/f.txt".toList, 10, DIR_ITEM_FILE⟩, ⟨"root/b".toList, 6, DIR_ITEM_DIR⟩])
      ∧ (∀ other : List Char → Nat → Nat → Exec walk_out,
        dir_walkex_within other fs_sample (cstr "root".toList []) 0 none none stack_buffer
          = dir_walkex fs_sample (cstr "root".toList []) 0 none none stack_buffer)
      ∧ dir_walkex_within (fun _ _ _ => .oob) fs_sample (cstr "root".toList []) 0 none none
          stack_buffer
        = dir_walkex fs_sample (cstr "root".toList []) 0 none none stack_buffer :=
  ⟨List.length_replicate _ _, by decide,
    (walk_stays_in_buffer fs_sample (cstr "root".toList []) 0 none none stack_buffer
      (List.length_replicate _ _)).1,
    (walk_stays_in_buffer fs_sample (cstr "root".toList []) 0 none none stack_buffer
      (List.length_replicate _ _)).1 _⟩

end Dirutil
